import Mathlib

/-!
Verification of the symbolic Wick-algebra engine, the determinant prefix
trie and the delayed tensor-contraction dispatch of the block2 DMRG code.

The C++ sources are shallowly embedded: each C++ struct becomes a Lean
structure, each member function a Lean function.  `double` factors are
modelled as exact rationals, `std::set` as sorted duplicate-free lists,
`std::map` as sorted association lists, and bounded C++ loops as folds.
Unbounded worklist loops (`WickPermutation::complete_set`, the DFS queue
of `normal_order_impl_new`) take an explicit fuel argument; the fuel is
chosen large enough that it is never exhausted on the inputs covered by
the theorems (for `complete_set` this is proved, for the DFS the
top-level wrapper picks a fuel that bounds the number of tree nodes).
-/

set_option maxHeartbeats 4000000
set_option maxRecDepth 8000

namespace Block2

/-! ## WickIndexTypes: a uint8 bitmask -/

/-- `enum struct WickIndexTypes` is a bitmask over
`{Inactive=1, Active=2, External=4, Alpha=8, Beta=16}`; `None = 0`.
We model the mask as a `Nat` (< 256). -/
abbrev WIT := Nat

def WIT.wNone : WIT := 0
def WIT.inactive : WIT := 1
def WIT.active : WIT := 2
def WIT.external : WIT := 4
def WIT.alpha : WIT := 8
def WIT.beta : WIT := 16

/-- Bit of weight `p` of `a` (`p2 = 2 * p` precomputed), as `0` or `p`. -/
def bitp (p p2 a : Nat) : Nat := if p ≤ a % p2 then p else 0

/-- Conjunction of the bits of weight `p` of `a` and `b`, as `0` or `p`. -/
def bitpAnd (p p2 a b : Nat) : Nat :=
  if p ≤ a % p2 then (if p ≤ b % p2 then p else 0) else 0

/-- Disjunction of the bits of weight `p` of `a` and `b`, as `0` or `p`. -/
def bitpOr (p p2 a b : Nat) : Nat :=
  if p ≤ a % p2 then p else if p ≤ b % p2 then p else 0

/-- `operator&` on the uint8 bitmask: bitwise conjunction of the 8 bits. -/
def witAnd (a b : WIT) : WIT :=
  bitpAnd 1 2 a b + bitpAnd 2 4 a b + bitpAnd 4 8 a b + bitpAnd 8 16 a b +
  bitpAnd 16 32 a b + bitpAnd 32 64 a b + bitpAnd 64 128 a b +
  bitpAnd 128 256 a b

/-- `operator|` on the uint8 bitmask: bitwise disjunction of the 8 bits. -/
def witOr (a b : WIT) : WIT :=
  bitpOr 1 2 a b + bitpOr 2 4 a b + bitpOr 4 8 a b + bitpOr 8 16 a b +
  bitpOr 16 32 a b + bitpOr 32 64 a b + bitpOr 64 128 a b +
  bitpOr 128 256 a b

/-- `operator~` on the uint8 bitmask (complement within 8 bits). -/
def witNot (a : WIT) : WIT := 255 - a % 256

/-! ## WickIndex -/

/-- `struct WickIndex { string name; WickIndexTypes types; }`. -/
structure WickIndex where
  name : String
  types : WIT
deriving DecidableEq, Repr

instance : Inhabited WickIndex := ⟨⟨"", 0⟩⟩

/-- `std::string::operator<` on the character data (lexicographic). -/
def strLtB : List Char → List Char → Bool
  | _, [] => false
  | [], _ :: _ => true
  | a :: as, b :: bs =>
    if decide (a < b) then true
    else if decide (b < a) then false
    else strLtB as bs

/-- `std::string::operator<`. -/
def stringLtB (a b : String) : Bool := strLtB a.data b.data

/-- `WickIndex::operator<`: by `types` first, then by `name`. -/
def wiLtB (a b : WickIndex) : Bool :=
  if a.types == b.types then stringLtB a.name b.name else decide (a.types < b.types)

/-- Lexicographic `<` on `vector<WickIndex>` (C++ `std::vector::operator<`). -/
def wiListLtB : List WickIndex → List WickIndex → Bool
  | _, [] => false
  | [], _ :: _ => true
  | a :: as, b :: bs =>
    if wiLtB a b then true else if wiLtB b a then false else wiListLtB as bs

/-! ### Sorted sets of WickIndex (model of `std::set<WickIndex>`) -/

/-- A `std::set<WickIndex>` is modelled as a list kept sorted (w.r.t.
`wiLtB`) and duplicate-free; iteration order is the sorted order. -/
abbrev WISet := List WickIndex

/-- Ordered insert, no duplicates (`std::set::insert`). -/
def wisInsert : WISet → WickIndex → WISet
  | [], x => [x]
  | y :: ys, x =>
    if wiLtB x y then x :: y :: ys
    else if wiLtB y x then y :: wisInsert ys x
    else y :: ys

/-- Membership test (`std::set::count`). -/
def wisMem (s : WISet) (x : WickIndex) : Bool := s.contains x

/-- `std::set::erase` by value. -/
def wisErase : WISet → WickIndex → WISet
  | [], _ => []
  | y :: ys, x => if y = x then ys else y :: wisErase ys x

/-- Insert many (used for `insert(first, last)` range inserts). -/
def wisInsertMany (s : WISet) (l : List WickIndex) : WISet :=
  l.foldl wisInsert s

/-- Build a set from a list. -/
def wisOfList (l : List WickIndex) : WISet := wisInsertMany [] l

/-- `std::set_intersection` of two sorted sets (result sorted). -/
def wisInter (a b : WISet) : WISet := a.filter (fun x => wisMem b x)

/-- `std::set_union` of two sorted sets (result sorted). -/
def wisUnion (a b : WISet) : WISet := wisInsertMany a b

/-! ## WickPermutation -/

/-- `struct WickPermutation { vector<int16_t> data; bool negative; }`. -/
structure WickPermutation where
  data : List Nat
  negative : Bool
deriving DecidableEq, Repr

instance : Inhabited WickPermutation := ⟨⟨[], false⟩⟩

/-- `WickPermutation::operator*`: `r[i] = data[other.data[i]]`,
sign `negative ^ other.negative`. -/
def WickPermutation.mul (a b : WickPermutation) : WickPermutation :=
  ⟨(List.range a.data.length).map (fun i => a.data.getD (b.data.getD i 0) 0),
   xor a.negative b.negative⟩

/-- The identity permutation `ident` built at the top of `complete_set`. -/
def identPerm (n : Nat) : WickPermutation := ⟨List.range n, false⟩

/-- One step of the `complete_set` worklist loop: take the product of `g`
with every generator and append the products not seen before (the
`unordered_set` is modelled by exact membership in the accumulated list). -/
def csStep (df : List WickPermutation) (vwp : List WickPermutation)
    (g : WickPermutation) : List WickPermutation :=
  df.foldl (fun acc d =>
    let h := g.mul d
    if acc.contains h then acc else acc ++ [h]) vwp

/-- The `for (int k = 0; k < vwp.size(); k++)` loop of `complete_set`,
with fuel. -/
def csLoop (df : List WickPermutation) : Nat → Nat → List WickPermutation →
    List WickPermutation
  | 0, _, vwp => vwp
  | fuel + 1, k, vwp =>
    if h : k < vwp.length then
      csLoop df fuel (k + 1) (csStep df vwp (vwp.get ⟨k, h⟩))
    else vwp

/-- `WickPermutation::complete_set(n, def)`: closure of the generators
under the group product, computed breadth-first starting from the
identity.  Fuel `2 * n ! + 2` suffices whenever the generators are
permutations of `{0..n-1}` (proved below). -/
def completeSet (n : Nat) (df : List WickPermutation) : List WickPermutation :=
  csLoop df (2 * Nat.factorial n + 2) 0 [identPerm n]

/-- `WickPermutation::two_symmetric()`. -/
def twoSymmetric : List WickPermutation := [⟨[1, 0], false⟩]

/-- `WickPermutation::qc_chem()`. -/
def qcChem : List WickPermutation :=
  [⟨[2, 3, 0, 1], false⟩, ⟨[1, 0, 2, 3], false⟩, ⟨[0, 1, 3, 2], false⟩]

/-- `WickPermutation::qc_phys()`. -/
def qcPhys : List WickPermutation :=
  [⟨[0, 3, 2, 1], false⟩, ⟨[2, 1, 0, 3], false⟩, ⟨[1, 0, 3, 2], false⟩]

/-- `WickPermutation::four_anti()`. -/
def fourAnti : List WickPermutation :=
  [⟨[1, 0, 2, 3], true⟩, ⟨[0, 1, 3, 2], true⟩]

/-- `WickPermutation::pair_symmetric(n, hermitian)`. -/
def pairSymmetric (n : Nat) (hermitian : Bool := false) : List WickPermutation :=
  let base := ((List.range n).drop 1).map (fun i =>
    ⟨((List.range n).map (fun j => if j == 0 then i else if j == i then 0 else j)) ++
     ((List.range n).map (fun j =>
        if j == 0 then i + n else if j == i then n else j + n)), false⟩)
  if hermitian then
    base ++ [⟨((List.range n).map (fun j => j + n)) ++ (List.range n).map id, false⟩]
  else base

/-! ## WickTensor -/

/-- `enum struct WickTensorTypes` (the numeric values matter: the code
compares them with `<`). -/
abbrev WTT := Nat

def WTT.creationOp : WTT := 0
def WTT.destroyOp : WTT := 1
def WTT.spinFreeOp : WTT := 2
def WTT.kroneckerDelta : WTT := 3
def WTT.tensorTy : WTT := 4

/-- `struct WickTensor`. -/
structure WickTensor where
  name : String
  indices : List WickIndex
  perms : List WickPermutation
  type : WTT
deriving DecidableEq, Repr

instance : Inhabited WickTensor := ⟨⟨"", [], [], WTT.tensorTy⟩⟩

/-- `WickTensor::reset_permutations`: drop permutations that would pair
index slots with incompatible (disjoint, both typed) type masks. -/
def resetPermutations (indices : List WickIndex) (perms : List WickPermutation) :
    List WickPermutation :=
  perms.filter (fun perm =>
    (List.range indices.length).all (fun i =>
      let tp := (indices.getD (perm.data.getD i 0) default).types
      let ti := (indices.getD i default).types
      !(witAnd tp ti == 0 && tp != 0 && ti != 0)))

/-- The `WickTensor` constructor: completes the permutation generators to
a group and filters them against the index types. -/
def mkWickTensor (name : String) (indices : List WickIndex)
    (perms : List WickPermutation) (type : WTT) : WickTensor :=
  ⟨name, indices, resetPermutations indices (completeSet indices.length perms), type⟩

/-- `WickTensor::operator*(const WickPermutation&)`: permute the indices
and rebuild through the constructor. -/
def WickTensor.applyPerm (t : WickTensor) (perm : WickPermutation) : WickTensor :=
  mkWickTensor t.name
    ((List.range t.indices.length).map
      (fun i => t.indices.getD (perm.data.getD i 0) default))
    t.perms t.type

/-- `WickTensor::fermi_type(occ_type)`: two bits, low bit = is destroy
operator, high bit = (is destroy) xor (first index intersects occ_type). -/
def WickTensor.fermiType (t : WickTensor) (occType : WIT) : Nat :=
  let x : Bool := t.type == WTT.destroyOp
  let y : Bool := !t.indices.isEmpty &&
    witAnd (t.indices.getD 0 default).types occType != 0
  (if x then 1 else 0) + (if x != y then 2 else 0)

/-- The first index's type mask restricted to
`Inactive | Active | External` (= 7), as used by `WickTensor::operator<`. -/
def wtHeadType (a : WickTensor) : WIT :=
  if a.indices.isEmpty then 0 else witAnd (a.indices.getD 0 default).types 7

/-- The `occ_type` computed by `WickTensor::operator<`. -/
def wtOccType (a b : WickTensor) : WIT :=
  let o : WIT := min (wtHeadType a) (wtHeadType b)
  if o == 0 || o == WIT.external ||
      (o == WIT.active && max (wtHeadType a) (wtHeadType b) == WIT.active) then
    WIT.inactive
  else o

/-- `WickTensor::operator<`: occupancy fermi class first, then name, then
indices, then tensor type. -/
def wtLtB (a b : WickTensor) : Bool :=
  let fa := a.fermiType (wtOccType a b)
  let fb := b.fermiType (wtOccType a b)
  if fa != fb then decide (fa < fb)
  else if a.name != b.name then stringLtB a.name b.name
  else if a.type == b.type then wiListLtB a.indices b.indices
  else decide (a.type < b.type)

/-- `WickTensor::operator==` (note: `perms` is not compared). -/
def wtEqB (a b : WickTensor) : Bool :=
  a.type == b.type && a.name == b.name && a.indices == b.indices

/-- `WickTensor::kronecker_delta`. -/
def kroneckerDelta (indices : List WickIndex) : WickTensor :=
  mkWickTensor "delta" indices twoSymmetric WTT.kroneckerDelta

/-- `WickTensor::spin_free`. -/
def spinFree (indices : List WickIndex) : WickTensor :=
  let k := indices.length / 2
  mkWickTensor (String.append "E" (toString k)) indices (pairSymmetric k)
    WTT.spinFreeOp

/-- `WickTensor::cre`. -/
def creOp (index : WickIndex) : WickTensor :=
  mkWickTensor "C" [index] [] WTT.creationOp

/-- `WickTensor::des`. -/
def desOp (index : WickIndex) : WickTensor :=
  mkWickTensor "D" [index] [] WTT.destroyOp

/-- `WickTensor::sort(double&)`: scan the permutation group for the
lexicographically smallest index arrangement; the factor picks up the
sign of the last strictly improving permutation. -/
def WickTensor.sortT (t : WickTensor) (factor : ℚ) : WickTensor × ℚ :=
  let xn := t.perms.foldl (fun (acc : WickTensor × Bool) perm =>
    let z := t.applyPerm perm
    if wiListLtB z.indices acc.1.indices then (z, perm.negative) else acc)
    (t, false)
  (xn.1, if xn.2 then -factor else factor)

/-! ## WickString -/

/-- `struct WickString { vector<WickTensor> tensors; set<WickIndex>
ctr_indices; double factor; }`. -/
structure WickString where
  tensors : List WickTensor
  ctrIndices : WISet
  factor : ℚ
deriving DecidableEq, Repr

instance : Inhabited WickString := ⟨⟨[], [], 0⟩⟩

/-- `WickString::used_indices()`: all indices occurring in the tensors. -/
def WickString.usedIndices (ws : WickString) : WISet :=
  ws.tensors.foldl (fun r ts => wisInsertMany r ts.indices) []

/-- `WickString::abs()`: same tensors and contractions, factor 1. -/
def WickString.absW (ws : WickString) : WickString := ⟨ws.tensors, ws.ctrIndices, 1⟩

/-- `WickString::abs_equal_to` (compares everything except the factor;
tensor comparison ignores `perms`). -/
def absEqualTo (a b : WickString) : Bool :=
  a.tensors.length == b.tensors.length &&
  a.ctrIndices.length == b.ctrIndices.length &&
  (a.tensors.zip b.tensors).all (fun p => wtEqB p.1 p.2) &&
  a.ctrIndices == b.ctrIndices

/-- Lexicographic `<` on `vector<WickTensor>`. -/
def wtListLtB : List WickTensor → List WickTensor → Bool
  | _, [] => false
  | [], _ :: _ => true
  | a :: as, b :: bs =>
    if wtLtB a b then true else if wtLtB b a then false else wtListLtB as bs

/-- `WickString::operator<`: sizes first, then tensors, then contraction
set, then factor. -/
def wsLtB (a b : WickString) : Bool :=
  if a.tensors.length != b.tensors.length then
    a.tensors.length < b.tensors.length
  else if a.ctrIndices.length != b.ctrIndices.length then
    a.ctrIndices.length < b.ctrIndices.length
  else if !((a.tensors.zip b.tensors).all (fun p => wtEqB p.1 p.2)) then
    wtListLtB a.tensors b.tensors
  else if a.ctrIndices != b.ctrIndices then wiListLtB a.ctrIndices b.ctrIndices
  else a.factor < b.factor

/-! ### WickString::operator* (term product with index-collision renaming) -/

/-- `g.name[0] += i`: bump the first character of an index name. -/
def charAdd (s : String) (i : Nat) : String :=
  match s.data with
  | [] => s
  | c :: cs => ⟨Char.ofNat (c.toNat + i) :: cs⟩

/-- The `for (int i = 1; i < 100; i++)` fresh-name search: try bumping the
first character by 1..99 until the name is unused. -/
def findFresh (used : WISet) (idx : WickIndex) : Option WickIndex :=
  (List.range 99).foldl (fun acc i =>
    match acc with
    | some _ => acc
    | none =>
      let g : WickIndex := ⟨charAdd idx.name (i + 1), idx.types⟩
      if wisMem used g then none else some g) none

/-- The loop building `mp_idxs`: walk the (sorted) used-index set and give
every colliding contraction index a fresh name, recording each fresh name
as used.  (Freshly inserted names sort after the current iteration point
in the C++ `std::set` traversal and never satisfy the `a_rep`/`b_rep`
membership test, so iterating over the original set is equivalent.) -/
def mulRenameMap (usedIdxs aRep bRep : WISet) : List (WickIndex × WickIndex) :=
  (usedIdxs.foldl (fun (ac : WISet × List (WickIndex × WickIndex)) idx =>
    if wisMem aRep idx || wisMem bRep idx then
      match findFresh ac.1 idx with
      | some g => (wisInsert ac.1 g, ac.2 ++ [(idx, g)])
      | none => ac
    else ac) (usedIdxs, [])).2

/-- Lookup in the rename map (`mp_idxs.count` / `mp_idxs[]`). -/
def mpLookup (mp : List (WickIndex × WickIndex)) (x : WickIndex) :
    Option WickIndex :=
  (mp.find? (fun p => p.1 = x)).map (·.2)

def mulARep (a b : WickString) : WISet := wisInter a.ctrIndices b.usedIndices
def mulBRep (a b : WickString) : WISet := wisInter b.ctrIndices a.usedIndices
def mulCRep (a b : WickString) : WISet := wisInter a.ctrIndices b.ctrIndices
def mulUsed (a b : WickString) : WISet := wisUnion a.usedIndices b.usedIndices
def mulMp (a b : WickString) : List (WickIndex × WickIndex) :=
  mulRenameMap (mulUsed a b) (mulARep a b) (mulBRep a b)

/-- Renaming applied to indices of the left operand: a contraction index
of `a` that is also used in `b` (and not a shared contraction index) is
replaced by its fresh name. -/
def mulRenameA (a b : WickString) (wi : WickIndex) : WickIndex :=
  match mpLookup (mulMp a b) wi with
  | some g => if wisMem (mulARep a b) wi && !wisMem (mulCRep a b) wi then g else wi
  | none => wi

/-- Renaming applied to indices of the right operand: a contraction index
of `b` that is also used (freely or contracted) in `a` is replaced. -/
def mulRenameB (a b : WickString) (wi : WickIndex) : WickIndex :=
  match mpLookup (mulMp a b) wi with
  | some g => if wisMem (mulBRep a b) wi then g else wi
  | none => wi

/-- `WickString::operator*`: concatenate the tensor lists after renaming
colliding contraction indices, merge the contraction sets accordingly,
multiply the factors. -/
def WickString.mulW (a b : WickString) : WickString :=
  let xtensors :=
    a.tensors.map (fun t => {t with indices := t.indices.map (mulRenameA a b)}) ++
    b.tensors.map (fun t => {t with indices := t.indices.map (mulRenameB a b)})
  let xctr1 := a.ctrIndices.foldl (fun s wi => wisInsert s (mulRenameA a b wi))
    ([] : WISet)
  let xctr := b.ctrIndices.foldl (fun s wi => wisInsert s (mulRenameB a b wi)) xctr1
  ⟨xtensors, xctr, a.factor * b.factor⟩

/-! ### WickString::simplify_delta -/

/-- Replace every occurrence of `ia` or `ib` by `ic` in a tensor's index
list (the substitution step of delta propagation). -/
def replaceIdx (ia ib ic : WickIndex) (t : WickTensor) : WickTensor :=
  {t with indices := t.indices.map (fun k => if k = ia || k = ib then ic else k)}

/-- State of the `simplify_delta` scan: the (mutated) tensor array, the
remaining contraction indices, the factor, and the positions kept. -/
structure SDState where
  xt : List WickTensor
  xc : WISet
  xf : ℚ
  xi : List Nat
deriving Repr

/-- One iteration of the `simplify_delta` loop at position `i`. -/
def sdBody (st : SDState) (i : Nat) : SDState :=
  let t := st.xt.getD i default
  if t.type == WTT.kroneckerDelta then
    let ia := t.indices.getD 0 default
    let ib := t.indices.getD 1 default
    if ia = ib then st
    else if (ia.types != 0 || ib.types != 0) && witAnd ia.types ib.types == 0 then
      {st with xf := 0}
    else if !wisMem st.xc ia && !wisMem st.xc ib then
      let found := st.xi.any (fun j =>
        let u := st.xt.getD j default
        u.type == WTT.kroneckerDelta &&
        ((u.indices.getD 0 default == ia && u.indices.getD 1 default == ib) ||
         (u.indices.getD 0 default == ib && u.indices.getD 1 default == ia)))
      if found then st else {st with xi := st.xi ++ [i]}
    else
      let ic : WickIndex :=
        if wisMem st.xc ia then ⟨ib.name, witAnd ia.types ib.types⟩
        else ⟨ia.name, witAnd ia.types ib.types⟩
      let xc' := if wisMem st.xc ia then wisErase st.xc ia else wisErase st.xc ib
      let xt' := (List.range st.xt.length).map (fun j =>
        if j == i then st.xt.getD j default
        else replaceIdx ia ib ic (st.xt.getD j default))
      {st with xt := xt', xc := xc'}
  else {st with xi := st.xi ++ [i]}

/-- `WickString::simplify_delta()`. -/
def WickString.simplifyDeltaW (ws : WickString) : WickString :=
  let st := (List.range ws.tensors.length).foldl sdBody
    ⟨ws.tensors, ws.ctrIndices, ws.factor, []⟩
  ⟨st.xi.map (fun j => st.xt.getD j default), st.xc, st.xf⟩

/-! ## WickExpr -/

/-- `struct WickExpr { vector<WickString> terms; }`. -/
structure WickExpr where
  terms : List WickString
deriving DecidableEq, Repr

/-- `WickExpr::simplify_zero()`: drop terms whose factor magnitude is at
most `1e-12` or that have no tensors. -/
def WickExpr.simplifyZero (e : WickExpr) : WickExpr :=
  ⟨e.terms.filter (fun rr =>
    decide ((1 : ℚ) / 1000000000000 < |rr.factor|) && !rr.tensors.isEmpty)⟩

/-! ### split_index_types -/

/-- The contraction-index splitting of `split_index_types`: each
contraction index whose type mask covers several of
Inactive/Active/External is split into one copy per covered type. -/
def sitVariants (vidxs : List WickIndex) : List (List WickIndex) :=
  (List.range vidxs.length).foldl (fun xctr i =>
    let ti : WIT := (vidxs.getD i default).types
    let js := ([WIT.inactive, WIT.active, WIT.external].filter (fun ct =>
      witAnd ti ct != 0 && witAnd ti 7 != ct))
    if js.isEmpty then xctr
    else js.flatMap (fun ct => xctr.map (fun v =>
      v.set i
        (let w := v.getD i default
         ⟨w.name, witOr (witAnd w.types (witNot 7)) ct⟩)))) [vidxs]

/-- `WickExpr::split_index_types(const WickString&)`. -/
def splitIndexTypes1 (x : WickString) : WickExpr :=
  let variants := sitVariants x.ctrIndices
  ⟨variants.foldl (fun acc v =>
    let ts := x.tensors.map (fun wt =>
      {wt with indices := wt.indices.map (fun wi0 =>
        v.foldl (fun wi wii =>
          if wi.name == wii.name && witAnd wi.types wii.types != 0 then wii
          else wi) wi0)})
    let fac : ℚ := if ts.any (fun wt => wt.perms.isEmpty) then 0 else x.factor
    if fac == 0 then acc else acc ++ [⟨ts, wisOfList v, fac⟩]) []⟩

/-- `WickExpr::split_index_types()`. -/
def WickExpr.splitIndexTypes (e : WickExpr) : WickExpr :=
  ⟨e.terms.foldl (fun acc t => acc ++ (splitIndexTypes1 t).terms) []⟩

/-! ### normal_order_impl_new -/

/-- Parity of reversing `k` destroy operators, the C++ bit formula
`((k-1) & 1) ^ (((k-1) & 2) >> 1)` (with `k - 1 = -1` giving 0). -/
def revParity (k : Nat) : Bool :=
  match k with
  | 0 => false
  | m + 1 => m % 4 == 1 || m % 4 == 2

/-- Number of inversions of a list of naturals. -/
def invCount (l : List Nat) : Nat :=
  ((List.range l.length).map (fun i =>
    ((List.range l.length).filter
      (fun j => i < j && l.getD j 0 < l.getD i 0)).length)).sum

/-- Stable insertion of `x` into a sorted list. -/
def insertOrd (lt : α → α → Bool) (x : α) : List α → List α
  | [] => [x]
  | y :: ys => if lt x y then x :: y :: ys else y :: insertOrd lt x ys

/-- `std::stable_sort` modelled as insertion sort. -/
def stableSortBy (lt : α → α → Bool) (l : List α) : List α :=
  l.foldl (fun acc x => insertOrd lt x acc) []

/-! ### WickString::quick_sort -/

/-- A `std::map<WickIndex, int>` as a sorted association list. -/
abbrev WIMap := List (WickIndex × Nat)

/-- `map::count` (as a Bool). -/
def wimCount (m : WIMap) (k : WickIndex) : Bool := m.any (fun p => p.1 == k)

/-- `map::at` (0 for a missing key, which the code never queries). -/
def wimAt (m : WIMap) (k : WickIndex) : Nat :=
  match m.find? (fun p => p.1 == k) with
  | some p => p.2
  | none => 0

/-- Sorted insertion of a fresh key (a present key is left unchanged,
matching `std::map::insert`). -/
def wimInsert : WIMap → WickIndex → Nat → WIMap
  | [], k, v => [(k, v)]
  | (k0, v0) :: ms, k, v =>
    if wiLtB k k0 then (k, v) :: (k0, v0) :: ms
    else if wiLtB k0 k then (k0, v0) :: wimInsert ms k v
    else (k0, v0) :: ms

/-- `std::map::insert(range)`: add every entry of `b` whose key is not
already present in `a`. -/
def wimInsertMany (a : WIMap) (b : WIMap) : WIMap :=
  b.foldl (fun acc p => wimInsert acc p.1 p.2) a

/-- `std::map::operator<` (lexicographic over the sorted entries). -/
def wimLtB : WIMap → WIMap → Bool
  | _, [] => false
  | [], _ :: _ => true
  | (k1, v1) :: ms1, (k2, v2) :: ms2 =>
    if wiLtB k1 k2 then true
    else if wiLtB k2 k1 then false
    else if v1 < v2 then true
    else if v2 < v1 then false
    else wimLtB ms1 ms2

/-- `std::pair<map<WickIndex,int>, int>::operator<`. -/
def cmLtB (a b : WIMap × Int) : Bool :=
  if wimLtB a.1 b.1 then true
  else if wimLtB b.1 a.1 then false
  else decide (a.2 < b.2)

/-- `std::set<pair<map<WickIndex,int>, int>>` insertion (sorted,
duplicate-free). -/
def cmsInsert : List (WIMap × Int) → (WIMap × Int) → List (WIMap × Int)
  | [], x => [x]
  | y :: ys, x =>
    if cmLtB x y then x :: y :: ys
    else if cmLtB y x then y :: cmsInsert ys x
    else y :: ys

/-- The index-renaming scan shared by `WickTensor::sort(ctr_idxs, ...)`
and `sort_gen_maps`: walk the index list; every contraction index is
renamed to the single digit of its number in `ctr_map` (or in the fresh
map `new_map`, numbering new ones from `new_idx`). Returns the renamed
list, the fresh map and the next free number. -/
def renameCtr (ctrIdxs : WISet) (ctrMap : WIMap) (newIdx : Nat)
    (idxs : List WickIndex) : List WickIndex × WIMap × Nat :=
  idxs.foldl (fun (acc : List WickIndex × WIMap × Nat) wi =>
    if wisMem ctrIdxs wi then
      let fresh := !wimCount ctrMap wi && !wimCount acc.2.1 wi
      let nm := if fresh then wimInsert acc.2.1 wi acc.2.2 else acc.2.1
      let kidx := if fresh then acc.2.2 + 1 else acc.2.2
      let v := if wimCount ctrMap wi then wimAt ctrMap wi else wimAt nm wi
      (acc.1 ++ [⟨String.mk [Char.ofNat (v + 48)], wi.types⟩], nm, kidx)
    else (acc.1 ++ [wi], acc.2.1, acc.2.2)) ([], [], newIdx)

/-- `WickTensor::sort(ctr_idxs, ctr_maps, new_idx)`: pick, over the
permutation group and the candidate contraction maps, the renamed index
arrangement that is lexicographically smallest; `none` models the
`assert(ctr_maps.size() != 0)`. Returns the chosen tensor and the final
`new_idx`. -/
def WickTensor.sortCtr (t : WickTensor) (ctrIdxs : WISet)
    (ctrMaps : List (WIMap × Int)) (newIdx : Nat) :
    Option (WickTensor × Nat) :=
  match ctrMaps with
  | [] => none
  | cm0 :: _ =>
    let r0 := renameCtr ctrIdxs cm0.1 newIdx t.indices
    let init : WickTensor × Nat := ({t with indices := r0.1}, r0.2.2)
    some (t.perms.foldl (fun (acc : WickTensor × Nat) perm =>
      let zz := t.applyPerm perm
      ctrMaps.foldl (fun (acc2 : WickTensor × Nat) cm =>
        let rz := renameCtr ctrIdxs cm.1 newIdx zz.indices
        if wiListLtB rz.1 acc2.1.indices then ({zz with indices := rz.1}, rz.2.2)
        else (acc2.1, rz.2.2)) acc) init)

/-- `WickTensor::sort_gen_maps`: collect, into a sorted set, the extended
contraction maps (with the sign) of every `(perm, ctr_map)` pair whose
renamed arrangement equals the chosen `ref`; `none` models the
`assert(perms.size() != 0)`. -/
def WickTensor.sortGenMaps (t : WickTensor) (ref : WickTensor)
    (ctrIdxs : WISet) (ctrMaps : List (WIMap × Int)) (newIdx : Nat) :
    Option (List (WIMap × Int)) :=
  if t.perms.isEmpty then none
  else some (t.perms.foldl (fun acc perm =>
    let zz := t.applyPerm perm
    ctrMaps.foldl (fun acc2 cm =>
      let rz := renameCtr ctrIdxs cm.1 newIdx zz.indices
      if rz.1 == ref.indices then
        cmsInsert acc2 (wimInsertMany rz.2.1 cm.1,
          if perm.negative then -cm.2 else cm.2)
      else acc2) acc) [])

/-- Swap two positions of a `vector<int>`. -/
def natListSwap (l : List Nat) (i j : Nat) : List Nat :=
  (l.set i (l.getD j 0)).set j (l.getD i 0)

/-- The inner scan of `quick_sort`'s selection loop (`k = j+1 .. size-1`):
sort each remaining candidate and keep the lexicographically smallest,
remembering its position `jxx` and its updated index counter `jixx`. -/
def qsScan (ot : List WickTensor) (ci : WISet) (cms : List (WIMap × Int))
    (kidx : Nat) (wta : List Nat) :
    List Nat → (WickTensor × Nat × Nat) → Option (WickTensor × Nat × Nat)
  | [], best => some best
  | k :: ks, best =>
    match (ot.getD (wta.getD k 0) default).sortCtr ci cms kidx with
    | none => none
    | some (cand, jidx) =>
      if wiListLtB cand.indices best.1.indices then
        qsScan ot ci cms kidx wta ks (cand, k, jidx)
      else qsScan ot ci cms kidx wta ks best

/-- The selection loop of `quick_sort` over one group of same-name,
same-arity tensors: choose the smallest candidate for each output slot,
regenerate the contraction maps against the choice, and swap it into
place. -/
def qsGroupLoop (ot : List WickTensor) (ci : WISet) :
    List Nat → List Nat → List (WIMap × Int) → Nat → List WickTensor →
    Option (List Nat × List (WIMap × Int) × Nat × List WickTensor)
  | [], wta, cms, kidx, out => some (wta, cms, kidx, out)
  | j :: js, wta, cms, kidx, out =>
    match (ot.getD (wta.getD j 0) default).sortCtr ci cms kidx with
    | none => none
    | some (cand0, jidx0) =>
      match qsScan ot ci cms kidx wta
        (List.range' (j + 1) (wta.length - (j + 1))) (cand0, j, jidx0) with
      | none => none
      | some (best, jxx, jixx) =>
        match (ot.getD (wta.getD jxx 0) default).sortGenMaps best ci cms
          kidx with
        | none => none
        | some cms2 =>
          qsGroupLoop ot ci js (natListSwap wta jxx j) cms2 jixx
            (out ++ [best])

/-- The group loop of `quick_sort`. -/
def qsGroups (ot : List WickTensor) (ci : WISet) :
    List (Nat × Nat) → List (WIMap × Int) → Nat → List WickTensor →
    Option (List (WIMap × Int) × Nat × List WickTensor)
  | [], cms, kidx, out => some (cms, kidx, out)
  | (s, len) :: gs, cms, kidx, out =>
    match qsGroupLoop ot ci (List.range len)
      ((List.range len).map (fun j => s + j)) cms kidx [] with
    | none => none
    | some (_, cms2, kidx2, outg) =>
      qsGroups ot ci gs cms2 kidx2 (out ++ outg)

/-- The trailing loop of `quick_sort` over the operator tensors. -/
def qsCdLoop (ci : WISet) :
    List WickTensor → List (WIMap × Int) → Nat → List WickTensor →
    Option (List (WIMap × Int) × Nat × List WickTensor)
  | [], cms, kidx, out => some (cms, kidx, out)
  | wt :: wts, cms, kidx, out =>
    match wt.sortCtr ci cms kidx with
    | none => none
    | some (s, kidx2) =>
      match wt.sortGenMaps s ci cms kidx with
      | none => none
      | some cms2 => qsCdLoop ci wts cms2 kidx2 (out ++ [s])

/-- `WickString::quick_sort()`: canonicalize every tensor (threading the
sign into the factor), sort the non-operator tensors by name and arity,
run the grouped selection sort and the operator loop threading the
contraction-renaming maps, and rename the contraction set by the final
map; `none` models the asserts. -/
def WickString.quickSort (ws : WickString) : Option WickString :=
  let pc := ws.tensors.foldl
    (fun (acc : List WickTensor × List WickTensor × ℚ) wt =>
      let sf := wt.sortT acc.2.2
      if wt.type == WTT.kroneckerDelta || wt.type == WTT.tensorTy then
        (acc.1 ++ [sf.1], acc.2.1, sf.2)
      else (acc.1, acc.2.1 ++ [sf.1], sf.2)) ([], [], ws.factor)
  let ot := stableSortBy (fun a b =>
    if a.name != b.name then stringLtB a.name b.name
    else decide (a.indices.length < b.indices.length)) pc.1
  let starts := (List.range ot.length).filter (fun i =>
    i == 0 || ((ot.getD i default).name != (ot.getD (i - 1) default).name ||
      (ot.getD i default).indices.length !=
        (ot.getD (i - 1) default).indices.length))
  let groups := (starts.zip (starts.drop 1 ++ [ot.length])).map
    (fun p => (p.1, p.2 - p.1))
  match qsGroups ot ws.ctrIndices groups [([], 1)] 0 [] with
  | none => none
  | some (cms1, kidx1, otSorted) =>
    match qsCdLoop ws.ctrIndices pc.2.1 cms1 kidx1 otSorted with
    | none => none
    | some (cms2, kidx2, allSorted) =>
      match cms2 with
      | [] => none
      | cm0 :: _ =>
        if kidx2 == cm0.1.length && kidx2 == ws.ctrIndices.length then
          some ⟨allSorted,
            ws.ctrIndices.foldl (fun acc wi =>
              wisInsert acc
                ⟨String.mk [Char.ofNat (wimAt cm0.1 wi + 48)], wi.types⟩) [],
            pc.2.2 * (cm0.2 : ℚ)⟩
        else none

/-- `WickExpr::simplify_delta()`. -/
def WickExpr.simplifyDelta (e : WickExpr) : WickExpr :=
  ⟨e.terms.map WickString.simplifyDeltaW⟩

/-- `WickExpr::simplify_merge()`: canonicalize every term with
`abs().quick_sort()`, accumulate the factors of terms with equal
canonical form onto the first representative, drop the zero and empty
terms, and sort. -/
def WickExpr.simplifyMerge (e : WickExpr) : Option WickExpr :=
  match e.terms.mapM (fun t => t.absW.quickSort) with
  | none => none
  | some sorted =>
    let ridxs := (List.range e.terms.length).foldl
      (fun (ridxs : List (Nat × ℚ)) i =>
        match ridxs.findIdx? (fun p =>
          absEqualTo (sorted.getD i default) (sorted.getD p.1 default)) with
        | some j =>
          let rj := ridxs.getD j default
          ridxs.set j (rj.1, rj.2 + (e.terms.getD i default).factor *
            (sorted.getD i default).factor *
            (sorted.getD rj.1 default).factor)
        | none => ridxs ++ [(i, (e.terms.getD i default).factor)]) []
    let r : WickExpr := ⟨ridxs.map (fun m =>
      {e.terms.getD m.1 default with factor := m.2})⟩
    some ⟨stableSortBy wsLtB r.simplifyZero.terms⟩

/-- `WickExpr::simplify()`. -/
def WickExpr.simplify (e : WickExpr) : Option WickExpr :=
  e.simplifyDelta.simplifyZero.simplifyMerge

/-- `cd_tensors`, `cd_idx_map`, `ot_tensors` and `init_sign` built from the
input tensors: raw creation/annihilation operators are kept, each
spin-free operator of arity `2k` is expanded into `k` creation plus `k`
destroy operators (with the pairing map and the destroy-reversal sign),
all other tensors go to `ot_tensors`. -/
def buildCd (tensors : List WickTensor) :
    List WickTensor × List Nat × List WickTensor × Bool :=
  tensors.foldl (fun (ac : List WickTensor × List Nat × List WickTensor × Bool) wt =>
    let (cd, map, ot, sgn) := ac
    if wt.type == WTT.creationOp || wt.type == WTT.destroyOp then
      (cd ++ [wt], map, ot, sgn)
    else if wt.type == WTT.spinFreeOp then
      let sfn := wt.indices.length / 2
      let sgn' := xor sgn (revParity sfn)
      let cd1 := cd ++ (List.range sfn).map (fun i => creOp (wt.indices.getD i default))
      let map1 := (List.range sfn).foldl (fun m i => m ++ [m.length + sfn]) map
      let cd2 := cd1 ++ (List.range sfn).map
        (fun i => desOp (wt.indices.getD (i + sfn) default))
      let map2 := (List.range sfn).foldl (fun m i => m ++ [m.length - sfn]) map1
      (cd2, map2, ot, sgn')
    else (cd, map, ot ++ [wt], sgn)) ([], [], [], false)

/-- The candidate contraction pairs `(i, j)`, `i < j` (kept in order of
increasing `i`), together with the `n_inactive_idxs` base marks for the
spin-free case. -/
def buildCtrIdxs (cd : List WickTensor) (sfType : Bool) :
    List (Nat × Nat) × List Nat :=
  let n := cd.length
  (List.range n).foldl (fun (ac : List (Nat × Nat) × List Nat) i =>
    (List.range n).foldl (fun (ac2 : List (Nat × Nat) × List Nat) j =>
      if i < j then
        let ci := cd.getD i default
        let cj := cd.getD j default
        if sfType then
          let ti := witAnd (ci.indices.getD 0 default).types WIT.inactive != 0
          let tj := witAnd (cj.indices.getD 0 default).types WIT.inactive != 0
          if ti || tj then
            if ci.type < cj.type && ti && tj then
              (ac2.1 ++ [(i, j)], ac2.2.set i 1)
            else ac2
          else if cj.type < ci.type then (ac2.1 ++ [(i, j)], ac2.2)
          else ac2
        else
          if ci.type != cj.type && wtLtB cj ci then (ac2.1 ++ [(i, j)], ac2.2)
          else ac2
      else ac2) ac) ([], List.replicate (n + 1) 0)

/-- `ctr_cd_idxs[i]`: index of the first candidate pair whose first
component is `≥ i` (the pair list is sorted by first component). -/
def ctrStart (ctrIdxs : List (Nat × Nat)) (i : Nat) : Nat :=
  (ctrIdxs.filter (fun p => p.1 < i)).length

/-- Suffix sums of the `n_inactive_idxs` base marks. -/
def suffixSums (l : List Nat) : List Nat :=
  l.foldr (fun x acc => (x + acc.headD 0) :: acc) []

/-- Context of the normal-ordering DFS (everything computed before the
`while` loop). -/
structure NOCtx where
  cd : List WickTensor
  cdIdxMap : List Nat
  otBase : List WickTensor
  ctrIdxs : List (Nat × Nat)
  nIn : List Nat
  tensorIdxs : List Nat
  revIdxs : List Nat
  sfType : Bool
  maxUnctr : Option Nat
  noCtr : Bool
  base : WickString

/-- Mutable state threaded through the DFS loop: the work queue (head of
the list is the back of the C++ vector), the pair stack, the sign array,
the delta prefix and the emitted terms. -/
structure NOState where
  que : List (Option (Nat × Nat))
  curIdxs : List (Nat × Nat)
  accSign : List Bool
  deltas : List WickTensor
  rterms : List WickString

/-- State of the crossing-sign scan over previously chosen pairs. -/
structure CrossSt where
  skip : Bool
  masked : List Nat
  sign : Bool

/-- State of the spin-free inactive-contraction bookkeeping. -/
structure SfSt where
  invMask : List Bool
  rev : List Nat
  nInact : Nat
  fac : ℚ

/-- One iteration of the spin-free bookkeeping loop for pair `(a, b)`. -/
def sfStep (nIn : List Nat) (st : SfSt) (ab : Nat × Nat) : SfSt :=
  let (a, b) := ab
  let bitA := nIn.getD a 0 - nIn.getD (a + 1) 0
  let bitB := nIn.getD b 0 - nIn.getD (b + 1) 0
  let im1 := st.invMask.set a (st.invMask.getD a false || bitA == 1)
  let im2 := im1.set b (im1.getD b false || bitB == 1)
  let im3 := im2.set (st.rev.getD a 0)
    (im2.getD (st.rev.getD a 0) false || im2.getD a false)
  let im4 := im3.set (st.rev.getD b 0)
    (im3.getD (st.rev.getD b 0) false || im3.getD b false)
  let fac' := st.fac * (if st.rev.getD a 0 == b && im4.getD a false then 2 else 1)
  let r1 := st.rev.set (st.rev.getD a 0) (st.rev.getD b 0)
  let r2 := r1.set (r1.getD b 0) (r1.getD a 0)
  ⟨im4, r2, st.nInact + bitA, fac'⟩

/-- The body of one `while` iteration of the normal-ordering DFS.  Returns
the new state; the various C++ `continue`s correspond to returning with
only the queue (and the always-updated `curIdxs`/`accSign`) changed. -/
def noBody (ctx : NOCtx) (st : NOState) (e : Option (Nat × Nat))
    (rest : List (Option (Nat × Nat))) : NOState :=
  let n := ctx.cd.length
  let lp1 : Nat := match e with | none => 0 | some (l, _) => l + 1
  let (curIdxs1, k0) := match e with
    | none => (st.curIdxs, 0)
    | some (l, j) =>
      let p := ctx.ctrIdxs.getD j (0, 0)
      (st.curIdxs.set l p, ctrStart ctx.ctrIdxs (p.1 + 1))
  let sInit := st.accSign.getD lp1 false
  -- the skip test, mask accumulation and crossing sign for the new pair
  let (c, d) := curIdxs1.getD (lp1 - 1) (0, 0)
  let cross := (List.range (lp1 - 1)).foldl (fun (ac : CrossSt) i =>
    if ac.skip then ac
    else
      let (a, b) := curIdxs1.getD i (0, 0)
      ⟨ac.skip || b == d || b == c || a == d, a :: b :: ac.masked,
       xor ac.sign ((a < c && b > c && b < d) || (a > c && a < d && b > d))⟩)
    ⟨false, [], xor sInit (c % 2 == d % 2)⟩
  -- spin-free inactive bookkeeping for the previously chosen pairs
  let sf0 : SfSt := ⟨List.replicate n false, ctx.cdIdxMap, 0, 1⟩
  let sfPrev := (List.range (lp1 - 1)).foldl
    (fun ac i => sfStep ctx.nIn ac (curIdxs1.getD i (0, 0))) sf0
  match e with
  | none =>
    -- root node: no pair chosen; push all candidates, then emit
    let childs : List (Option (Nat × Nat)) :=
      if ctx.noCtr then [] else
        ((List.range ctx.ctrIdxs.length).map (fun t => some (0, t))).reverse
    let st1 : NOState := ⟨childs ++ rest, curIdxs1,
      st.accSign.set (lp1 + 1) sInit, st.deltas, st.rterms⟩
    -- max_unctr pruning
    if (match ctx.maxUnctr with
        | some m => decide (m < n)
        | none => false) then st1
    else if ctx.sfType then
      if 0 < ctx.nIn.getD 0 0 then st1
      else
        let tn := n / 2
        let rv := ((ctx.tensorIdxs.foldl (fun (ac : List Nat × Nat) ti =>
          if (ctx.cd.getD ti default).type == WTT.creationOp then
            ((ac.1.set ac.2 ti).set (ac.2 + tn) (ctx.cdIdxMap.getD ti 0), ac.2 + 1)
          else ac) (List.replicate n 0, 0))).1
        let wis := (List.range (tn + tn)).map
          (fun i => ((ctx.cd.getD (rv.getD i 0) default).indices.getD 0 default))
        let fs := xor (revParity tn) (invCount (rv.take (tn + tn)) % 2 == 1)
        let ots := if wis.isEmpty then [] else [spinFree wis]
        let term : WickString := ⟨ctx.otBase ++ ots, ctx.base.ctrIndices,
          if xor sInit fs then -ctx.base.factor else ctx.base.factor⟩
        {st1 with rterms := st.rterms ++ [term]}
    else
      let ots := ctx.tensorIdxs.map (fun i => ctx.cd.getD i default)
      let term : WickString := ⟨ctx.otBase ++ ots, ctx.base.ctrIndices,
        if sInit then -ctx.base.factor else ctx.base.factor⟩
      {st1 with rterms := st.rterms ++ [term]}
  | some (l, _) =>
    if cross.skip then
      ⟨rest, curIdxs1, st.accSign.set (lp1 + 1) cross.sign, st.deltas, st.rterms⟩
    else
      let masked := c :: d :: cross.masked
      -- spin-free bookkeeping for the new pair (c, d), with the
      -- all-inactive-contracted early check in the middle
      let bitC := ctx.nIn.getD c 0 - ctx.nIn.getD (c + 1) 0
      let bitD := ctx.nIn.getD d 0 - ctx.nIn.getD (d + 1) 0
      let im1 := sfPrev.invMask.set c (sfPrev.invMask.getD c false || bitC == 1)
      let im2 := im1.set d (im1.getD d false || bitD == 1)
      let im3 := im2.set (sfPrev.rev.getD c 0)
        (im2.getD (sfPrev.rev.getD c 0) false || im2.getD c false)
      let im4 := im3.set (sfPrev.rev.getD d 0)
        (im3.getD (sfPrev.rev.getD d 0) false || im3.getD d false)
      let nInact2 := sfPrev.nInact + bitC
      let sfFail := ctx.sfType &&
        decide (nInact2 + ctx.nIn.getD (c + 1) 0 < ctx.nIn.getD 0 0)
      if sfFail then
        ⟨rest, curIdxs1, st.accSign.set (lp1 + 1) cross.sign, st.deltas, st.rterms⟩
      else
        let fac2 := sfPrev.fac *
          (if sfPrev.rev.getD c 0 == d && im4.getD c false then 2 else 1)
        let r1 := sfPrev.rev.set (sfPrev.rev.getD c 0) (sfPrev.rev.getD d 0)
        let r2 := r1.set (r1.getD d 0) (r1.getD c 0)
        -- the non-spin-free reorder-sign correction for (c, d)
        let sign2 :=
          if ctx.sfType then cross.sign
          else
            let s1 := xor cross.sign
              (ctx.revIdxs.getD d 0 < ctx.revIdxs.getD c 0)
            (List.range n).foldl (fun s i =>
              if masked.contains i then s
              else
                let s' := xor s (ctx.revIdxs.getD (max c i) 0 <
                  ctx.revIdxs.getD (min c i) 0)
                xor s' (ctx.revIdxs.getD (max d i) 0 <
                  ctx.revIdxs.getD (min d i) 0)) s1
        let delta := kroneckerDelta
          [(ctx.cd.getD c default).indices.getD 0 default,
           (ctx.cd.getD d default).indices.getD 0 default]
        let deltas1 := st.deltas.take (lp1 - 1) ++ [delta]
        let childs : List (Option (Nat × Nat)) :=
          if ctx.noCtr then [] else
            ((List.range (ctx.ctrIdxs.length - k0)).map
              (fun t => some (lp1, k0 + t))).reverse
        let st1 : NOState := ⟨childs ++ rest, curIdxs1,
          st.accSign.set (lp1 + 1) sign2, deltas1, st.rterms⟩
        if (match ctx.maxUnctr with
            | some m => decide (m < n - (lp1 + lp1))
            | none => false) then st1
        else if ctx.sfType then
          if decide (nInact2 < ctx.nIn.getD 0 0) then st1
          else
            let sfn := n / 2
            let tn := sfn - lp1
            let rv := ((ctx.tensorIdxs.foldl (fun (ac : List Nat × Nat) ti =>
              if !(masked.contains ti) &&
                  (ctx.cd.getD ti default).type == WTT.creationOp then
                ((ac.1.set ac.2 ti).set (ac.2 + tn) (r2.getD ti 0), ac.2 + 1)
              else ac) (List.replicate n 0, 0))).1
            let wis := (List.range (tn + tn)).map
              (fun i => ((ctx.cd.getD (rv.getD i 0) default).indices.getD 0 default))
            let fs := xor (revParity tn) (invCount (rv.take (tn + tn)) % 2 == 1)
            let ots := if wis.isEmpty then [] else [spinFree wis]
            let term : WickString := ⟨ctx.otBase ++ deltas1 ++ ots,
              ctx.base.ctrIndices,
              fac2 * (if xor sign2 fs then -ctx.base.factor else ctx.base.factor)⟩
            {st1 with rterms := st.rterms ++ [term]}
        else
          let ots := (ctx.tensorIdxs.filter (fun i => !masked.contains i)).map
            (fun i => ctx.cd.getD i default)
          let term : WickString := ⟨ctx.otBase ++ deltas1 ++ ots,
            ctx.base.ctrIndices,
            if sign2 then -ctx.base.factor else ctx.base.factor⟩
          {st1 with rterms := st.rterms ++ [term]}

/-- The `while (!que.empty())` loop, with fuel. -/
def noLoop (ctx : NOCtx) : Nat → NOState → List WickString
  | 0, st => st.rterms
  | fuel + 1, st =>
    match st.que with
    | [] => st.rterms
    | e :: rest => noLoop ctx fuel (noBody ctx st e rest)

/-- `cd_type`: the string contains a raw creation or destroy operator. -/
def hasCD (x : WickString) : Bool :=
  x.tensors.any (fun wt =>
    wt.type == WTT.creationOp || wt.type == WTT.destroyOp)

/-- `sf_type`: the string contains a spin-free excitation operator. -/
def hasSF (x : WickString) : Bool :=
  x.tensors.any (fun wt => wt.type == WTT.spinFreeOp)

/-- `WickExpr::normal_order_impl_new(x, max_unctr, no_ctr)`.  Returns
`none` when the input mixes raw creation/annihilation operators with
spin-free operators (the fatal `assert(!cd_type || !sf_type)`). -/
def normalOrderImplNew (x : WickString) (maxUnctr : Option Nat)
    (noCtr : Bool) : Option WickExpr :=
  let sfType := hasSF x
  if hasCD x && sfType then none
  else
    let (cd, map, ot, initSign) := buildCd x.tensors
    let n := cd.length
    let (ctrIdxs, nInBase) := buildCtrIdxs cd sfType
    let nIn := if sfType then suffixSums nInBase else List.replicate (n + 1) 0
    let tensorIdxs :=
      if sfType then
        stableSortBy (fun i j =>
          (cd.getD i default).type < (cd.getD j default).type) (List.range n)
      else
        stableSortBy (fun i j => wtLtB (cd.getD i default) (cd.getD j default))
          (List.range n)
    let revIdxs := (List.range n).map (fun i => tensorIdxs.findIdx (fun t => t == i))
    let accSign0 :=
      if sfType then initSign
      else xor initSign (invCount revIdxs % 2 == 1)
    let seed : List (Option (Nat × Nat)) :=
      if maxUnctr != some 0 || n % 2 == 0 then [none] else []
    let fuel := (ctrIdxs.length + 2) ^ (n + 2)
    some ⟨noLoop ⟨cd, map, ot, ctrIdxs, nIn, tensorIdxs, revIdxs, sfType,
      maxUnctr, noCtr, x⟩ fuel
      ⟨seed, List.replicate n (0, 0),
       (List.replicate (n + 2) false).set 0 accSign0,
       [], []⟩⟩

/-- The per-expression `normal_order_impl` (the thread-parallel loop over
terms concatenates the per-term results in term order). -/
def WickExpr.normalOrderImpl (e : WickExpr) (maxUnctr : Option Nat)
    (noCtr : Bool) : Option WickExpr :=
  e.terms.foldl (fun acc t =>
    match acc, normalOrderImplNew t maxUnctr noCtr with
    | some r, some rr => some ⟨r.terms ++ rr.terms⟩
    | _, _ => none) (some ⟨[]⟩)

/-- `WickExpr::expand(max_unctr, no_ctr)`. -/
def WickExpr.expand (e : WickExpr) (maxUnctr : Option Nat)
    (noCtr : Bool) : Option WickExpr :=
  e.splitIndexTypes.normalOrderImpl maxUnctr noCtr

/-! ### TRIE (determinant.hpp) -/

/-- `template <typename D, uint8_t L> struct TRIE`, the fields driving
`push_back`, `find` and `operator[]`: `data` holds each node's row of
`L` child pointers (`0` = no child; node `0` is the root), `dets` the
leaf node of each inserted determinant in insertion order, `invs` the
parent pointers (maintained only when `enable_look_up`), `n_sites` the
determinant length. `L` is the template parameter. -/
structure Trie where
  L : Nat
  data : List (List Nat)
  dets : List Nat
  invs : List Nat
  nSites : Nat
  enableLookUp : Bool
deriving DecidableEq, Repr

/-- The `TRIE` constructor: a single all-zero root row. -/
def mkTrie (nSites L : Nat) (enableLookUp : Bool) : Trie :=
  ⟨L, [List.replicate L 0], [], [], nSites, enableLookUp⟩

/-- Follow existing child pointers along a determinant (the read-only
walk of `find`); `none` when a pointer is missing. -/
def trieWalk (data : List (List Nat)) : Nat → List Nat → Option Nat
  | cur, [] => some cur
  | cur, j :: js =>
    let c := (data.getD cur []).getD j 0
    if c == 0 then none else trieWalk data c js

/-- The creating walk of `push_back`: follow existing pointers and
append a fresh all-zero node wherever a pointer is missing. Returns the
grown node array and the final node. -/
def trieGrow (L : Nat) : List (List Nat) → Nat → List Nat →
    List (List Nat) × Nat
  | data, cur, [] => (data, cur)
  | data, cur, j :: js =>
    let c := (data.getD cur []).getD j 0
    if c == 0 then
      trieGrow L ((data.set cur ((data.getD cur []).set j data.length)) ++
        [List.replicate L 0]) data.length js
    else trieGrow L data c js

/-- The look-up pass of `push_back`: walk the freshly grown path and
record each node's parent in `invs`. -/
def setInvs (data : List (List Nat)) : List Nat → Nat → List Nat →
    List Nat
  | invs, _, [] => invs
  | invs, cur, j :: js =>
    let c := (data.getD cur []).getD j 0
    setInvs data (invs.set c cur) c js

/-- `TRIE::push_back(det)`: grow the path of `det` from the root, append
the leaf to `dets`, and (when `enable_look_up`) extend and refresh the
parent pointers. `none` models the asserts (`det.size() == n_sites`;
leaves appended in strictly increasing order) and the implicit bound
`det[i] < L` of the `array<int, L>` access. -/
def Trie.pushBack (t : Trie) (det : List Nat) : Option Trie :=
  if det.length == t.nSites && det.all (fun j => j < t.L) then
    let g := trieGrow t.L t.data 0 det
    if t.dets == [] || decide ((t.dets.getLastD 0) < g.2) then
      some {t with
        data := g.1,
        dets := t.dets ++ [g.2],
        invs := if t.enableLookUp then
            setInvs g.1
              (t.invs ++ List.replicate (g.1.length - t.invs.length) 0)
              0 det
          else t.invs}
    else none
  else none

/-- `TRIE::find(det)`: walk the trie (`-1` when a pointer is missing),
then `lower_bound` into the sorted leaf list (modelled by its
specification: the first position holding a value `≥` the key). `none`
models the assert on the length and the implicit bound `det[i] < L`. -/
def Trie.find (t : Trie) (det : List Nat) : Option Int :=
  if det.length == t.nSites && det.all (fun j => j < t.L) then
    match trieWalk t.data 0 det with
    | none => some (-1)
    | some cur =>
      let idx := t.dets.findIdx (fun d => decide (cur ≤ d))
      if idx < t.dets.length && t.dets.getD idx 0 == cur then
        some (Int.ofNat idx)
      else some (-1)
  else none

/-- The reconstruction loop of `TRIE::operator[]`: climb `n` parent
pointers from a leaf, at each step scanning the parent's row for the
slot that points back down (`0` when no slot matches, matching the
zero-initialised `r`). -/
def readBack (data : List (List Nat)) (invs : List Nat) :
    Nat → Nat → List Nat → List Nat
  | _, 0, r => r
  | cur, Nat.succ n, r =>
    let ir := invs.getD cur 0
    let j := match (data.getD ir []).findIdx? (fun c => c == cur) with
      | some j => j
      | none => 0
    readBack data invs ir n (j :: r)

/-- `TRIE::operator[](idx)`; `none` models the
`assert(enable_look_up && idx < dets.size())`. -/
def Trie.getDet (t : Trie) (idx : Nat) : Option (List Nat) :=
  if t.enableLookUp && idx < t.dets.length then
    some (readBack t.data t.invs (t.dets.getD idx 0) t.nSites [])
  else none

/-- A trie built by a sequence of `push_back` calls on a fresh `TRIE`. -/
def buildTrie (nSites L : Nat) (enableLookUp : Bool)
    (ds : List (List Nat)) : Option Trie :=
  ds.foldlM (fun t d => t.pushBack d) (mkTrie nSites L enableLookUp)

/-! ## Shared helper lemmas -/

/-- An empty work queue means the DFS loop returns its accumulated terms,
for any fuel. -/
theorem noLoop_nil (ctx : NOCtx) (fuel : Nat) (st : NOState)
    (h : st.que = []) : noLoop ctx fuel st = st.rterms := by
  cases fuel with
  | zero => rfl
  | succ f => unfold noLoop; rw [h]

/-! ## Permutation-group machinery (for claims C4 and C6) -/

/-- `p` is a permutation of `{0..n-1}`: its `data` is a length-`n`
duplicate-free list of values `< n` (hence a bijection on `{0..n-1}`). -/
def isPermOn (n : Nat) (p : WickPermutation) : Prop :=
  p.data.length = n ∧ (∀ v ∈ p.data, v < n) ∧ p.data.Nodup

instance (n : Nat) (p : WickPermutation) : Decidable (isPermOn n p) := by
  unfold isPermOn; infer_instance

theorem isPermOn_ident (n : Nat) : isPermOn n (identPerm n) := by
  refine ⟨List.length_range n, ?_, List.nodup_range n⟩
  intro v hv; exact List.mem_range.mp hv

theorem getD_lt {n : Nat} {p : WickPermutation} (hp : isPermOn n p)
    {i : Nat} (hi : i < n) : p.data.getD i 0 < n := by
  have hlen : i < p.data.length := by rw [hp.1]; exact hi
  rw [List.getD_eq_getElem _ _ hlen]
  exact hp.2.1 _ (List.getElem_mem hlen)

theorem isPermOn_mul {n : Nat} {a b : WickPermutation}
    (ha : isPermOn n a) (hb : isPermOn n b) : isPermOn n (a.mul b) := by
  obtain ⟨hal, hav, han⟩ := ha
  obtain ⟨hbl, hbv, hbn⟩ := hb
  refine ⟨?_, ?_, ?_⟩
  · simp [WickPermutation.mul, hal]
  · intro v hv
    simp only [WickPermutation.mul, List.mem_map, List.mem_range] at hv
    obtain ⟨i, hi, rfl⟩ := hv
    exact getD_lt ⟨hal, hav, han⟩ (getD_lt ⟨hbl, hbv, hbn⟩ (hal ▸ hi))
  · simp only [WickPermutation.mul]
    refine List.Nodup.map_on ?_ (List.nodup_range _)
    intro i hi j hj hij
    rw [List.mem_range, hal] at hi hj
    have h1 : b.data.getD i 0 < n := getD_lt ⟨hbl, hbv, hbn⟩ hi
    have h2 : b.data.getD j 0 < n := getD_lt ⟨hbl, hbv, hbn⟩ hj
    have e1 : b.data.getD i 0 = b.data.getD j 0 := by
      by_contra hne
      have hi' : b.data.getD i 0 < a.data.length := hal ▸ h1
      have hj' : b.data.getD j 0 < a.data.length := hal ▸ h2
      rw [List.getD_eq_getElem _ _ hi', List.getD_eq_getElem _ _ hj'] at hij
      exact hne ((List.Nodup.getElem_inj_iff han).mp hij)
    have hi' : i < b.data.length := hbl ▸ hi
    have hj' : j < b.data.length := hbl ▸ hj
    rw [List.getD_eq_getElem _ _ hi', List.getD_eq_getElem _ _ hj'] at e1
    exact (List.Nodup.getElem_inj_iff hbn).mp e1

theorem mul_data_getD {n : Nat} {x y : WickPermutation}
    (hx : isPermOn n x) {k : Nat} (hk : k < n) :
    (x.mul y).data.getD k 0 = x.data.getD (y.data.getD k 0) 0 := by
  have hlen : k < ((List.range x.data.length).map
      (fun i => x.data.getD (y.data.getD i 0) 0)).length := by
    simp [hx.1, hk]
  unfold WickPermutation.mul
  rw [List.getD_eq_getElem _ _ hlen]
  simp

theorem mul_assoc_perm {n : Nat} {a b c : WickPermutation}
    (ha : isPermOn n a) (hb : isPermOn n b) (hc : isPermOn n c) :
    (a.mul b).mul c = a.mul (b.mul c) := by
  have hab := isPermOn_mul ha hb
  have hbc := isPermOn_mul hb hc
  have hdata : ((a.mul b).mul c).data = (a.mul (b.mul c)).data := by
    apply List.ext_getElem
    · simp [(isPermOn_mul hab hc).1, (isPermOn_mul ha hbc).1]
    · intro i h1 h2
      have hi : i < n := by
        have := (isPermOn_mul hab hc).1
        omega
      rw [← List.getD_eq_getElem _ 0 h1, ← List.getD_eq_getElem _ 0 h2]
      rw [mul_data_getD hab hi, mul_data_getD ha hi,
        mul_data_getD ha (getD_lt hc hi), mul_data_getD hb hi]
  have hneg : ((a.mul b).mul c).negative = (a.mul (b.mul c)).negative := by
    simp [WickPermutation.mul, Bool.xor_assoc]
  cases h1 : (a.mul b).mul c
  cases h2 : a.mul (b.mul c)
  rw [h1, h2] at hdata hneg
  simp_all

theorem mul_ident_right {n : Nat} {a : WickPermutation}
    (ha : isPermOn n a) : a.mul (identPerm n) = a := by
  have hdata : (a.mul (identPerm n)).data = a.data := by
    apply List.ext_getElem
    · simp [(isPermOn_mul ha (isPermOn_ident n)).1, ha.1]
    · intro i h1 h2
      have hi : i < n := by rw [ha.1] at h2; exact h2
      rw [← List.getD_eq_getElem _ 0 h1, ← List.getD_eq_getElem _ 0 h2]
      rw [mul_data_getD ha hi]
      have : (identPerm n).data.getD i 0 = i := by
        unfold identPerm
        rw [List.getD_eq_getElem _ _ (by simp [hi])]
        simp
      rw [this]
  cases hx : a.mul (identPerm n)
  cases hy : a
  rw [hx, hy] at hdata
  have hneg := congrArg WickPermutation.negative hx
  simp only [WickPermutation.mul, identPerm] at hneg
  simp_all

theorem ident_mul {n : Nat} {a : WickPermutation}
    (ha : isPermOn n a) : (identPerm n).mul a = a := by
  have hdata : ((identPerm n).mul a).data = a.data := by
    apply List.ext_getElem
    · simp [(isPermOn_mul (isPermOn_ident n) ha).1, ha.1]
    · intro i h1 h2
      have hi : i < n := by rw [ha.1] at h2; exact h2
      rw [← List.getD_eq_getElem _ 0 h1, ← List.getD_eq_getElem _ 0 h2]
      rw [mul_data_getD (isPermOn_ident n) hi]
      have hlt : a.data.getD i 0 < n := getD_lt ha hi
      unfold identPerm
      rw [List.getD_eq_getElem _ _ (by simpa using hlt)]
      simp
  cases hx : (identPerm n).mul a
  cases hy : a
  rw [hx, hy] at hdata
  have hneg := congrArg WickPermutation.negative hx
  simp only [WickPermutation.mul, identPerm, Bool.false_xor] at hneg
  simp_all

/-- Reachability from the identity by right-multiplication with
generators: every element the BFS of `complete_set` can build. -/
inductive Reach (df : List WickPermutation) (n : Nat) : WickPermutation → Prop
  | base : Reach df n (identPerm n)
  | step {g d : WickPermutation} : Reach df n g → d ∈ df →
      Reach df n (g.mul d)

theorem contains_iff_mem (l : List WickPermutation) (x : WickPermutation) :
    l.contains x = true ↔ x ∈ l := by
  simp [List.contains]

/-- Properties of one `csStep`: the accumulator is extended (as a prefix)
by products `g * d` not seen before. -/
theorem csStep_spec (g : WickPermutation) (df : List WickPermutation) :
    ∀ acc : List WickPermutation, acc.Nodup →
    (∃ ext, csStep df acc g = acc ++ ext) ∧
    (csStep df acc g).Nodup ∧
    (∀ p ∈ csStep df acc g, p ∈ acc ∨ ∃ d ∈ df, p = g.mul d) ∧
    (∀ d ∈ df, g.mul d ∈ csStep df acc g) := by
  induction df with
  | nil =>
    intro acc hnd
    exact ⟨⟨[], by simp [csStep]⟩, hnd, fun p hp => Or.inl hp, by simp⟩
  | cons d ds ih =>
    intro acc hnd
    have hstep : csStep (d :: ds) acc g =
        csStep ds (if acc.contains (g.mul d) then acc else acc ++ [g.mul d]) g := by
      unfold csStep
      simp [List.foldl_cons]
    by_cases hc : acc.contains (g.mul d)
    · rw [hstep, if_pos hc]
      obtain ⟨⟨ext, hext⟩, h2, h3, h4⟩ := ih acc hnd
      refine ⟨⟨ext, hext⟩, h2, ?_, ?_⟩
      · intro p hp
        rcases h3 p hp with h | ⟨d', hd', rfl⟩
        · exact Or.inl h
        · exact Or.inr ⟨d', by simp [hd'], rfl⟩
      · intro d' hd'
        rcases List.mem_cons.mp hd' with rfl | hmem
        · have : g.mul d' ∈ acc := (contains_iff_mem _ _).mp hc
          obtain ⟨ext2, hext2⟩ := ih acc hnd |>.1
          rw [hext2]; exact List.mem_append_left _ this
        · exact h4 d' hmem
    · rw [hstep, if_neg hc]
      have hnd' : (acc ++ [g.mul d]).Nodup := by
        rw [List.nodup_append]
        refine ⟨hnd, List.nodup_singleton _, ?_⟩
        intro a ha hb
        rw [List.mem_singleton] at hb
        subst hb
        exact hc ((contains_iff_mem _ _).mpr ha)
      obtain ⟨⟨ext, hext⟩, h2, h3, h4⟩ := ih (acc ++ [g.mul d]) hnd'
      refine ⟨⟨[g.mul d] ++ ext, by rw [hext, List.append_assoc]⟩, h2, ?_, ?_⟩
      · intro p hp
        rcases h3 p hp with h | ⟨d', hd', rfl⟩
        · rcases List.mem_append.mp h with h' | h'
          · exact Or.inl h'
          · rw [List.mem_singleton] at h'
            exact Or.inr ⟨d, by simp, h'⟩
        · exact Or.inr ⟨d', by simp [hd'], rfl⟩
      · intro d' hd'
        rcases List.mem_cons.mp hd' with rfl | hmem
        · rw [hext]
          exact List.mem_append_left _ (List.mem_append_right _ (by simp))
        · exact h4 d' hmem

/-- A duplicate-free list of permutations of `{0..n-1}` has at most
`2 * n !` elements. -/
theorem perm_list_length_le {n : Nat} (R : List WickPermutation)
    (hnd : R.Nodup) (hp : ∀ p ∈ R, isPermOn n p) :
    R.length ≤ 2 * n.factorial := by
  classical
  set U : List WickPermutation :=
    ((List.range n).permutations).flatMap (fun l => [⟨l, false⟩, ⟨l, true⟩]) with hU
  have hsub : R ⊆ U := by
    intro p hp'
    obtain ⟨hl, hv, hn⟩ := hp p hp'
    rw [hU, List.mem_flatMap]
    refine ⟨p.data, ?_, ?_⟩
    · rw [List.mem_permutations]
      have hsub2 : p.data ⊆ List.range n := fun v hv' =>
        List.mem_range.mpr (hv v hv')
      have hsp : List.Subperm p.data (List.range n) := List.subperm_of_subset hn hsub2
      exact hsp.perm_of_length_le (by simp [hl])
    · cases p with
      | mk d neg => cases neg <;> simp
  have hlen : R.length ≤ U.length :=
    (List.subperm_of_subset hnd hsub).length_le
  have hUlen : U.length = 2 * n.factorial := by
    rw [hU, List.length_flatMap]
    have hmap : (List.map
        (List.length ∘ fun l : List Nat =>
          [(⟨l, false⟩ : WickPermutation), ⟨l, true⟩])
        (List.range n).permutations) =
        List.replicate (List.map
          (List.length ∘ fun l : List Nat =>
            [(⟨l, false⟩ : WickPermutation), ⟨l, true⟩])
          (List.range n).permutations).length 2 := by
      apply List.eq_replicate_of_mem
      intro b hb
      rw [List.mem_map] at hb
      obtain ⟨l, _, rfl⟩ := hb
      rfl
    rw [hmap, List.sum_replicate, smul_eq_mul, List.length_map,
      List.length_permutations, List.length_range, Nat.mul_comm]
  rw [hUlen] at hlen
  exact hlen

theorem reach_isPermOn {df : List WickPermutation} {n : Nat}
    (hdf : ∀ d ∈ df, isPermOn n d) {p : WickPermutation}
    (h : Reach df n p) : isPermOn n p := by
  induction h with
  | base => exact isPermOn_ident n
  | step hg hd ih => exact isPermOn_mul ih (hdf _ hd)

/-- Full invariant of the `complete_set` worklist loop: the fuel
`2 * n ! + 2` always suffices, and at exit the list is duplicate-free,
consists of permutations reachable from the identity and is closed under
right multiplication by the generators. -/
theorem csLoop_spec {n : Nat} (df : List WickPermutation)
    (hdf : ∀ d ∈ df, isPermOn n d) :
    ∀ (fuel k : Nat) (vwp : List WickPermutation),
    vwp.Nodup →
    (∀ p ∈ vwp, isPermOn n p) →
    (∀ p ∈ vwp, Reach df n p) →
    k ≤ vwp.length →
    (∀ i (h : i < vwp.length), i < k → ∀ d ∈ df,
      (vwp.get ⟨i, h⟩).mul d ∈ vwp) →
    2 * n.factorial + 1 ≤ fuel + k →
    vwp ⊆ csLoop df fuel k vwp ∧
    (csLoop df fuel k vwp).Nodup ∧
    (∀ p ∈ csLoop df fuel k vwp, isPermOn n p) ∧
    (∀ p ∈ csLoop df fuel k vwp, Reach df n p) ∧
    (∀ p ∈ csLoop df fuel k vwp, ∀ d ∈ df,
      p.mul d ∈ csLoop df fuel k vwp) := by
  intro fuel
  induction fuel with
  | zero =>
    intro k vwp hnd hperm hreach hk hproc hfuel
    exfalso
    have hle := perm_list_length_le vwp hnd hperm
    omega
  | succ f ih =>
    intro k vwp hnd hperm hreach hk hproc hfuel
    by_cases hlt : k < vwp.length
    · have hstep : csLoop df (f + 1) k vwp =
          csLoop df f (k + 1) (csStep df vwp (vwp.get ⟨k, hlt⟩)) := by
        show (if h : k < vwp.length then
          csLoop df f (k + 1) (csStep df vwp (vwp.get ⟨k, h⟩)) else vwp) =
          csLoop df f (k + 1) (csStep df vwp (vwp.get ⟨k, hlt⟩))
        rw [dif_pos hlt]
      set g := vwp.get ⟨k, hlt⟩ with hg
      have hgmem : g ∈ vwp := List.get_mem _ _ _
      obtain ⟨⟨ext, hext⟩, hnd2, hdecomp, hprod⟩ := csStep_spec g df vwp hnd
      have hsub2 : vwp ⊆ csStep df vwp g := by
        rw [hext]; exact fun x hx => List.mem_append_left _ hx
      have hperm2 : ∀ p ∈ csStep df vwp g, isPermOn n p := by
        intro p hp
        rcases hdecomp p hp with h | ⟨d, hd, rfl⟩
        · exact hperm p h
        · exact isPermOn_mul (hperm g hgmem) (hdf d hd)
      have hreach2 : ∀ p ∈ csStep df vwp g, Reach df n p := by
        intro p hp
        rcases hdecomp p hp with h | ⟨d, hd, rfl⟩
        · exact hreach p h
        · exact Reach.step (hreach g hgmem) hd
      have hk2 : k + 1 ≤ (csStep df vwp g).length := by
        rw [hext, List.length_append]; omega
      have hproc2 : ∀ i (h : i < (csStep df vwp g).length), i < k + 1 →
          ∀ d ∈ df, ((csStep df vwp g).get ⟨i, h⟩).mul d ∈ csStep df vwp g := by
        intro i h hik d hd
        have hiv : i < vwp.length := by omega
        have hgeti : (csStep df vwp g).get ⟨i, h⟩ = vwp.get ⟨i, hiv⟩ := by
          simp only [List.get_eq_getElem]
          rw [List.getElem_of_eq hext h]
          exact List.getElem_append_left hiv
        rw [hgeti]
        by_cases hik2 : i < k
        · exact hsub2 (hproc i hiv hik2 d hd)
        · have hik3 : i = k := by omega
          subst hik3
          exact hprod d hd
      have hfuel2 : 2 * n.factorial + 1 ≤ f + (k + 1) := by omega
      obtain ⟨s1, s2, s3, s4, s5⟩ :=
        ih (k + 1) (csStep df vwp g) hnd2 hperm2 hreach2 hk2 hproc2 hfuel2
      rw [hstep]
      exact ⟨fun x hx => s1 (hsub2 hx), s2, s3, s4, s5⟩
    · have hstep : csLoop df (f + 1) k vwp = vwp := by
        show (if h : k < vwp.length then
          csLoop df f (k + 1) (csStep df vwp (vwp.get ⟨k, h⟩)) else vwp) = vwp
        rw [dif_neg hlt]
      rw [hstep]
      refine ⟨fun x hx => hx, hnd, hperm, hreach, ?_⟩
      intro p hp d hd
      obtain ⟨⟨i, hi⟩, rfl⟩ := List.mem_iff_get.mp hp
      exact hproc i hi (by omega) d hd

/-! ## Order and sorting lemmas (for claim C6) -/

theorem strLtB_irrefl (l : List Char) : strLtB l l = false := by
  induction l with
  | nil => rfl
  | cons a as ih => simp [strLtB, ih]

theorem strLtB_trans : ∀ {a b c : List Char},
    strLtB a b = true → strLtB b c = true → strLtB a c = true
  | _, [], _, h1, _ => by simp [strLtB] at h1
  | _ :: _, _ :: _, [], _, h2 => by simp [strLtB] at h2
  | [], _ :: _, _ :: _, _, _ => by simp [strLtB]
  | a :: as, b :: bs, c :: cs, h1, h2 => by
    simp only [strLtB] at h1 h2 ⊢
    by_cases l1 : a < b <;> by_cases l2 : b < c
    · rw [if_pos (by exact decide_eq_true (lt_trans l1 l2))]
    · rw [if_neg (by simpa using l2)] at h2
      by_cases l3 : c < b
      · simp [l3] at h2
      · have ebc : b = c := le_antisymm (not_lt.mp l3) (not_lt.mp l2)
        subst ebc
        rw [if_pos (decide_eq_true l1)]
    · rw [if_neg (by simpa using l1)] at h1
      by_cases l3 : b < a
      · simp [l3] at h1
      · have eab : a = b := le_antisymm (not_lt.mp l3) (not_lt.mp l1)
        subst eab
        rw [if_pos (decide_eq_true l2)]
    · rw [if_neg (by simpa using l1)] at h1
      rw [if_neg (by simpa using l2)] at h2
      by_cases l3 : b < a
      · simp [l3] at h1
      · by_cases l4 : c < b
        · simp [l4] at h2
        · have eab : a = b := le_antisymm (not_lt.mp l3) (not_lt.mp l1)
          have ebc : b = c := le_antisymm (not_lt.mp l4) (not_lt.mp l2)
          subst eab
          subst ebc
          rw [if_neg (by simpa using l1), if_neg (by simpa using l3)]
          rw [if_neg (by simpa using l3)] at h1
          rw [if_neg (by simpa using l4)] at h2
          exact strLtB_trans h1 h2

theorem strLtB_total_eq : ∀ {a b : List Char},
    strLtB a b = false → strLtB b a = false → a = b
  | [], [], _, _ => rfl
  | [], _ :: _, h1, _ => by simp [strLtB] at h1
  | _ :: _, [], _, h2 => by simp [strLtB] at h2
  | a :: as, b :: bs, h1, h2 => by
    simp only [strLtB] at h1 h2
    by_cases l1 : a < b
    · simp [l1] at h1
    · by_cases l2 : b < a
      · simp [l2] at h2
      · have eab : a = b := le_antisymm (not_lt.mp l2) (not_lt.mp l1)
        subst eab
        rw [if_neg (by simpa using l1), if_neg (by simpa using l1)] at h1 h2
        rw [strLtB_total_eq h1 h2]

theorem stringLtB_irrefl (s : String) : stringLtB s s = false :=
  strLtB_irrefl s.data

theorem stringLtB_trans {a b c : String} (h1 : stringLtB a b = true)
    (h2 : stringLtB b c = true) : stringLtB a c = true :=
  strLtB_trans h1 h2

theorem stringLtB_total_eq {a b : String} (h1 : stringLtB a b = false)
    (h2 : stringLtB b a = false) : a = b := by
  cases a with
  | mk da =>
    cases b with
    | mk db =>
      have : da = db := strLtB_total_eq h1 h2
      rw [this]

theorem wiLtB_iff (a b : WickIndex) :
    wiLtB a b = true ↔
    (a.types < b.types ∨
      (a.types = b.types ∧ stringLtB a.name b.name = true)) := by
  unfold wiLtB
  by_cases e : a.types = b.types <;> simp [e, beq_iff_eq]

theorem wiLtB_irrefl (a : WickIndex) : wiLtB a a = false := by
  rw [← Bool.not_eq_true, wiLtB_iff]
  simp [stringLtB_irrefl]

theorem wiLtB_trans {a b c : WickIndex} (h1 : wiLtB a b = true)
    (h2 : wiLtB b c = true) : wiLtB a c = true := by
  rw [wiLtB_iff] at *
  rcases h1 with h1 | ⟨e1, n1⟩ <;> rcases h2 with h2 | ⟨e2, n2⟩
  · exact Or.inl (lt_trans h1 h2)
  · exact Or.inl (e2 ▸ h1)
  · exact Or.inl (e1 ▸ h2)
  · exact Or.inr ⟨e1.trans e2, stringLtB_trans n1 n2⟩

theorem wiLtB_total_eq {a b : WickIndex} (h1 : wiLtB a b = false)
    (h2 : wiLtB b a = false) : a = b := by
  rw [← Bool.not_eq_true, wiLtB_iff] at h1 h2
  push_neg at h1 h2
  have et : a.types = b.types := le_antisymm h2.1 h1.1
  have hn1 : stringLtB a.name b.name = false := by
    cases hx : stringLtB a.name b.name
    · rfl
    · exact absurd hx (h1.2 et)
  have hn2 : stringLtB b.name a.name = false := by
    cases hx : stringLtB b.name a.name
    · rfl
    · exact absurd hx (h2.2 et.symm)
  have en : a.name = b.name := stringLtB_total_eq hn1 hn2
  cases a with
  | mk an at2 =>
    cases b with
    | mk bn bt =>
      simp only [WickIndex.mk.injEq]
      exact ⟨en, et⟩

theorem wiListLtB_irrefl (l : List WickIndex) : wiListLtB l l = false := by
  induction l with
  | nil => rfl
  | cons a as ih => simp [wiListLtB, wiLtB_irrefl, ih]

theorem wiListLtB_trans : ∀ {a b c : List WickIndex},
    wiListLtB a b = true → wiListLtB b c = true → wiListLtB a c = true
  | _, [], _, h1, _ => by simp [wiListLtB] at h1
  | _ :: _, _ :: _, [], _, h2 => by simp [wiListLtB] at h2
  | [], _ :: _, _ :: _, _, _ => by simp [wiListLtB]
  | a :: as, b :: bs, c :: cs, h1, h2 => by
    simp only [wiListLtB] at h1 h2 ⊢
    by_cases l1 : wiLtB a b = true <;> by_cases l2 : wiLtB b c = true
    · rw [if_pos (wiLtB_trans l1 l2)]
    · rw [if_neg (by simp [l2])] at h2
      by_cases l3 : wiLtB c b = true
      · simp [l3] at h2
      · have ebc : b = c := wiLtB_total_eq (by simpa using l2) (by simpa using l3)
        subst ebc
        rw [if_pos l1]
    · rw [if_neg (by simp [l1])] at h1
      by_cases l3 : wiLtB b a = true
      · simp [l3] at h1
      · have eab : a = b := wiLtB_total_eq (by simpa using l1) (by simpa using l3)
        subst eab
        rw [if_pos l2]
    · rw [if_neg (by simp [l1])] at h1
      rw [if_neg (by simp [l2])] at h2
      by_cases l3 : wiLtB b a = true
      · simp [l3] at h1
      · by_cases l4 : wiLtB c b = true
        · simp [l4] at h2
        · have eab : a = b := wiLtB_total_eq (by simpa using l1) (by simpa using l3)
          have ebc : b = c := wiLtB_total_eq (by simpa using l2) (by simpa using l4)
          subst eab; subst ebc
          rw [if_neg (by simp [l1]), if_neg (by simp [l3])]
          rw [if_neg (by simp [l3])] at h1
          rw [if_neg (by simp [l4])] at h2
          exact wiListLtB_trans h1 h2

theorem wiListLtB_total_eq : ∀ {a b : List WickIndex},
    wiListLtB a b = false → wiListLtB b a = false → a = b
  | [], [], _, _ => rfl
  | [], _ :: _, h1, _ => by simp [wiListLtB] at h1
  | _ :: _, [], _, h2 => by simp [wiListLtB] at h2
  | a :: as, b :: bs, h1, h2 => by
    simp only [wiListLtB] at h1 h2
    by_cases l1 : wiLtB a b = true
    · simp [l1] at h1
    · by_cases l2 : wiLtB b a = true
      · simp [l2] at h2
      · have eab : a = b := wiLtB_total_eq (by simpa using l1) (by simpa using l2)
        subst eab
        rw [if_neg (by simp [l1]), if_neg (by simp [l1])] at h1 h2
        rw [wiListLtB_total_eq h1 h2]

/-! sortT characterization -/

theorem wiListLtB_false_step {z a r : List WickIndex}
    (h1 : wiListLtB z a = true) (h2 : wiListLtB z r = false) :
    wiListLtB a r = false := by
  cases hb : wiListLtB a r
  · rfl
  · exfalso
    have h3 := wiListLtB_trans h1 hb
    rw [h2] at h3
    exact Bool.false_ne_true h3

theorem wiListLtB_false_step2 {z a r : List WickIndex}
    (h1 : wiListLtB z a = false) (h2 : wiListLtB a r = false) :
    wiListLtB z r = false := by
  cases hb : wiListLtB z r
  · rfl
  · exfalso
    cases hc : wiListLtB a z
    · have heq := wiListLtB_total_eq h1 hc
      rw [← heq] at h2
      rw [h2] at hb
      exact Bool.false_ne_true hb
    · have h3 := wiListLtB_trans hc hb
      rw [h2] at h3
      exact Bool.false_ne_true h3

theorem sortT_fold_spec (t : WickTensor) :
    ∀ (ps : List WickPermutation) (acc : WickTensor × Bool),
    ((ps.foldl (fun (acc : WickTensor × Bool) perm =>
        let z := t.applyPerm perm
        if wiListLtB z.indices acc.1.indices then (z, perm.negative)
        else acc) acc).1 = acc.1 ∨
      ∃ p ∈ ps, (ps.foldl (fun (acc : WickTensor × Bool) perm =>
        let z := t.applyPerm perm
        if wiListLtB z.indices acc.1.indices then (z, perm.negative)
        else acc) acc).1 = t.applyPerm p) ∧
    (∀ p ∈ ps, wiListLtB (t.applyPerm p).indices
      (ps.foldl (fun (acc : WickTensor × Bool) perm =>
        let z := t.applyPerm perm
        if wiListLtB z.indices acc.1.indices then (z, perm.negative)
        else acc) acc).1.indices = false) ∧
    wiListLtB acc.1.indices
      (ps.foldl (fun (acc : WickTensor × Bool) perm =>
        let z := t.applyPerm perm
        if wiListLtB z.indices acc.1.indices then (z, perm.negative)
        else acc) acc).1.indices = false := by
  intro ps
  induction ps with
  | nil =>
    intro acc
    exact ⟨Or.inl rfl, by simp, wiListLtB_irrefl _⟩
  | cons p ps ih =>
    intro acc
    simp only [List.foldl_cons]
    by_cases hlt : wiListLtB (t.applyPerm p).indices acc.1.indices = true
    · obtain ⟨m1, m2, m3⟩ := ih (t.applyPerm p, p.negative)
      rw [if_pos hlt]
      refine ⟨?_, ?_, ?_⟩
      · rcases m1 with h | ⟨q, hq, h⟩
        · exact Or.inr ⟨p, by simp, h⟩
        · exact Or.inr ⟨q, by simp [hq], h⟩
      · intro q hq
        rcases List.mem_cons.mp hq with rfl | hmem
        · exact m3
        · exact m2 q hmem
      · exact wiListLtB_false_step hlt m3
    · obtain ⟨m1, m2, m3⟩ := ih acc
      rw [if_neg hlt]
      refine ⟨?_, ?_, ?_⟩
      · rcases m1 with h | ⟨q, hq, h⟩
        · exact Or.inl h
        · exact Or.inr ⟨q, by simp [hq], h⟩
      · intro q hq
        rcases List.mem_cons.mp hq with rfl | hmem
        · exact wiListLtB_false_step2 (by simpa using hlt) m3
        · exact m2 q hmem
      · exact m3

theorem sortT_spec (t : WickTensor) (f : ℚ) :
    ((t.sortT f).1 = t ∨ ∃ p ∈ t.perms, (t.sortT f).1 = t.applyPerm p) ∧
    (∀ p ∈ t.perms, wiListLtB (t.applyPerm p).indices
      (t.sortT f).1.indices = false) ∧
    wiListLtB t.indices (t.sortT f).1.indices = false := by
  have h := sortT_fold_spec t t.perms (t, false)
  exact h

theorem sortT_no_improve (t : WickTensor) (f : ℚ)
    (h : ∀ p ∈ t.perms, wiListLtB (t.applyPerm p).indices t.indices = false) :
    t.sortT f = (t, f) := by
  have hfold : ∀ ps : List WickPermutation, (∀ p ∈ ps,
      wiListLtB (t.applyPerm p).indices t.indices = false) →
      (ps.foldl (fun (acc : WickTensor × Bool) perm =>
        let z := t.applyPerm perm
        if wiListLtB z.indices acc.1.indices then (z, perm.negative)
        else acc) (t, false)) = (t, false) := by
    intro ps
    induction ps with
    | nil => intro _; rfl
    | cons p ps ih =>
      intro hall
      simp only [List.foldl_cons]
      rw [if_neg (by simp [hall p (by simp)])]
      exact ih (fun q hq => hall q (by simp [hq]))
  unfold WickTensor.sortT
  rw [hfold t.perms h]
  simp

/-! Typeless tensors -/

theorem resetPermutations_typeless (idxs : List WickIndex)
    (hty : ∀ i ∈ idxs, i.types = 0) (ps : List WickPermutation) :
    resetPermutations idxs ps = ps := by
  unfold resetPermutations
  apply List.filter_eq_self.mpr
  intro p _
  apply List.all_eq_true.mpr
  intro i hi
  have hmem : (idxs.getD i default).types = 0 := by
    rw [List.mem_range] at hi
    rw [List.getD_eq_getElem _ _ hi]
    exact hty _ (List.getElem_mem hi)
  rw [hmem]
  simp

theorem mkWickTensor_typeless_perms (nm : String) (idxs : List WickIndex)
    (hty : ∀ i ∈ idxs, i.types = 0) (ps : List WickPermutation) (ty : WTT) :
    (mkWickTensor nm idxs ps ty).perms = completeSet idxs.length ps := by
  unfold mkWickTensor
  exact resetPermutations_typeless idxs hty _

theorem applyPerm_indices (t : WickTensor) (p : WickPermutation) :
    (t.applyPerm p).indices =
    (List.range t.indices.length).map
      (fun i => t.indices.getD (p.data.getD i 0) default) := rfl

theorem applyPerm_typeless {t : WickTensor}
    (hty : ∀ i ∈ t.indices, i.types = 0) (p : WickPermutation) :
    ∀ i ∈ (t.applyPerm p).indices, i.types = 0 := by
  intro i hi
  rw [applyPerm_indices, List.mem_map] at hi
  obtain ⟨k, _, rfl⟩ := hi
  by_cases hk : p.data.getD k 0 < t.indices.length
  · rw [List.getD_eq_getElem _ _ hk]
    exact hty _ (List.getElem_mem hk)
  · rw [List.getD_eq_default _ _ (by omega)]
    rfl

theorem applyPerm_comp_indices {n : Nat} (t : WickTensor)
    (hlen : t.indices.length = n) {p r : WickPermutation}
    (hp : isPermOn n p) (hr : isPermOn n r) :
    ((t.applyPerm p).applyPerm r).indices = (t.applyPerm (p.mul r)).indices := by
  have hlen2 : (t.applyPerm p).indices.length = n := by
    rw [applyPerm_indices]; simp [hlen]
  rw [applyPerm_indices (t.applyPerm p) r, hlen2,
    applyPerm_indices t (p.mul r), hlen]
  apply List.map_congr_left
  intro i hi
  rw [List.mem_range] at hi
  have h1 : r.data.getD i 0 < n := getD_lt hr hi
  have h2 : (t.applyPerm p).indices.getD (r.data.getD i 0) default =
      t.indices.getD (p.data.getD (r.data.getD i 0) 0) default := by
    rw [applyPerm_indices]
    rw [List.getD_eq_getElem _ _ (by simp only [List.length_map, List.length_range, hlen]; exact h1)]
    simp
  rw [h2, mul_data_getD hp hi]

theorem reach_mem_closed {n : Nat} {S : List WickPermutation}
    (hid : identPerm n ∈ S)
    (hcl : ∀ p ∈ S, ∀ q ∈ S, p.mul q ∈ S) {p : WickPermutation}
    (h : Reach S n p) : p ∈ S := by
  induction h with
  | base => exact hid
  | step hg hd ih => exact hcl _ ih _ hd


/-! completeSet spec (shared) -/

theorem applyPerm_typeless_perms {t : WickTensor}
    (hty : ∀ i ∈ t.indices, i.types = 0) (g : WickPermutation) :
    (t.applyPerm g).perms = completeSet t.indices.length t.perms := by
  have h1 : (t.applyPerm g).perms =
      resetPermutations ((List.range t.indices.length).map
        (fun i => t.indices.getD (g.data.getD i 0) default))
        (completeSet ((List.range t.indices.length).map
          (fun i => t.indices.getD (g.data.getD i 0) default)).length
          t.perms) := rfl
  have h2 : ∀ i ∈ (List.range t.indices.length).map
      (fun i => t.indices.getD (g.data.getD i 0) default), i.types = 0 :=
    applyPerm_typeless hty g
  rw [h1, resetPermutations_typeless _ h2 _]
  congr 1
  simp

/-- Summary of the `complete_set` loop: for permutation generators the
result contains the identity, consists of permutations, is closed under
the group product, and every element is a product of generators. -/
theorem completeSet_spec (n : Nat) (G : List WickPermutation)
    (hG : ∀ g ∈ G, isPermOn n g) :
    identPerm n ∈ completeSet n G ∧
    (∀ p ∈ completeSet n G, isPermOn n p) ∧
    (∀ p ∈ completeSet n G, ∀ q ∈ completeSet n G,
      p.mul q ∈ completeSet n G) ∧
    (∀ p ∈ completeSet n G, Reach G n p) := by
  have h := csLoop_spec G hG (2 * n.factorial + 2) 0 [identPerm n]
    (List.nodup_singleton _)
    (by intro p hp; rw [List.mem_singleton] at hp; subst hp; exact isPermOn_ident n)
    (by intro p hp; rw [List.mem_singleton] at hp; subst hp; exact Reach.base)
    (by simp)
    (by intro i h hik d hd; omega)
    (by omega)
  obtain ⟨s1, s2, s3, s4, s5⟩ := h
  refine ⟨s1 (by simp), s3, ?_, s4⟩
  intro p hp q hq
  have hrq := s4 q hq
  clear hq
  induction hrq with
  | base =>
    rw [mul_ident_right (s3 p hp)]
    exact hp
  | step hgr hd ihg =>
    rename_i g d
    rw [← mul_assoc_perm (s3 p hp) (reach_isPermOn hG hgr) (hG d hd)]
    exact s5 _ ihg d hd

/-- C4: for any generator list of permutations of `{0..n-1}`,
`complete_set(n, G)` contains the identity, every element is a
permutation of `{0..n-1}`, and the result is closed under the group
product. -/
theorem C4_complete_set_group (n : Nat) (G : List WickPermutation)
    (hG : ∀ g ∈ G, isPermOn n g) :
    identPerm n ∈ completeSet n G ∧
    (∀ p ∈ completeSet n G, isPermOn n p) ∧
    (∀ p ∈ completeSet n G, ∀ q ∈ completeSet n G,
      p.mul q ∈ completeSet n G) := by
  obtain ⟨h1, h2, h3, _⟩ := completeSet_spec n G hG
  exact ⟨h1, h2, h3⟩

/-- C4 (witness): the two-element swap generators on two slots. -/
theorem C4_complete_set_group_witness :
    (∀ g ∈ twoSymmetric, isPermOn 2 g) ∧
    (identPerm 2 ∈ completeSet 2 twoSymmetric ∧
     (∀ p ∈ completeSet 2 twoSymmetric, isPermOn 2 p) ∧
     (∀ p ∈ completeSet 2 twoSymmetric, ∀ q ∈ completeSet 2 twoSymmetric,
       p.mul q ∈ completeSet 2 twoSymmetric)) :=
  ⟨by decide, C4_complete_set_group 2 twoSymmetric (by decide)⟩


/-! ## Claim C1: normal-ordering parity of a two-operator string -/

/-- C1 (counterexample): `expand()` of the one-term expression
`C[i] D[j]` (typeless indices, factor 1) produces exactly **one** term,
not the two terms claimed: with respect to the particle vacuum the string
`C[i] D[j]` is already normal-ordered (creation before destroy), so no
contraction candidate exists and the expansion is the string itself. -/
theorem C1_counterexample :
    (WickExpr.expand ⟨[⟨[creOp ⟨"i", 0⟩, desOp ⟨"j", 0⟩], [], 1⟩]⟩ none
        false).map (fun r => r.terms.length) = some 1 ∧
    ¬((WickExpr.expand ⟨[⟨[creOp ⟨"i", 0⟩, desOp ⟨"j", 0⟩], [], 1⟩]⟩ none
        false).map (fun r => r.terms.length) = some 2) := by
  exact ⟨by decide, by decide⟩

/-- C1 (amended): for every pair of distinct typeless indices `i`, `j`,
`expand()` of the one-term expression `D[j] C[i]` (destroy before create,
factor 1) produces exactly two terms: the reordered product `C[i] D[j]`
with factor `-1`, and the fully contracted `delta[j,i]` with factor
`+1`. -/
theorem C1_expand_two_terms (i j : String) (h : i ≠ j) :
    WickExpr.expand ⟨[⟨[desOp ⟨j, 0⟩, creOp ⟨i, 0⟩], [], 1⟩]⟩ none false =
    some ⟨[⟨[creOp ⟨i, 0⟩, desOp ⟨j, 0⟩], [], -1⟩,
           ⟨[kroneckerDelta [⟨j, 0⟩, ⟨i, 0⟩]], [], 1⟩]⟩ := rfl

/-- C1 (witness): the amended theorem applied at `i`, `j`. -/
theorem C1_expand_two_terms_witness :
    ("i" : String) ≠ "j" ∧
    WickExpr.expand ⟨[⟨[desOp ⟨"j", 0⟩, creOp ⟨"i", 0⟩], [], 1⟩]⟩ none false =
    some ⟨[⟨[creOp ⟨"i", 0⟩, desOp ⟨"j", 0⟩], [], -1⟩,
           ⟨[kroneckerDelta [⟨"j", 0⟩, ⟨"i", 0⟩]], [], 1⟩]⟩ :=
  ⟨by decide, C1_expand_two_terms "i" "j" (by decide)⟩

/-! ## Claim C8: no mixing of raw and spin-free operators -/

/-- C8: `normal_order_impl_new` succeeds exactly on strings that do not
mix raw creation/annihilation tensors with spin-free tensors: a string
containing both trips the fatal assertion (modelled as `none`), and under
the precondition the assertion is unreachable (the result is `some`). -/
theorem C8_no_mixed_operators (x : WickString) (mu : Option Nat) (nc : Bool) :
    (normalOrderImplNew x mu nc).isSome = true ↔
    ¬(hasCD x = true ∧ hasSF x = true) := by
  by_cases h1 : hasCD x = true <;> by_cases h2 : hasSF x = true <;>
    simp [normalOrderImplNew, h1, h2]

/-! ## Claim C10: odd operator count and max_unctr = 0 -/

/-- C10: a string whose expanded creation/annihilation operator count is
odd cannot be fully contracted, so normal ordering with `max_unctr = 0`
(only fully contracted terms wanted) returns the empty expression: the
DFS queue is never seeded.  (The string must not mix raw and spin-free
operators, otherwise the mixing assertion fires first.) -/
theorem C10_odd_fully_contracted (x : WickString) (nc : Bool)
    (hmix : ¬(hasCD x = true ∧ hasSF x = true))
    (hodd : (buildCd x.tensors).1.length % 2 = 1) :
    normalOrderImplNew x (some 0) nc = some ⟨[]⟩ := by
  have hand : (hasCD x && hasSF x) = false := by
    cases hc : hasCD x <;> cases hs : hasSF x <;> simp_all
  rcases hb : buildCd x.tensors with ⟨cd, mp, ot, isign⟩
  have hodd' : cd.length % 2 = 1 := by rw [hb] at hodd; exact hodd
  rcases hc : buildCtrIdxs cd (hasSF x) with ⟨ci, nb⟩
  unfold normalOrderImplNew
  simp only [hand, Bool.false_eq_true, if_false, hb, hc]
  rw [noLoop_nil]
  · simp [hodd']

/-- C10 (witness): a single creation operator with `max_unctr = 0`. -/
theorem C10_odd_fully_contracted_witness :
    (¬(hasCD ⟨[creOp ⟨"i", 0⟩], [], 1⟩ = true ∧
       hasSF ⟨[creOp ⟨"i", 0⟩], [], 1⟩ = true)) ∧
    (buildCd [creOp ⟨"i", 0⟩]).1.length % 2 = 1 ∧
    normalOrderImplNew ⟨[creOp ⟨"i", 0⟩], [], 1⟩ (some 0) false = some ⟨[]⟩ :=
  ⟨by decide, by decide,
   C10_odd_fully_contracted ⟨[creOp ⟨"i", 0⟩], [], 1⟩ false (by decide)
     (by decide)⟩

/-! ## Claim C6: idempotence of tensor canonicalization -/

/-- C6 (counterexample): for the tensor `t[a,b,c]` with index type masks
`5, 1, 4` and permutation generators `(0 1)` and `(1 2)`, the constructor
filters the completed permutation group against the index types, leaving
a set that is not closed under composition; the first `sort` lands on
`t[b,a,c]`, whose re-built (and re-filtered) permutation set then allows
a further strict improvement to `t[b,c,a]`, so the second `sort` changes
the tensor: canonicalization is not idempotent in general. -/
theorem C6_counterexample :
    ¬(wtEqB
        (((mkWickTensor "t" [⟨"a", 5⟩, ⟨"b", 1⟩, ⟨"c", 4⟩]
            [⟨[1, 0, 2], false⟩, ⟨[0, 2, 1], false⟩]
            WTT.tensorTy).sortT 1).1.sortT
          ((mkWickTensor "t" [⟨"a", 5⟩, ⟨"b", 1⟩, ⟨"c", 4⟩]
            [⟨[1, 0, 2], false⟩, ⟨[0, 2, 1], false⟩]
            WTT.tensorTy).sortT 1).2).1
        (((mkWickTensor "t" [⟨"a", 5⟩, ⟨"b", 1⟩, ⟨"c", 4⟩]
            [⟨[1, 0, 2], false⟩, ⟨[0, 2, 1], false⟩]
            WTT.tensorTy).sortT 1).1) = true) := by decide

/-- C6 (amended): for a tensor built by the `WickTensor` constructor from
typeless indices (type mask `0`, so `reset_permutations` keeps the whole
completed group) and permutation generators acting on the index slots,
`sort` is idempotent: a second application returns the same tensor and
leaves the factor unchanged. -/
theorem C6_sort_idempotent (nm : String) (idxs : List WickIndex)
    (P0 : List WickPermutation) (ty : WTT) (f : ℚ)
    (hty : ∀ i ∈ idxs, i.types = 0)
    (hP0 : ∀ g ∈ P0, isPermOn idxs.length g) :
    ((mkWickTensor nm idxs P0 ty).sortT f).1.sortT
      ((mkWickTensor nm idxs P0 ty).sortT f).2 =
    (mkWickTensor nm idxs P0 ty).sortT f := by
  have htperms : (mkWickTensor nm idxs P0 ty).perms =
      completeSet idxs.length P0 :=
    mkWickTensor_typeless_perms nm idxs hty P0 ty
  have htyt : ∀ i ∈ (mkWickTensor nm idxs P0 ty).indices, i.types = 0 := hty
  obtain ⟨hid, hall, hcl, _⟩ := completeSet_spec idxs.length P0 hP0
  obtain ⟨hform, hmin, hminself⟩ := sortT_spec (mkWickTensor nm idxs P0 ty) f
  have hkey : ∀ p ∈ ((mkWickTensor nm idxs P0 ty).sortT f).1.perms,
      wiListLtB
        (((mkWickTensor nm idxs P0 ty).sortT f).1.applyPerm p).indices
        ((mkWickTensor nm idxs P0 ty).sortT f).1.indices = false := by
    rcases hform with hft | ⟨g, hgS, hfg⟩
    · intro p hp
      rw [hft] at hp ⊢
      have hm := hmin p hp
      rw [hft] at hm
      exact hm
    · intro p hp
      rw [hfg] at hp ⊢
      rw [applyPerm_typeless_perms htyt g, htperms] at hp
      obtain ⟨_, _, _, hreach2⟩ :=
        completeSet_spec idxs.length (completeSet idxs.length P0) hall
      have hpS : p ∈ completeSet idxs.length P0 :=
        reach_mem_closed hid hcl (hreach2 p hp)
      have hgS2 : g ∈ completeSet idxs.length P0 := htperms ▸ hgS
      have hgp : g.mul p ∈ completeSet idxs.length P0 := hcl g hgS2 p hpS
      have hcomp : (((mkWickTensor nm idxs P0 ty).applyPerm g).applyPerm
            p).indices =
          ((mkWickTensor nm idxs P0 ty).applyPerm (g.mul p)).indices :=
        applyPerm_comp_indices (mkWickTensor nm idxs P0 ty) rfl
          (hall g hgS2) (hall p hpS)
      have hm := hmin (g.mul p) (by rw [htperms]; exact hgp)
      rw [hfg] at hm
      rw [hcomp]
      exact hm
  exact sortT_no_improve ((mkWickTensor nm idxs P0 ty).sortT f).1
    ((mkWickTensor nm idxs P0 ty).sortT f).2 hkey

/-- C6 (witness): the antisymmetric two-slot tensor `t[i,j]`. -/
theorem C6_sort_idempotent_witness :
    (∀ i ∈ [(⟨"i", 0⟩ : WickIndex), ⟨"j", 0⟩], i.types = 0) ∧
    (∀ g ∈ [(⟨[1, 0], true⟩ : WickPermutation)],
      isPermOn ([(⟨"i", 0⟩ : WickIndex), ⟨"j", 0⟩]).length g) ∧
    ((mkWickTensor "t" [⟨"i", 0⟩, ⟨"j", 0⟩] [⟨[1, 0], true⟩]
        WTT.tensorTy).sortT 1).1.sortT
      ((mkWickTensor "t" [⟨"i", 0⟩, ⟨"j", 0⟩] [⟨[1, 0], true⟩]
        WTT.tensorTy).sortT 1).2 =
    (mkWickTensor "t" [⟨"i", 0⟩, ⟨"j", 0⟩] [⟨[1, 0], true⟩]
        WTT.tensorTy).sortT 1 :=
  ⟨by decide, by decide,
   C6_sort_idempotent "t" [⟨"i", 0⟩, ⟨"j", 0⟩] [⟨[1, 0], true⟩]
     WTT.tensorTy 1 (by decide) (by decide)⟩


/-! ## Claim C3: delta simplification -/

theorem kroneckerDelta_type (l : List WickIndex) :
    (kroneckerDelta l).type = WTT.kroneckerDelta := rfl

theorem kroneckerDelta_indices (l : List WickIndex) :
    (kroneckerDelta l).indices = l := rfl

theorem replaceIdx_type (ia ib ic : WickIndex) (t : WickTensor) :
    (replaceIdx ia ib ic t).type = t.type := rfl

theorem sdBody_nondelta {st : SDState} {i : Nat}
    (h : ((st.xt.getD i default).type == WTT.kroneckerDelta) = false) :
    sdBody st i = {st with xi := st.xi ++ [i]} := by
  simp only [sdBody]
  split
  · rename_i hc
    rw [h] at hc
    exact absurd hc (by simp)
  · rfl

theorem sdFoldl_nondelta (js : List Nat) :
    ∀ (st : SDState),
    (∀ j ∈ js, ((st.xt.getD j default).type == WTT.kroneckerDelta) = false) →
    js.foldl sdBody st = {st with xi := st.xi ++ js} := by
  induction js with
  | nil => intro st _; simp
  | cons j js ih =>
    intro st h
    rw [List.foldl_cons, sdBody_nondelta (h j (by simp))]
    rw [ih _ (by intro q hq; exact h q (by simp [hq]))]
    simp

theorem map_getD_range {α β : Type} [Inhabited α] (f : α → β) (l : List α) :
    (List.range l.length).map (fun k => f (l.getD k default)) = l.map f := by
  apply List.ext_getElem
  · simp
  · intro i h1 h2
    simp only [List.getElem_map, List.getElem_range]
    have hl : i < l.length := by simpa using h2
    rw [List.getD_eq_getElem _ _ hl]

theorem sdBody_delta_ctr {ia ib : WickIndex} {rest : List WickTensor}
    {xc : WISet} {f : ℚ}
    (hne : ia ≠ ib)
    (hcompat : ((ia.types != 0 || ib.types != 0) &&
      (witAnd ia.types ib.types == 0)) = false)
    (hictr : wisMem xc ia = true) :
    sdBody ⟨kroneckerDelta [ia, ib] :: rest, xc, f, []⟩ 0 =
      ⟨(List.range (rest.length + 1)).map (fun j =>
          if j == 0 then (kroneckerDelta [ia, ib] :: rest).getD j default
          else replaceIdx ia ib ⟨ib.name, witAnd ia.types ib.types⟩
            ((kroneckerDelta [ia, ib] :: rest).getD j default)),
        wisErase xc ia, f, []⟩ := by
  simp [sdBody, kroneckerDelta_type, kroneckerDelta_indices,
    hictr, hcompat, hne]

theorem sdBody_delta_conflict {ia ib : WickIndex} {rest : List WickTensor}
    {xc : WISet} {f : ℚ}
    (hne : ia ≠ ib)
    (hconf : ((ia.types != 0 || ib.types != 0) &&
      (witAnd ia.types ib.types == 0)) = true) :
    sdBody ⟨kroneckerDelta [ia, ib] :: rest, xc, f, []⟩ 0 =
      ⟨kroneckerDelta [ia, ib] :: rest, xc, 0, []⟩ := by
  simp [sdBody, kroneckerDelta_type, kroneckerDelta_indices, hconf, hne]

/-- C3 (amended): for a string holding a single Kronecker delta
`delta[ia,ib]` (all other tensors non-delta) with `ia` distinct from
`ib`: when the two index types are compatible and `ia` is a contraction
index, `simplify_delta` erases `ia` from the contraction set, drops the
delta, and replaces `ia` and `ib` in every other tensor by the index
carrying `ib`'s name and the intersection of the two type masks; when
the types conflict (both sides typed with empty intersection) the factor
becomes zero -- regardless of contraction membership, so in the conflict
case the contraction set is left untouched. -/
theorem C3_simplify_delta (ia ib : WickIndex) (rest : List WickTensor)
    (xc : WISet) (f : ℚ) (hne : ia ≠ ib)
    (hnod : ∀ t ∈ rest, (t.type == WTT.kroneckerDelta) = false) :
    (((ia.types != 0 || ib.types != 0) &&
        (witAnd ia.types ib.types == 0)) = false →
      wisMem xc ia = true →
      wisMem xc ib = false →
      WickString.simplifyDeltaW ⟨kroneckerDelta [ia, ib] :: rest, xc, f⟩ =
        ⟨rest.map (replaceIdx ia ib ⟨ib.name, witAnd ia.types ib.types⟩),
         wisErase xc ia, f⟩) ∧
    (((ia.types != 0 || ib.types != 0) &&
        (witAnd ia.types ib.types == 0)) = true →
      (WickString.simplifyDeltaW
        ⟨kroneckerDelta [ia, ib] :: rest, xc, f⟩).factor = 0) := by
  constructor
  · intro hcompat hictr _
    unfold WickString.simplifyDeltaW
    simp only [List.length_cons]
    rw [List.range_succ_eq_map, List.foldl_cons,
      sdBody_delta_ctr hne hcompat hictr]
    rw [sdFoldl_nondelta _ _ (by
      intro j hj
      rw [List.mem_map] at hj
      obtain ⟨k, hk, rfl⟩ := hj
      rw [List.mem_range] at hk
      rw [List.getD_eq_getElem _ _ (by simp; omega)]
      simp only [List.getElem_map, List.getElem_range]
      rw [if_neg (by simp)]
      simp only [Nat.succ_eq_add_one, List.getD_cons_succ]
      rw [replaceIdx_type]
      exact hnod _ (List.getD_eq_getElem rest default hk ▸
        List.getElem_mem hk))]
    have hfun : ∀ k ∈ List.range rest.length,
        ((List.range (rest.length + 1)).map (fun j =>
          if j == 0 then (kroneckerDelta [ia, ib] :: rest).getD j default
          else replaceIdx ia ib ⟨ib.name, witAnd ia.types ib.types⟩
            ((kroneckerDelta [ia, ib] :: rest).getD j default))).getD
          (Nat.succ k) default =
        replaceIdx ia ib ⟨ib.name, witAnd ia.types ib.types⟩
          (rest.getD k default) := by
      intro k hk
      rw [List.mem_range] at hk
      rw [List.getD_eq_getElem _ _ (by simp; omega)]
      simp only [List.getElem_map, List.getElem_range]
      rw [if_neg (by simp)]
      simp only [Nat.succ_eq_add_one, List.getD_cons_succ]
    simp only [List.nil_append, List.map_map]
    congr 1
    exact (List.map_congr_left (fun k hk => hfun k hk)).trans
      (map_getD_range _ rest)
  · intro hconf
    unfold WickString.simplifyDeltaW
    simp only [List.length_cons]
    rw [List.range_succ_eq_map, List.foldl_cons,
      sdBody_delta_conflict hne hconf]
    rw [sdFoldl_nondelta _ _ (by
      intro j hj
      rw [List.mem_map] at hj
      obtain ⟨k, hk, rfl⟩ := hj
      rw [List.mem_range] at hk
      simp only [Nat.succ_eq_add_one, List.getD_cons_succ]
      exact hnod _ (List.getD_eq_getElem rest default hk ▸
        List.getElem_mem hk))]

/-- C3 (counterexample): for the string with the single delta
`delta[i{Active}, j{Inactive}]`, `i` contracted and `j` free, the claim
promises that `i` is removed from the contraction set; but the two type
masks conflict (`2 & 1 = 0`), so the code only zeroes the factor and
leaves the contraction set unchanged: `i` is still a contraction index
of the result. -/
theorem C3_counterexample :
    wisMem ([⟨"i", 2⟩] : WISet) ⟨"i", 2⟩ = true ∧
    wisMem ([⟨"i", 2⟩] : WISet) ⟨"j", 1⟩ = false ∧
    (WickString.simplifyDeltaW
      ⟨[kroneckerDelta [⟨"i", 2⟩, ⟨"j", 1⟩]], [⟨"i", 2⟩], 1⟩).ctrIndices =
      [⟨"i", 2⟩] ∧
    (WickString.simplifyDeltaW
      ⟨[kroneckerDelta [⟨"i", 2⟩, ⟨"j", 1⟩]], [⟨"i", 2⟩], 1⟩).factor = 0 := by
  refine ⟨by decide, by decide, by decide, by decide⟩

/-- C3 (witness): `delta[i,j] C[k]` with typeless indices and `i`
contracted. -/
theorem C3_simplify_delta_witness :
    ((⟨"i", 0⟩ : WickIndex) ≠ ⟨"j", 0⟩) ∧
    (∀ t ∈ [creOp ⟨"k", 0⟩], (t.type == WTT.kroneckerDelta) = false) ∧
    (WickString.simplifyDeltaW
        ⟨kroneckerDelta [⟨"i", 0⟩, ⟨"j", 0⟩] :: [creOp ⟨"k", 0⟩],
         [⟨"i", 0⟩], 1⟩ =
      ⟨[creOp ⟨"k", 0⟩].map
          (replaceIdx ⟨"i", 0⟩ ⟨"j", 0⟩ ⟨"j", witAnd 0 0⟩),
       wisErase [⟨"i", 0⟩] ⟨"i", 0⟩, 1⟩) :=
  ⟨by decide, by decide,
   (C3_simplify_delta ⟨"i", 0⟩ ⟨"j", 0⟩ [creOp ⟨"k", 0⟩] [⟨"i", 0⟩] 1
     (by decide) (by decide)).1 (by decide) (by decide) (by decide)⟩


/-! ## Claim C5: no zero or empty terms after merging -/

theorem mem_insertOrd {α : Type} {lt : α → α → Bool} {x y : α} {l : List α}
    (h : x ∈ insertOrd lt y l) : x = y ∨ x ∈ l := by
  induction l with
  | nil => simpa [insertOrd] using h
  | cons a as ih =>
    simp only [insertOrd] at h
    by_cases hc : lt y a = true
    · rw [if_pos hc] at h
      simpa using h
    · rw [if_neg hc] at h
      rcases List.mem_cons.mp h with rfl | h2
      · exact Or.inr (by simp)
      · rcases ih h2 with h3 | h3
        · exact Or.inl h3
        · exact Or.inr (by simp [h3])

theorem mem_stableSortBy {α : Type} {lt : α → α → Bool} {x : α} {l : List α}
    (h : x ∈ stableSortBy lt l) : x ∈ l := by
  have key : ∀ (l2 : List α) (acc : List α),
      x ∈ l2.foldl (fun acc x => insertOrd lt x acc) acc →
      x ∈ acc ∨ x ∈ l2 := by
    intro l2
    induction l2 with
    | nil => intro acc h2; exact Or.inl h2
    | cons a as ih =>
      intro acc h2
      rcases ih _ h2 with h3 | h3
      · rcases mem_insertOrd h3 with rfl | h4
        · exact Or.inr (by simp)
        · exact Or.inl h4
      · exact Or.inr (by simp [h3])
  rcases key l [] h with h2 | h2
  · simp at h2
  · exact h2

/-- C5: every term of a successful `simplify_merge()` (and hence of
`simplify()`) result has a non-empty tensor list and a factor of
magnitude strictly above `1e-12`: the merged expression passes through
the `simplify_zero` filter before the final sort, and the sort only
permutes the surviving terms. -/
theorem C5_simplify_merge_terms (e r : WickExpr)
    (h : e.simplifyMerge = some r ∨ e.simplify = some r) :
    ∀ t ∈ r.terms, t.tensors ≠ [] ∧ (1 : ℚ)/1000000000000 < |t.factor| := by
  have main : ∀ (e2 : WickExpr), e2.simplifyMerge = some r →
      ∀ t ∈ r.terms, t.tensors ≠ [] ∧
        (1 : ℚ)/1000000000000 < |t.factor| := by
    intro e2 h2 t ht
    unfold WickExpr.simplifyMerge at h2
    rcases hm : e2.terms.mapM (fun t => t.absW.quickSort) with _ | sorted
    · rw [hm] at h2
      exact absurd h2 (by simp)
    · rw [hm] at h2
      simp only [Option.some_inj] at h2
      rw [← h2] at ht
      have ht2 := mem_stableSortBy ht
      unfold WickExpr.simplifyZero at ht2
      rw [List.mem_filter] at ht2
      obtain ⟨_, hp⟩ := ht2
      rw [Bool.and_eq_true] at hp
      constructor
      · intro hnil
        have h3 := hp.2
        rw [hnil] at h3
        simp at h3
      · exact of_decide_eq_true hp.1
  rcases h with h | h
  · exact main e h
  · exact main _ h

/-- C5 (witness): the one-term expression `C[i]`. -/
theorem C5_simplify_merge_terms_witness :
    ((WickExpr.mk [⟨[creOp ⟨"i", 0⟩], [], 1⟩]).simplifyMerge =
        some ⟨[⟨[creOp ⟨"i", 0⟩], [], 1⟩]⟩ ∨
      (WickExpr.mk [⟨[creOp ⟨"i", 0⟩], [], 1⟩]).simplify =
        some ⟨[⟨[creOp ⟨"i", 0⟩], [], 1⟩]⟩) ∧
    (∀ t ∈ (WickExpr.mk [⟨[creOp ⟨"i", 0⟩], [], 1⟩]).terms,
      t.tensors ≠ [] ∧ (1 : ℚ)/1000000000000 < |t.factor|) :=
  ⟨Or.inl (by with_unfolding_all rfl),
   C5_simplify_merge_terms (WickExpr.mk [⟨[creOp ⟨"i", 0⟩], [], 1⟩])
     (WickExpr.mk [⟨[creOp ⟨"i", 0⟩], [], 1⟩])
     (Or.inl (by with_unfolding_all rfl))⟩


/-! ## Claim C7 -/

/-! C7: trie machinery -/

/-- Well-formedness of the node array: non-empty, rows of width `L`,
child pointers in range and strictly increasing, and each node entered
by at most one edge. -/
def dataWf (L : Nat) (data : List (List Nat)) : Prop :=
  data ≠ [] ∧ (∀ r ∈ data, r.length = L) ∧
  (∀ p j, (data.getD p []).getD j 0 ≠ 0 →
    (data.getD p []).getD j 0 < data.length ∧ p < (data.getD p []).getD j 0) ∧
  (∀ p1 j1 p2 j2, (data.getD p1 []).getD j1 0 ≠ 0 →
    (data.getD p1 []).getD j1 0 = (data.getD p2 []).getD j2 0 →
    p1 = p2 ∧ j1 = j2)

theorem walk_ge {data : List (List Nat)} {L : Nat} (hwf : dataWf L data) :
    ∀ {js : List Nat} {s c : Nat}, trieWalk data s js = some c → s ≤ c := by
  intro js
  induction js with
  | nil => intro s c h; simp [trieWalk] at h; omega
  | cons j js ih =>
    intro s c h
    simp only [trieWalk] at h
    by_cases hz : ((data.getD s []).getD j 0 == 0) = true
    · rw [if_pos hz] at h; exact absurd h (by simp)
    · rw [if_neg hz] at h
      have h2 := ih h
      have h3 := (hwf.2.2.1 s j (by simpa using hz)).2
      omega

theorem walk_nonzero {data : List (List Nat)} :
    ∀ {js : List Nat} {s c : Nat}, js ≠ [] → trieWalk data s js = some c →
    c ≠ 0 ∧ ∃ q jl, (data.getD q []).getD jl 0 = c := by
  intro js
  induction js with
  | nil => intro s c h; exact absurd rfl h
  | cons j js ih =>
    intro s c _ h
    simp only [trieWalk] at h
    by_cases hz : ((data.getD s []).getD j 0 == 0) = true
    · rw [if_pos hz] at h; exact absurd h (by simp)
    · rw [if_neg hz] at h
      cases js with
      | nil =>
        simp only [trieWalk, Option.some_inj] at h
        exact ⟨by rw [← h]; simpa using hz, s, j, h⟩
      | cons j2 js2 => exact ih (by simp) h

theorem walk_snoc {data : List (List Nat)} {s c : Nat}
    {js : List Nat} {j : Nat} :
    trieWalk data s (js ++ [j]) = some c ↔
    (∃ q, trieWalk data s js = some q ∧ (data.getD q []).getD j 0 = c ∧
      c ≠ 0) := by
  induction js generalizing s with
  | nil =>
    simp only [List.nil_append, trieWalk]
    constructor
    · intro h
      by_cases hz : ((data.getD s []).getD j 0 == 0) = true
      · rw [if_pos hz] at h; exact absurd h (by simp)
      · rw [if_neg hz] at h
        simp only [trieWalk, Option.some_inj] at h
        exact ⟨s, rfl, h, by rw [← h]; simpa using hz⟩
    · rintro ⟨q, hq, hc, hnz⟩
      simp only [trieWalk, Option.some_inj] at hq
      subst hq
      rw [if_neg (by simp only [hc, beq_iff_eq]; exact hnz)]
      simp only [trieWalk, hc]
  | cons j0 js0 ih =>
    simp only [List.cons_append, trieWalk]
    by_cases hz : ((data.getD s []).getD j0 0 == 0) = true
    · simp only [if_pos hz]
      constructor
      · intro h; exact absurd h (by simp)
      · rintro ⟨q, hq, _⟩
        exact absurd hq (by simp)
    · simp only [if_neg hz]
      exact ih

theorem walk_to_unique {L : Nat} {data : List (List Nat)}
    (hwf : dataWf L data) :
    ∀ {p1 p2 : List Nat} {s b : Nat}, trieWalk data s p1 = some b →
    trieWalk data s p2 = some b → p1 = p2 := by
  intro p1
  induction p1 using List.reverseRecOn with
  | nil =>
    intro p2 s b h1 h2
    simp only [trieWalk, Option.some_inj] at h1
    subst h1
    cases hp2 : p2.reverse with
    | nil =>
      rw [← List.reverse_reverse p2, hp2]
      rfl
    | cons a l =>
      exfalso
      have : p2 = l.reverse ++ [a] := by
        rw [← List.reverse_reverse p2, hp2]; simp
      rw [this] at h2
      obtain ⟨q, hq, hc, hnz⟩ := walk_snoc.mp h2
      have hge := walk_ge hwf hq
      have hgt := (hwf.2.2.1 q a (by rw [hc]; exact hnz)).2
      omega
  | append_singleton l1 a1 ih =>
    intro p2 s b h1 h2
    obtain ⟨q1, hq1, hc1, hnz1⟩ := walk_snoc.mp h1
    cases hp2 : p2.reverse with
    | nil =>
      exfalso
      have : p2 = [] := by rw [← List.reverse_reverse p2, hp2]; simp
      rw [this] at h2
      simp only [trieWalk, Option.some_inj] at h2
      subst h2
      have hge := walk_ge hwf hq1
      have hgt := (hwf.2.2.1 q1 a1 (by rw [hc1]; exact hnz1)).2
      omega
    | cons a2 l2 =>
      have hp2e : p2 = l2.reverse ++ [a2] := by
        rw [← List.reverse_reverse p2, hp2]; simp
      rw [hp2e] at h2
      obtain ⟨q2, hq2, hc2, hnz2⟩ := walk_snoc.mp h2
      obtain ⟨hpq, hja⟩ := hwf.2.2.2 q1 a1 q2 a2
        (by rw [hc1]; exact hnz1) (by rw [hc1, hc2])
      subst hpq
      have := ih hq1 hq2
      rw [hp2e, ← this, hja]


/-! Index helpers -/

theorem gd_append_lt {data : List (List Nat)} {r : List Nat} {p : Nat}
    (h : p < data.length) : (data ++ [r]).getD p [] = data.getD p [] := by
  rw [List.getD_eq_getElem?_getD, List.getD_eq_getElem?_getD,
    List.getElem?_append, if_pos h]

theorem gd_append_eq {data : List (List Nat)} {r : List Nat} :
    (data ++ [r]).getD data.length [] = r := by
  rw [List.getD_eq_getElem?_getD]
  rw [List.getElem?_append_right (by omega)]
  simp

theorem gd_append_gt {data : List (List Nat)} {r : List Nat} {p : Nat}
    (h : data.length < p) : (data ++ [r]).getD p [] = [] := by
  rw [List.getD_eq_getElem?_getD]
  rw [List.getElem?_append_right (by omega)]
  rw [List.getElem?_eq_none (by simp; omega)]
  rfl

theorem gd_ge {data : List (List Nat)} {p : Nat}
    (h : data.length ≤ p) : data.getD p [] = [] := by
  rw [List.getD_eq_getElem?_getD, List.getElem?_eq_none h]
  rfl

theorem gd_set_self {data : List (List Nat)} {r : List Nat} {p : Nat}
    (h : p < data.length) : (data.set p r).getD p [] = r := by
  rw [List.getD_eq_getElem?_getD, List.getElem?_set_self]
  · simp
  · exact h

theorem gd_set_ne {data : List (List Nat)} {r : List Nat} {p q : Nat}
    (h : p ≠ q) : (data.set p r).getD q [] = data.getD q [] := by
  rw [List.getD_eq_getElem?_getD, List.getD_eq_getElem?_getD,
    List.getElem?_set_ne h]

theorem gdn_set_self {row : List Nat} {v j : Nat} (h : j < row.length) :
    (row.set j v).getD j 0 = v := by
  rw [List.getD_eq_getElem?_getD, List.getElem?_set_self]
  · simp
  · exact h

theorem gdn_set_ne {row : List Nat} {v j i : Nat} (h : j ≠ i) :
    (row.set j v).getD i 0 = row.getD i 0 := by
  rw [List.getD_eq_getElem?_getD, List.getD_eq_getElem?_getD,
    List.getElem?_set_ne h]

theorem gdn_replicate {L j : Nat} : (List.replicate L 0).getD j 0 = 0 := by
  rw [List.getD_eq_getElem?_getD]
  by_cases h : j < L
  · rw [List.getElem?_eq_getElem (by simpa using h)]
    simp
  · rw [List.getElem?_eq_none (by simpa using h)]
    rfl

/-! The one-step extension of the node array -/

theorem ext_child {L : Nat} {data : List (List Nat)} {cur j : Nat}
    (hcur : cur < data.length) :
    ∀ p i, (((data.set cur ((data.getD cur []).set j data.length)) ++
        [List.replicate L 0]).getD p []).getD i 0 =
      if p = cur ∧ i = j ∧ j < (data.getD cur []).length then data.length
      else if p = data.length then 0
      else (data.getD p []).getD i 0 := by
  intro p i
  by_cases hp : p = cur
  · subst hp
    rw [gd_append_lt (by rw [List.length_set]; exact hcur), gd_set_self hcur]
    by_cases hi : i = j
    · subst hi
      by_cases hj2 : i < (data.getD p []).length
      · rw [gdn_set_self hj2, if_pos ⟨rfl, rfl, hj2⟩]
      · rw [List.set_eq_of_length_le (by omega)]
        rw [if_neg (by rintro ⟨_, _, h3⟩; omega), if_neg (by omega)]
    · rw [gdn_set_ne (fun he => hi he.symm)]
      rw [if_neg (by rintro ⟨_, h2, _⟩; exact hi h2), if_neg (by omega)]
  · by_cases hpl : p = data.length
    · subst hpl
      have he : ((data.set cur ((data.getD cur []).set j data.length)) ++
          [List.replicate L 0]).getD data.length [] = List.replicate L 0 := by
        have h2 := @gd_append_eq
          (data.set cur ((data.getD cur []).set j data.length))
          (List.replicate L 0)
        rw [List.length_set] at h2
        exact h2
      rw [he, gdn_replicate]
      rw [if_neg (by rintro ⟨h1, _, _⟩; exact hp h1), if_pos rfl]
    · by_cases hlt : p < data.length
      · rw [gd_append_lt (by rw [List.length_set]; exact hlt),
          gd_set_ne (fun he => hp he.symm)]
        rw [if_neg (by rintro ⟨h1, _, _⟩; exact hp h1), if_neg hpl]
      · have hgt : data.length < p := by omega
        rw [gd_append_gt (by rw [List.length_set]; exact hgt),
          gd_ge (Nat.le_of_lt hgt)]
        rw [if_neg (by rintro ⟨h1, _, _⟩; exact hp h1), if_neg hpl]

theorem wf_extend {L : Nat} {data : List (List Nat)} {cur j : Nat}
    (hwf : dataWf L data) (hcur : cur < data.length) (hj : j < L)
    (hz : (data.getD cur []).getD j 0 = 0) :
    dataWf L ((data.set cur ((data.getD cur []).set j data.length)) ++
      [List.replicate L 0]) := by
  have hrowlen : (data.getD cur []).length = L := by
    have := hwf.2.1 (data.getD cur []) (by
      rw [List.getD_eq_getElem?_getD, List.getElem?_eq_getElem hcur]
      exact List.getElem_mem hcur)
    exact this
  have hlen : ((data.set cur ((data.getD cur []).set j data.length)) ++
      [List.replicate L 0]).length = data.length + 1 := by
    simp
  refine ⟨by simp, ?_, ?_, ?_⟩
  · intro r hr
    rw [List.mem_append] at hr
    rcases hr with hr | hr
    · rw [List.mem_iff_get] at hr  -- fallback below
      obtain ⟨⟨i, hi⟩, rfl⟩ := hr
      rw [List.length_set] at hi
      by_cases hic : i = cur
      · subst hic
        simp only [List.get_eq_getElem, List.getElem_set_self]
        rw [List.length_set]
        exact hrowlen
      · simp only [List.get_eq_getElem]
        rw [List.getElem_set_ne (by omega)]
        exact hwf.2.1 _ (List.getElem_mem hi)
    · rw [List.mem_singleton] at hr
      subst hr
      simp
  · intro p i hne
    rw [ext_child hcur] at hne ⊢
    by_cases h1 : p = cur ∧ i = j ∧ j < (data.getD cur []).length
    · rw [if_pos h1] at hne ⊢
      constructor
      · rw [hlen]; omega
      · rcases h1 with ⟨rfl, _, _⟩; omega
    · rw [if_neg h1] at hne ⊢
      by_cases h2 : p = data.length
      · rw [if_pos h2] at hne; exact absurd rfl hne
      · rw [if_neg h2] at hne ⊢
        have := hwf.2.2.1 p i hne
        rw [hlen]
        omega
  · intro p1 j1 p2 j2 h1 h12
    rw [ext_child hcur] at h1
    rw [ext_child hcur, ext_child hcur] at h12
    by_cases c1 : p1 = cur ∧ j1 = j ∧ j < (data.getD cur []).length
    · rw [if_pos c1] at h1 h12
      by_cases c2 : p2 = cur ∧ j2 = j ∧ j < (data.getD cur []).length
      · exact ⟨c1.1.trans c2.1.symm, c1.2.1.trans c2.2.1.symm⟩
      · rw [if_neg c2] at h12
        by_cases c3 : p2 = data.length
        · rw [if_pos c3] at h12; omega
        · rw [if_neg c3] at h12
          have := hwf.2.2.1 p2 j2 (by omega)
          omega
    · rw [if_neg c1] at h1 h12
      by_cases c3 : p1 = data.length
      · rw [if_pos c3] at h1; exact absurd rfl h1
      · rw [if_neg c3] at h1 h12
        by_cases c2 : p2 = cur ∧ j2 = j ∧ j < (data.getD cur []).length
        · rw [if_pos c2] at h12
          have := hwf.2.2.1 p1 j1 h1
          omega
        · rw [if_neg c2] at h12
          by_cases c4 : p2 = data.length
          · rw [if_pos c4] at h12; exact absurd h12 h1
          · rw [if_neg c4] at h12
            exact hwf.2.2.2 p1 j1 p2 j2 h1 h12

/-! Walks under edge-preserving extension -/

theorem walk_mono {data g : List (List Nat)}
    (hpres : ∀ p j, (data.getD p []).getD j 0 ≠ 0 →
      (g.getD p []).getD j 0 = (data.getD p []).getD j 0) :
    ∀ {js : List Nat} {s c : Nat}, trieWalk data s js = some c →
    trieWalk g s js = some c := by
  intro js
  induction js with
  | nil => intro s c h; exact h
  | cons j0 js0 ih =>
    intro s c h
    simp only [trieWalk] at h ⊢
    by_cases hz : ((data.getD s []).getD j0 0 == 0) = true
    · rw [if_pos hz] at h; exact absurd h (by simp)
    · rw [if_neg hz] at h
      rw [hpres s j0 (by simpa using hz)]
      rw [if_neg hz]
      exact ih h

theorem walk_g_old {L : Nat} {data g : List (List Nat)}
    (hwf : dataWf L data) :
    ∀ {js : List Nat} {s c : Nat}, s < data.length →
    trieWalk g s js = some c →
    trieWalk data s js = some c ∨
    ∃ pre j2 suf p, js = pre ++ j2 :: suf ∧
      trieWalk data s pre = some p ∧ p < data.length ∧
      (g.getD p []).getD j2 0 ≠ (data.getD p []).getD j2 0 := by
  intro js
  induction js with
  | nil => intro s c _ h; exact Or.inl h
  | cons j0 js0 ih =>
    intro s c hs h
    simp only [trieWalk] at h
    by_cases hch : (g.getD s []).getD j0 0 = (data.getD s []).getD j0 0
    · rw [hch] at h
      by_cases hz : ((data.getD s []).getD j0 0 == 0) = true
      · rw [if_pos hz] at h; exact absurd h (by simp)
      · rw [if_neg hz] at h
        have hlt := (hwf.2.2.1 s j0 (by simpa using hz)).1
        rcases ih hlt h with h2 | ⟨pre, j2, suf, p, rfl, hw, hplt, hne⟩
        · left
          simp only [trieWalk]
          rw [if_neg hz]
          exact h2
        · right
          refine ⟨j0 :: pre, j2, suf, p, by simp, ?_, hplt, hne⟩
          simp only [trieWalk]
          rw [if_neg hz]
          exact hw
    · right
      exact ⟨[], j0, js0, s, rfl, rfl, hs, hch⟩


theorem walk_cons {data : List (List Nat)} {cur j : Nat} {js : List Nat}
    {c : Nat} :
    trieWalk data cur (j :: js) = some c ↔
    ((data.getD cur []).getD j 0 ≠ 0 ∧
      trieWalk data ((data.getD cur []).getD j 0) js = some c) := by
  simp only [trieWalk]
  by_cases hz : ((data.getD cur []).getD j 0 == 0) = true
  · rw [if_pos hz]
    simp only [beq_iff_eq] at hz
    constructor
    · intro h; exact absurd h (by simp)
    · rintro ⟨h1, _⟩; exact absurd hz h1
  · rw [if_neg hz]
    simp only [beq_iff_eq] at hz
    exact ⟨fun h => ⟨hz, h⟩, fun h => h.2⟩

theorem row_len {L : Nat} {data : List (List Nat)} (hwf : dataWf L data)
    {p : Nat} (hp : p < data.length) : (data.getD p []).length = L := by
  apply hwf.2.1
  rw [List.getD_eq_getElem?_getD, List.getElem?_eq_getElem hp]
  exact List.getElem_mem hp

theorem trieGrow_follow {L : Nat} {data : List (List Nat)} {cur j : Nat}
    {det : List Nat} (h : (data.getD cur []).getD j 0 ≠ 0) :
    trieGrow L data cur (j :: det) =
    trieGrow L data ((data.getD cur []).getD j 0) det := by
  simp only [trieGrow]
  rw [if_neg (by simpa using h)]

theorem trieGrow_create {L : Nat} {data : List (List Nat)} {cur j : Nat}
    {det : List Nat} (h : (data.getD cur []).getD j 0 = 0) :
    trieGrow L data cur (j :: det) =
    trieGrow L ((data.set cur ((data.getD cur []).set j data.length)) ++
      [List.replicate L 0]) data.length det := by
  simp only [trieGrow]
  rw [if_pos (by simpa using h)]

/-- The full specification of the creating walk `trieGrow`. -/
def GrowOk (L : Nat) (data : List (List Nat)) (cur : Nat) (det : List Nat)
    (g : List (List Nat)) (lf : Nat) : Prop :=
  dataWf L g ∧ data.length ≤ g.length ∧ lf < g.length ∧
  (∀ p j, (data.getD p []).getD j 0 ≠ 0 →
    (g.getD p []).getD j 0 = (data.getD p []).getD j 0) ∧
  (∀ p j, p < data.length →
    (g.getD p []).getD j 0 ≠ (data.getD p []).getD j 0 →
    (data.getD p []).getD j 0 = 0 ∧
    data.length ≤ (g.getD p []).getD j 0 ∧
    ∃ pre suf, det = pre ++ j :: suf ∧ trieWalk data cur pre = some p) ∧
  trieWalk g cur det = some lf ∧
  (∀ js c, js.length = det.length → trieWalk g cur js = some c →
    trieWalk data cur js = some c ∨ js = det) ∧
  (∀ p j, data.length ≤ p → (g.getD p []).getD j 0 ≠ 0 →
    ∃ pre suf, det = pre ++ j :: suf ∧ trieWalk g cur pre = some p)

theorem grow_spec {L : Nat} :
    ∀ (det : List Nat) (data : List (List Nat)) (cur : Nat),
    dataWf L data → cur < data.length → (∀ j ∈ det, j < L) →
    GrowOk L data cur det (trieGrow L data cur det).1
      (trieGrow L data cur det).2 := by
  intro det
  induction det with
  | nil =>
    intro data cur hwf hcur _
    simp only [trieGrow]
    refine ⟨hwf, Nat.le_refl _, hcur, fun p j _ => rfl, ?_, rfl, ?_, ?_⟩
    · intro p j _ hne
      exact absurd rfl hne
    · intro js c hlen h
      have hjs : js = [] := by simpa using hlen
      subst hjs
      exact Or.inl h
    · intro p j hp hne
      rw [gd_ge hp] at hne
      rw [show ([] : List Nat).getD j 0 = 0 from rfl] at hne
      exact absurd rfl hne
  | cons j det ih =>
    intro data cur hwf hcur hb
    have hj : j < L := hb j (by simp)
    have hb2 : ∀ i ∈ det, i < L := fun i hi => hb i (by simp [hi])
    have hpos : 0 < data.length := List.length_pos.mpr hwf.1
    by_cases hch : (data.getD cur []).getD j 0 = 0
    · -- create a fresh node for the first step
      rw [trieGrow_create hch]
      have hrowlen : (data.getD cur []).length = L := row_len hwf hcur
      have hwf2 := wf_extend hwf hcur hj hch
      have hlen2 : ((data.set cur ((data.getD cur []).set j data.length)) ++
          [List.replicate L 0]).length = data.length + 1 := by simp
      have ec := @ext_child L data cur j hcur
      have hd2cur : ∀ i, (((data.set cur ((data.getD cur []).set j
          data.length)) ++ [List.replicate L 0]).getD cur []).getD i 0 =
          if i = j then data.length else (data.getD cur []).getD i 0 := by
        intro i
        rw [ec cur i]
        by_cases hi : i = j
        · rw [if_pos ⟨rfl, hi, by omega⟩, if_pos hi]
        · rw [if_neg (by rintro ⟨_, h2, _⟩; exact hi h2),
            if_neg (by omega), if_neg hi]
      have hd2len : ∀ i, (((data.set cur ((data.getD cur []).set j
          data.length)) ++ [List.replicate L 0]).getD data.length []).getD
          i 0 = 0 := by
        intro i
        rw [ec (data.length) i]
        rw [if_neg (by rintro ⟨h1, _, _⟩; omega), if_pos rfl]
      have hd2o : ∀ p i, p ≠ cur → p ≠ data.length →
          (((data.set cur ((data.getD cur []).set j data.length)) ++
            [List.replicate L 0]).getD p []).getD i 0 =
          (data.getD p []).getD i 0 := by
        intro p i h1 h2
        rw [ec p i]
        rw [if_neg (by rintro ⟨h3, _, _⟩; exact h1 h3), if_neg h2]
      obtain ⟨ihW, ihS2, ihS3, ihS4, ihS5, ihS6, ihS7, ihS8⟩ :=
        ih ((data.set cur ((data.getD cur []).set j data.length)) ++
          [List.replicate L 0]) data.length (hwf2) (by omega) hb2
      -- the slot of an old node is unchanged by the recursive call
      have hsub : ∀ p i, p < data.length + 1 →
          ((trieGrow L ((data.set cur ((data.getD cur []).set j
            data.length)) ++ [List.replicate L 0]) data.length det).1.getD
            p []).getD i 0 ≠
          (((data.set cur ((data.getD cur []).set j data.length)) ++
            [List.replicate L 0]).getD p []).getD i 0 →
          p = data.length := by
        intro p i hp hne
        obtain ⟨_, _, pre, suf, _, hwalk⟩ := ihS5 p i (by omega) hne
        have := walk_ge hwf2 hwalk
        omega
      -- old slots (below the old length) coincide with the old array or
      -- are the single grafted edge
      have hglue : ∀ p i, p < data.length →
          ((trieGrow L ((data.set cur ((data.getD cur []).set j
            data.length)) ++ [List.replicate L 0]) data.length det).1.getD
            p []).getD i 0 =
          (if p = cur ∧ i = j then data.length
           else (data.getD p []).getD i 0) := by
        intro p i hp
        have h1 : ((trieGrow L ((data.set cur ((data.getD cur []).set j
            data.length)) ++ [List.replicate L 0]) data.length det).1.getD
            p []).getD i 0 =
            (((data.set cur ((data.getD cur []).set j data.length)) ++
              [List.replicate L 0]).getD p []).getD i 0 := by
          by_cases hne : ((trieGrow L ((data.set cur ((data.getD cur
              []).set j data.length)) ++ [List.replicate L 0]) data.length
              det).1.getD p []).getD i 0 =
              (((data.set cur ((data.getD cur []).set j data.length)) ++
                [List.replicate L 0]).getD p []).getD i 0
          · exact hne
          · have := hsub p i (by omega) hne
            omega
        rw [h1, ec p i]
        by_cases hc : p = cur ∧ i = j
        · rw [if_pos ⟨hc.1, hc.2, by omega⟩, if_pos hc]
        · rw [if_neg (by rintro ⟨h2, h3, _⟩; exact hc ⟨h2, h3⟩),
            if_neg (by omega), if_neg hc]
      refine ⟨ihW, by omega, ihS3, ?_, ?_, ?_, ?_, ?_⟩
      · -- S4: preserved edges
        intro p i hnz
        have hplt : p < data.length := by
          by_contra hge
          rw [gd_ge (by omega)] at hnz
          exact hnz rfl
        rw [hglue p i hplt]
        by_cases hc : p = cur ∧ i = j
        · exfalso
          rcases hc with ⟨rfl, rfl⟩
          exact hnz hch
        · rw [if_neg hc]
      · -- S5: the changed old slot is the grafted edge
        intro p i hplt hne
        rw [hglue p i hplt] at hne ⊢
        by_cases hc : p = cur ∧ i = j
        · rcases hc with ⟨rfl, rfl⟩
          rw [if_pos ⟨rfl, rfl⟩]
          exact ⟨hch, Nat.le_refl _, [], det, rfl, rfl⟩
        · rw [if_neg hc] at hne
          exact absurd rfl hne
      · -- S6: the grown path is complete
        rw [walk_cons]
        have hstep := hglue cur j hcur
        rw [if_pos ⟨rfl, rfl⟩] at hstep
        rw [hstep]
        refine ⟨by omega, ihS6⟩
      · -- S7: an equal-length walk is old or is the inserted path
        intro js c hlen hwalk
        cases js with
        | nil => simp at hlen
        | cons j0 rest =>
          rw [walk_cons] at hwalk
          obtain ⟨hnz0, hwalk0⟩ := hwalk
          have hstep := hglue cur j0 hcur
          by_cases hj0 : j0 = j
          · subst hj0
            rw [if_pos ⟨rfl, rfl⟩] at hstep
            rw [hstep] at hwalk0
            rcases ihS7 rest c (by simpa using hlen) hwalk0 with h2 | h2
            · cases rest with
              | nil =>
                simp only [trieWalk, Option.some_inj] at h2
                have : det = [] := by simpa using hlen
                right
                rw [this]
              | cons r0 r =>
                rw [walk_cons] at h2
                rw [hd2len r0] at h2
                exact absurd rfl h2.1
            · right
              rw [h2]
          · rw [if_neg (by rintro ⟨_, h3⟩; exact hj0 h3)] at hstep
            rw [hstep] at hwalk0 hnz0
            have hc1lt := (hwf.2.2.1 cur j0 hnz0).1
            rcases walk_g_old hwf hc1lt hwalk0 with h2 |
              ⟨pre, j2, suf, p, hre, hwp, hplt, hpne⟩
            · left
              rw [walk_cons]
              exact ⟨hnz0, h2⟩
            · exfalso
              rw [hglue p j2 hplt] at hpne
              by_cases hc : p = cur ∧ j2 = j
              · obtain ⟨hpc, _⟩ := hc
                have hge := walk_ge hwf hwp
                have hgt := (hwf.2.2.1 cur j0 hnz0).2
                omega
              · rw [if_neg hc] at hpne
                exact absurd rfl hpne
      · -- S8: fresh edges lie on the grown path
        intro p i hp hnz
        by_cases hpl : p = data.length
        · have hzero : (((data.set cur ((data.getD cur []).set j
              data.length)) ++ [List.replicate L 0]).getD p []).getD i 0 =
              0 := by
            rw [hpl]; exact hd2len i
          have hchg : ((trieGrow L ((data.set cur ((data.getD cur []).set
              j data.length)) ++ [List.replicate L 0]) data.length
              det).1.getD p []).getD i 0 ≠
              (((data.set cur ((data.getD cur []).set j data.length)) ++
                [List.replicate L 0]).getD p []).getD i 0 := by
            rw [hzero]
            exact hnz
          obtain ⟨_, _, pre, suf, hdet, hwalk⟩ := ihS5 p i (by omega) hchg
          have hpre : pre = [] := by
            cases pre with
            | nil => rfl
            | cons p0 ps =>
              exfalso
              rw [walk_cons] at hwalk
              rw [hd2len p0] at hwalk
              exact absurd rfl hwalk.1
          subst hpre
          refine ⟨[j], suf, by rw [hdet]; rfl, ?_⟩
          rw [walk_cons]
          have hstep := hglue cur j hcur
          rw [if_pos ⟨rfl, rfl⟩] at hstep
          rw [hstep]
          simp only [trieWalk, Option.some_inj]
          exact ⟨by omega, hpl.symm⟩
        · obtain ⟨pre, suf, hdet, hwalk⟩ := ihS8 p i (by omega) hnz
          refine ⟨j :: pre, suf, by rw [hdet]; rfl, ?_⟩
          rw [walk_cons]
          have hstep := hglue cur j hcur
          rw [if_pos ⟨rfl, rfl⟩] at hstep
          rw [hstep]
          exact ⟨by omega, hwalk⟩
    · -- follow the existing edge
      rw [trieGrow_follow hch]
      have hc0 := hwf.2.2.1 cur j hch
      obtain ⟨ihW, ihS2, ihS3, ihS4, ihS5, ihS6, ihS7, ihS8⟩ :=
        ih data ((data.getD cur []).getD j 0) hwf hc0.1 hb2
      -- the slot (cur, i) is unchanged by the recursive call
      have hcur_un : ∀ i,
          ((trieGrow L data ((data.getD cur []).getD j 0) det).1.getD
            cur []).getD i 0 = (data.getD cur []).getD i 0 := by
        intro i
        by_contra hne
        obtain ⟨_, _, pre, suf, _, hwalk⟩ := ihS5 cur i hcur hne
        have := walk_ge hwf hwalk
        omega
      refine ⟨ihW, ihS2, ihS3, ihS4, ?_, ?_, ?_, ?_⟩
      · -- S5
        intro p i hplt hne
        obtain ⟨h1, h2, pre, suf, hdet, hwalk⟩ := ihS5 p i hplt hne
        refine ⟨h1, h2, j :: pre, suf, by rw [hdet]; rfl, ?_⟩
        rw [walk_cons]
        exact ⟨hch, hwalk⟩
      · -- S6
        rw [walk_cons, hcur_un j]
        exact ⟨hch, ihS6⟩
      · -- S7
        intro js c hlen hwalk
        cases js with
        | nil => simp at hlen
        | cons j0 rest =>
          rw [walk_cons, hcur_un j0] at hwalk
          obtain ⟨hnz0, hwalk0⟩ := hwalk
          by_cases hj0 : j0 = j
          · subst hj0
            rcases ihS7 rest c (by simpa using hlen) hwalk0 with h2 | h2
            · left
              rw [walk_cons]
              exact ⟨hnz0, h2⟩
            · right
              rw [h2]
          · have hc1lt := (hwf.2.2.1 cur j0 hnz0).1
            rcases walk_g_old hwf hc1lt hwalk0 with h2 |
              ⟨pre, j2, suf, p, hre, hwp, hplt, hpne⟩
            · left
              rw [walk_cons]
              exact ⟨hnz0, h2⟩
            · exfalso
              obtain ⟨_, _, pre2, suf2, hdet2, hwalk2⟩ :=
                ihS5 p j2 hplt hpne
              have hu := walk_to_unique hwf
                (show trieWalk data cur (j0 :: pre) = some p by
                  rw [walk_cons]; exact ⟨hnz0, hwp⟩)
                (show trieWalk data cur (j :: pre2) = some p by
                  rw [walk_cons]; exact ⟨hch, hwalk2⟩)
              rw [List.cons.injEq] at hu
              exact hj0 hu.1
      · -- S8
        intro p i hp hnz
        obtain ⟨pre, suf, hdet, hwalk⟩ := ihS8 p i hp hnz
        refine ⟨j :: pre, suf, by rw [hdet]; rfl, ?_⟩
        rw [walk_cons, hcur_un j]
        exact ⟨hch, hwalk⟩


/-! Generic getD-over-append helpers and small list facts -/

theorem ngd_append_lt {xs : List Nat} {y : Nat} {k : Nat}
    (h : k < xs.length) : (xs ++ [y]).getD k 0 = xs.getD k 0 := by
  rw [List.getD_eq_getElem?_getD, List.getD_eq_getElem?_getD,
    List.getElem?_append, if_pos h]

theorem ngd_append_eq {xs : List Nat} {y : Nat} :
    (xs ++ [y]).getD xs.length 0 = y := by
  rw [List.getD_eq_getElem?_getD]
  rw [List.getElem?_append_right (by omega)]
  simp

theorem lgd_append_lt {xs : List (List Nat)} {y : List Nat} {k : Nat}
    (h : k < xs.length) : (xs ++ [y]).getD k [] = xs.getD k [] :=
  gd_append_lt h

theorem ngd_extend {xs ext : List Nat} {k : Nat} (h : k < xs.length) :
    (xs ++ ext).getD k 0 = xs.getD k 0 := by
  rw [List.getD_eq_getElem?_getD, List.getD_eq_getElem?_getD,
    List.getElem?_append, if_pos h]

theorem ngd_set_self {l : List Nat} {v k : Nat} (h : k < l.length) :
    (l.set k v).getD k 0 = v := gdn_set_self h

theorem ngd_set_ne {l : List Nat} {v k i : Nat} (h : k ≠ i) :
    (l.set k v).getD i 0 = l.getD i 0 := gdn_set_ne h

theorem walk_lt {L : Nat} {data : List (List Nat)} (hwf : dataWf L data) :
    ∀ {js : List Nat} {s c : Nat}, s < data.length →
    trieWalk data s js = some c → c < data.length := by
  intro js
  induction js with
  | nil =>
    intro s c hs h
    simp only [trieWalk, Option.some_inj] at h
    omega
  | cons j0 js0 ih =>
    intro s c hs h
    rw [walk_cons] at h
    exact ih ((hwf.2.2.1 s j0 h.1).1) h.2

/-! The setInvs pass -/

theorem setInvs_length (data : List (List Nat)) :
    ∀ (det : List Nat) (invs : List Nat) (q : Nat),
    (setInvs data invs q det).length = invs.length := by
  intro det
  induction det with
  | nil => intro invs q; rfl
  | cons j det ih =>
    intro invs q
    simp only [setInvs]
    rw [ih]
    simp

theorem setInvs_lower {L : Nat} {data : List (List Nat)}
    (hwf : dataWf L data) :
    ∀ (det : List Nat) (q : Nat) (invs : List Nat) (x : Nat) (lf : Nat),
    trieWalk data q det = some lf → x ≤ q →
    (setInvs data invs q det).getD x 0 = invs.getD x 0 := by
  intro det
  induction det with
  | nil => intro q invs x lf _ _; rfl
  | cons j det ih =>
    intro q invs x lf hwalk hx
    rw [walk_cons] at hwalk
    have hgt := (hwf.2.2.1 q j hwalk.1).2
    simp only [setInvs]
    rw [ih ((data.getD q []).getD j 0)
      (invs.set ((data.getD q []).getD j 0) q) x lf hwalk.2 (by omega)]
    exact ngd_set_ne (by omega)

theorem setInvs_on_path {L : Nat} {data : List (List Nat)}
    (hwf : dataWf L data) :
    ∀ (pre : List Nat) (i : Nat) (suf : List Nat) (q : Nat)
      (invs : List Nat) (p lf : Nat),
    trieWalk data q (pre ++ i :: suf) = some lf →
    trieWalk data q pre = some p →
    (data.getD p []).getD i 0 < invs.length →
    (setInvs data invs q (pre ++ i :: suf)).getD
      ((data.getD p []).getD i 0) 0 = p := by
  intro pre
  induction pre with
  | nil =>
    intro i suf q invs p lf hwalk hpre hlt
    simp only [trieWalk, Option.some_inj] at hpre
    subst hpre
    simp only [List.nil_append] at hwalk ⊢
    rw [walk_cons] at hwalk
    simp only [setInvs]
    rw [setInvs_lower hwf suf _ _ _ lf hwalk.2 (Nat.le_refl _)]
    exact ngd_set_self hlt
  | cons j0 pre ih =>
    intro i suf q invs p lf hwalk hpre hlt
    simp only [List.cons_append] at hwalk ⊢
    rw [walk_cons] at hwalk hpre
    simp only [setInvs]
    exact ih i suf _ _ p lf hwalk.2 hpre.2 (by rw [List.length_set]; exact hlt)

theorem setInvs_off_path {L : Nat} {data : List (List Nat)}
    (hwf : dataWf L data) :
    ∀ (det : List Nat) (q : Nat) (invs : List Nat) (x lf : Nat),
    trieWalk data q det = some lf →
    (¬∃ pre i suf p, det = pre ++ i :: suf ∧
      trieWalk data q pre = some p ∧ (data.getD p []).getD i 0 = x) →
    (setInvs data invs q det).getD x 0 = invs.getD x 0 := by
  intro det
  induction det with
  | nil => intro q invs x lf _ _; rfl
  | cons j det ih =>
    intro q invs x lf hwalk hno
    rw [walk_cons] at hwalk
    have hxne : (data.getD q []).getD j 0 ≠ x := by
      intro he
      exact hno ⟨[], j, det, q, rfl, rfl, he⟩
    simp only [setInvs]
    rw [ih ((data.getD q []).getD j 0) _ x lf hwalk.2 ?_]
    · exact ngd_set_ne hxne
    · rintro ⟨pre, i, suf, p, hdet, hpre, hc⟩
      exact hno ⟨j :: pre, i, suf, p, by rw [hdet]; rfl, by
        rw [walk_cons]; exact ⟨hwalk.1, hpre⟩, hc⟩

/-! Sorted leaf lists and lower_bound -/

theorem sorted_le_last {l : List Nat} (hs : l.Pairwise (· < ·)) :
    ∀ x ∈ l, x ≤ l.getLastD 0 := by
  induction l with
  | nil => intro x hx; simp at hx
  | cons a rest ih =>
    intro x hx
    rcases List.mem_cons.mp hx with rfl | hx2
    · cases rest with
      | nil => simp
      | cons b r =>
        have hab : x < b := (List.pairwise_cons.mp hs).1 b (by simp)
        have hble := ih (List.pairwise_cons.mp hs).2 b (by simp)
        rw [List.getLastD_cons] at hble ⊢
        rw [List.getLastD_cons]
        omega
    · cases rest with
      | nil => simp at hx2
      | cons b r =>
        have h2 := ih (List.pairwise_cons.mp hs).2 x hx2
        rw [List.getLastD_cons] at h2 ⊢
        rw [List.getLastD_cons]
        exact h2

theorem sorted_lower_bound {l : List Nat} (hs : l.Pairwise (· < ·)) :
    ∀ {k : Nat}, k < l.length →
    l.findIdx (fun x => decide (l.getD k 0 ≤ x)) = k := by
  induction l with
  | nil => intro k hk; simp at hk
  | cons a rest ih =>
    intro k hk
    cases k with
    | zero =>
      rw [List.findIdx_cons]
      have hc : (decide ((a :: rest).getD 0 0 ≤ a)) = true := by
        simp only [decide_eq_true_eq]
        exact Nat.le.refl
      rw [hc]
      rfl
    | succ k0 =>
      have hk0 : k0 < rest.length := by simpa using hk
      have hmem : rest.getD k0 0 ∈ rest := by
        rw [List.getD_eq_getElem _ _ hk0]
        exact List.getElem_mem hk0
      have halt : a < rest.getD k0 0 :=
        (List.pairwise_cons.mp hs).1 _ hmem
      have hgd : (a :: rest).getD (k0 + 1) 0 = rest.getD k0 0 := rfl
      rw [List.findIdx_cons, hgd]
      have hcond : (decide (rest.getD k0 0 ≤ a)) = false := by
        simp only [decide_eq_false_iff_not]
        omega
      rw [hcond]
      simp only [cond_false]
      rw [ih (List.pairwise_cons.mp hs).2 hk0]

theorem findIdx_ge_of_lt_all {l : List Nat} {v : Nat}
    (h : ∀ x ∈ l, x < v ∨ v < x) :
    l.findIdx (fun x => decide (v ≤ x)) < l.length →
    l.getD (l.findIdx (fun x => decide (v ≤ x))) 0 ≠ v := by
  intro hlt he
  have hmem : l.getD (l.findIdx (fun x => decide (v ≤ x))) 0 ∈ l := by
    rw [List.getD_eq_getElem _ _ hlt]
    exact List.getElem_mem hlt
  rcases h _ hmem with h2 | h2 <;> omega


/-! The trie invariant -/

/-- Invariant of a trie that holds exactly the determinants `ds`,
inserted in this order. -/
def TrieInv (t : Trie) (ds : List (List Nat)) : Prop :=
  dataWf t.L t.data ∧
  t.dets.length = ds.length ∧
  (∀ d ∈ ds, d.length = t.nSites ∧ ∀ j ∈ d, j < t.L) ∧
  (∀ k, k < ds.length →
    trieWalk t.data 0 (ds.getD k []) = some (t.dets.getD k 0)) ∧
  t.dets.Pairwise (· < ·) ∧
  (t.enableLookUp = true →
    (t.invs.length = t.data.length ∧
     ∀ p i, (t.data.getD p []).getD i 0 ≠ 0 →
       t.invs.getD ((t.data.getD p []).getD i 0) 0 = p) ∨
    (t.data = [List.replicate t.L 0] ∧ t.invs = []))

theorem root_no_edge {L : Nat} :
    ∀ p i, (([List.replicate L 0] : List (List Nat)).getD p []).getD i 0
      = 0 := by
  intro p i
  by_cases hp : p = 0
  · subst hp
    exact gdn_replicate
  · rw [gd_ge (by simp; omega)]
    rfl

theorem trieInv_mk (nSites L : Nat) (lookup : Bool) :
    TrieInv (mkTrie nSites L lookup) [] := by
  refine ⟨⟨by simp [mkTrie], ?_, ?_, ?_⟩, rfl, by simp, by simp,
    List.Pairwise.nil, ?_⟩
  · intro r hr
    simp only [mkTrie, List.mem_singleton] at hr
    subst hr
    simp [mkTrie]
  · intro p j h
    exact absurd (root_no_edge p j) h
  · intro p1 j1 p2 j2 h1 _
    exact absurd (root_no_edge p1 j1) h1
  · intro _
    right
    exact ⟨rfl, rfl⟩

theorem pushBack_inv {t : Trie} {ds : List (List Nat)} {d : List Nat}
    {t2 : Trie} (hinv : TrieInv t ds) (h : t.pushBack d = some t2) :
    TrieInv t2 (ds ++ [d]) := by
  obtain ⟨hwf, hlens, hds, hW1, hsort, hlook⟩ := hinv
  have hpos : 0 < t.data.length := List.length_pos.mpr hwf.1
  simp only [Trie.pushBack] at h
  by_cases h1 : (d.length == t.nSites && d.all (fun j => decide
      (j < t.L))) = true
  · rw [if_pos h1] at h
    by_cases h2 : (t.dets == [] || decide ((t.dets.getLastD 0) <
        (trieGrow t.L t.data 0 d).2)) = true
    · rw [if_pos h2] at h
      have ht2 := (Option.some_inj.mp h).symm
      have h1b := h1
      rw [Bool.and_eq_true] at h1b
      have hdlen : d.length = t.nSites := by
        have := h1b.1
        simpa using this
      have hdb : ∀ j ∈ d, j < t.L := by
        have := h1b.2
        rw [List.all_eq_true] at this
        intro j hj
        simpa using this j hj
      obtain ⟨gW, gS2, gS3, gS4, gS5, gS6, gS7, gS8⟩ :=
        grow_spec d t.data 0 hwf hpos hdb
      have hL2 : t2.L = t.L := by rw [ht2]
      have hn2 : t2.nSites = t.nSites := by rw [ht2]
      have he2 : t2.enableLookUp = t.enableLookUp := by rw [ht2]
      have hdata2 : t2.data = (trieGrow t.L t.data 0 d).1 := by rw [ht2]
      have hdets2 : t2.dets = t.dets ++ [(trieGrow t.L t.data 0 d).2] := by
        rw [ht2]
      refine ⟨?_, ?_, ?_, ?_, ?_, ?_⟩
      · rw [hL2, hdata2]
        exact gW
      · rw [hdets2]
        simp [hlens]
      · intro d2 hd2
        rw [hn2, hL2]
        rcases List.mem_append.mp hd2 with h3 | h3
        · exact hds d2 h3
        · rw [List.mem_singleton] at h3
          subst h3
          exact ⟨hdlen, hdb⟩
      · intro k hk
        rw [List.length_append, List.length_singleton] at hk
        rw [hdata2, hdets2]
        by_cases hk2 : k < ds.length
        · rw [gd_append_lt hk2, ngd_append_lt (by omega)]
          exact walk_mono gS4 (hW1 k hk2)
        · have hke : k = ds.length := by omega
          subst hke
          rw [show (ds ++ [d]).getD ds.length [] = d from gd_append_eq]
          rw [show (t.dets ++ [(trieGrow t.L t.data 0 d).2]).getD
            ds.length 0 = (trieGrow t.L t.data 0 d).2 from by
              rw [← hlens]; exact ngd_append_eq]
          exact gS6
      · rw [hdets2]
        rw [List.pairwise_append]
        refine ⟨hsort, by simp, ?_⟩
        intro a ha b hb
        rw [List.mem_singleton] at hb
        subst hb
        have h2b := h2
        rw [Bool.or_eq_true] at h2b
        rcases h2b with h3 | h3
        · rw [beq_iff_eq] at h3
          rw [h3] at ha
          simp at ha
        · have hlast := sorted_le_last hsort a ha
          have h4 : t.dets.getLastD 0 < (trieGrow t.L t.data 0 d).2 :=
            of_decide_eq_true h3
          omega
      · rw [he2]
        intro hl
        left
        have hinvs2 : t2.invs = setInvs (trieGrow t.L t.data 0 d).1
            (t.invs ++ List.replicate ((trieGrow t.L t.data 0 d).1.length
              - t.invs.length) 0) 0 d := by
          rw [ht2]
          simp only [hl, if_true]
        have hil : t.invs.length ≤ (trieGrow t.L t.data 0 d).1.length := by
          rcases hlook hl with ⟨h3, _⟩ | ⟨_, h3⟩
          · omega
          · rw [h3]
            simp
        have hbl : (t.invs ++ List.replicate
            ((trieGrow t.L t.data 0 d).1.length - t.invs.length) 0).length
            = (trieGrow t.L t.data 0 d).1.length := by
          simp
          omega
        constructor
        · rw [hinvs2, hdata2, setInvs_length, hbl]
        · intro p i hnz
          rw [hdata2] at hnz ⊢
          rw [hinvs2]
          by_cases hsplit : ∃ pre i2 suf p2, d = pre ++ i2 :: suf ∧
            trieWalk (trieGrow t.L t.data 0 d).1 0 pre = some p2 ∧
            ((trieGrow t.L t.data 0 d).1.getD p2 []).getD i2 0 =
              ((trieGrow t.L t.data 0 d).1.getD p []).getD i 0
          · obtain ⟨pre, i2, suf, p2, hdet, hpre, hc⟩ := hsplit
            have hcnz : ((trieGrow t.L t.data 0 d).1.getD p2 []).getD
                i2 0 ≠ 0 := by
              rw [hc]
              exact hnz
            obtain ⟨hpp, hii⟩ := gW.2.2.2 p2 i2 p i hcnz hc
            subst hpp
            subst hii
            have hwp : trieWalk (trieGrow t.L t.data 0 d).1 0
                (pre ++ i2 :: suf) = some (trieGrow t.L t.data 0 d).2 := by
              rw [← hdet]
              exact gS6
            have := setInvs_on_path gW pre i2 suf 0
              (t.invs ++ List.replicate ((trieGrow t.L t.data 0
                d).1.length - t.invs.length) 0)
              p2 (trieGrow t.L t.data 0 d).2 hwp hpre
              (by rw [hbl]; exact (gW.2.2.1 p2 i2 hcnz).1)
            rw [← hdet] at this
            exact this
          · have hoff := setInvs_off_path gW d 0
              (t.invs ++ List.replicate ((trieGrow t.L t.data 0
                d).1.length - t.invs.length) 0)
              (((trieGrow t.L t.data 0 d).1.getD p []).getD i 0)
              (trieGrow t.L t.data 0 d).2 gS6 (by
                rintro ⟨pre, i2, suf, p2, hdet, hpre, hc⟩
                exact hsplit ⟨pre, i2, suf, p2, hdet, hpre, hc⟩)
            rw [hoff]
            have hplt : p < t.data.length := by
              by_contra hge
              obtain ⟨pre, suf, hdet, hpre⟩ := gS8 p i (by omega) hnz
              exact hsplit ⟨pre, i, suf, p, hdet, hpre, rfl⟩
            have hold : ((trieGrow t.L t.data 0 d).1.getD p []).getD i 0 =
                (t.data.getD p []).getD i 0 := by
              by_contra hne
              obtain ⟨_, _, pre, suf, hdet, hpre⟩ := gS5 p i hplt hne
              exact hsplit ⟨pre, i, suf, p, hdet,
                walk_mono gS4 hpre, rfl⟩
            rw [hold] at hnz ⊢
            rcases hlook hl with ⟨h3, h4⟩ | ⟨h3, _⟩
            · have hclt : (t.data.getD p []).getD i 0 < t.invs.length := by
                rw [h3]
                exact (hwf.2.2.1 p i hnz).1
              rw [ngd_extend hclt]
              exact h4 p i hnz
            · exfalso
              rw [h3] at hnz
              exact hnz (root_no_edge p i)
    · rw [if_neg h2] at h
      cases h
  · rw [if_neg h1] at h
    cases h


theorem build_inv : ∀ (ds : List (List Nat)) (t0 : Trie)
    (ds0 : List (List Nat)) (t : Trie), TrieInv t0 ds0 →
    List.foldlM (fun t d => t.pushBack d) t0 ds = some t →
    TrieInv t (ds0 ++ ds) := by
  intro ds
  induction ds with
  | nil =>
    intro t0 ds0 t hinv h
    cases h
    rw [List.append_nil]
    exact hinv
  | cons d ds ih =>
    intro t0 ds0 t hinv h
    rw [List.foldlM_cons] at h
    cases hp : t0.pushBack d with
    | none =>
      rw [hp] at h
      exact absurd h (by simp)
    | some t1 =>
      rw [hp] at h
      have h2 : List.foldlM (fun t d => t.pushBack d) t1 ds = some t := h
      have h3 := ih t1 (ds0 ++ [d]) t (pushBack_inv hinv hp) h2
      simpa using h3

theorem pushBack_fields {t : Trie} {d : List Nat} {t2 : Trie}
    (h : t.pushBack d = some t2) :
    t2.L = t.L ∧ t2.nSites = t.nSites ∧
    t2.enableLookUp = t.enableLookUp := by
  simp only [Trie.pushBack] at h
  by_cases h1 : (d.length == t.nSites && d.all (fun j => decide
      (j < t.L))) = true
  · rw [if_pos h1] at h
    by_cases h2 : (t.dets == [] || decide ((t.dets.getLastD 0) <
        (trieGrow t.L t.data 0 d).2)) = true
    · rw [if_pos h2] at h
      have ht2 := (Option.some_inj.mp h).symm
      rw [ht2]
      exact ⟨rfl, rfl, rfl⟩
    · rw [if_neg h2] at h
      cases h
  · rw [if_neg h1] at h
    cases h

theorem build_fields : ∀ (ds : List (List Nat)) (t0 t : Trie),
    List.foldlM (fun t d => t.pushBack d) t0 ds = some t →
    t.L = t0.L ∧ t.nSites = t0.nSites ∧
    t.enableLookUp = t0.enableLookUp := by
  intro ds
  induction ds with
  | nil =>
    intro t0 t h
    cases h
    exact ⟨rfl, rfl, rfl⟩
  | cons d ds ih =>
    intro t0 t h
    rw [List.foldlM_cons] at h
    cases hp : t0.pushBack d with
    | none =>
      rw [hp] at h
      exact absurd h (by simp)
    | some t1 =>
      rw [hp] at h
      obtain ⟨f1, f2, f3⟩ := ih t1 t h
      obtain ⟨g1, g2, g3⟩ := pushBack_fields hp
      exact ⟨f1.trans g1, f2.trans g2, f3.trans g3⟩

theorem inv_find {t : Trie} {ds : List (List Nat)} (hinv : TrieInv t ds)
    {k : Nat} (hk : k < ds.length) :
    t.find (ds.getD k []) = some (Int.ofNat k) := by
  obtain ⟨hwf, hlens, hds, hW1, hsort, _⟩ := hinv
  have hmem : ds.getD k [] ∈ ds := by
    rw [List.getD_eq_getElem _ _ hk]
    exact List.getElem_mem hk
  obtain ⟨hdl, hdb⟩ := hds _ hmem
  simp only [Trie.find]
  rw [if_pos (by
    rw [Bool.and_eq_true]
    refine ⟨by simpa using hdl, ?_⟩
    rw [List.all_eq_true]
    intro j hj
    simpa using hdb j hj)]
  rw [hW1 k hk]
  have hfi : t.dets.findIdx (fun d2 => decide (t.dets.getD k 0 ≤ d2))
      = k := sorted_lower_bound hsort (by omega)
  show (if (decide (t.dets.findIdx (fun d2 => decide (t.dets.getD k 0 ≤
      d2)) < t.dets.length) && (t.dets.getD (t.dets.findIdx (fun d2 =>
      decide (t.dets.getD k 0 ≤ d2))) 0 == t.dets.getD k 0)) = true
    then some (Int.ofNat (t.dets.findIdx (fun d2 =>
      decide (t.dets.getD k 0 ≤ d2))))
    else some (-1)) = some (Int.ofNat k)
  rw [hfi]
  rw [if_pos (by
    rw [Bool.and_eq_true]
    exact ⟨decide_eq_true (by omega), by simp⟩)]

theorem inv_find_absent {t : Trie} {ds : List (List Nat)}
    (hinv : TrieInv t ds) {det : List Nat} (hlen : det.length = t.nSites)
    (hb : ∀ j ∈ det, j < t.L) (hmem : det ∉ ds) :
    t.find det = some (-1) := by
  obtain ⟨hwf, hlens, hds, hW1, hsort, _⟩ := hinv
  simp only [Trie.find]
  rw [if_pos (by
    rw [Bool.and_eq_true]
    refine ⟨by simpa using hlen, ?_⟩
    rw [List.all_eq_true]
    intro j hj
    simpa using hb j hj)]
  cases hw : trieWalk t.data 0 det with
  | none => rfl
  | some cur =>
    show (if (decide (t.dets.findIdx (fun d2 => decide (cur ≤ d2)) <
        t.dets.length) && (t.dets.getD (t.dets.findIdx (fun d2 =>
        decide (cur ≤ d2))) 0 == cur)) = true
      then some (Int.ofNat (t.dets.findIdx (fun d2 => decide (cur ≤ d2))))
      else some (-1)) = some (-1)
    rw [if_neg ?_]
    rw [Bool.and_eq_true]
    rintro ⟨hc1, hc2⟩
    have hidx : t.dets.findIdx (fun d2 => decide (cur ≤ d2)) <
        t.dets.length := of_decide_eq_true hc1
    have hceq : t.dets.getD (t.dets.findIdx (fun d2 =>
        decide (cur ≤ d2))) 0 = cur := by simpa using hc2
    have hwalk2 := hW1 (t.dets.findIdx (fun d2 => decide (cur ≤ d2)))
      (by omega)
    rw [hceq] at hwalk2
    have heq := walk_to_unique hwf hw hwalk2
    apply hmem
    rw [heq]
    rw [List.getD_eq_getElem _ _ (by omega)]
    exact List.getElem_mem (by omega)

theorem findIdxOpt_unique : ∀ (row : List Nat) (v i s : Nat),
    i < row.length → row.getD i 0 = v →
    (∀ i2, i2 < row.length → row.getD i2 0 = v → i2 = i) →
    row.findIdx? (fun c => c == v) s = some (s + i) := by
  intro row
  induction row with
  | nil => intro v i s hi _ _; simp at hi
  | cons a rest ih =>
    intro v i s hi hv huniq
    rw [List.findIdx?_cons]
    cases i with
    | zero =>
      have ha : a = v := by simpa using hv
      rw [if_pos (by simp [ha])]
      rfl
    | succ i0 =>
      have hane : (a == v) = true → False := by
        intro he
        have h2 := huniq 0 (by simp) (by simpa using he)
        omega
      rw [if_neg hane]
      rw [ih v i0 (s + 1) (by simpa using hi) (by simpa using hv) ?_]
      · congr 1
        omega
      · intro i2 h2 hv2
        have h3 := huniq (i2 + 1) (by simpa using h2) (by simpa using hv2)
        omega

theorem readBack_spec {L : Nat} {data : List (List Nat)} {invs : List Nat}
    (hwf : dataWf L data)
    (hinvs : ∀ p i, (data.getD p []).getD i 0 ≠ 0 →
      invs.getD ((data.getD p []).getD i 0) 0 = p) :
    ∀ (det : List Nat) (q lf : Nat) (r : List Nat), q < data.length →
    trieWalk data q det = some lf → (∀ j ∈ det, j < L) →
    readBack data invs lf det.length r = det ++ r := by
  intro det
  induction det using List.reverseRecOn with
  | nil =>
    intro q lf r _ hw _
    rfl
  | append_singleton det2 i ih =>
    intro q lf r hq hw hb
    obtain ⟨p, hp, hc, hnz⟩ := walk_snoc.mp hw
    have hplt : p < data.length := walk_lt hwf hq hp
    have hrow : (data.getD p []).length = L := row_len hwf hplt
    have hilt : i < L := hb i (by simp)
    have hlene : (det2 ++ [i]).length = det2.length + 1 := by simp
    rw [hlene]
    simp only [readBack]
    have hir : invs.getD lf 0 = p := by
      rw [← hc]
      exact hinvs p i (by rw [hc]; exact hnz)
    rw [hir]
    have hfind : (data.getD p []).findIdx? (fun c => c == lf) = some i := by
      have h0 := findIdxOpt_unique (data.getD p []) lf i 0 (by omega) hc
        (fun i2 h2 hv2 => (hwf.2.2.2 p i2 p i (by rw [hv2]; exact hnz)
          (hv2.trans hc.symm)).2)
      simpa using h0
    rw [hfind]
    show readBack data invs p det2.length (i :: r) = det2 ++ [i] ++ r
    rw [ih q p (i :: r) hq hp (fun j hj => hb j (by simp [hj]))]
    simp

theorem inv_getDet {t : Trie} {ds : List (List Nat)} (hinv : TrieInv t ds)
    (hl : t.enableLookUp = true) {k : Nat} (hk : k < ds.length) :
    t.getDet k = some (ds.getD k []) := by
  obtain ⟨hwf, hlens, hds, hW1, hsort, hlook⟩ := hinv
  have hpos : 0 < t.data.length := List.length_pos.mpr hwf.1
  have hmem : ds.getD k [] ∈ ds := by
    rw [List.getD_eq_getElem _ _ hk]
    exact List.getElem_mem hk
  obtain ⟨hdl, hdb⟩ := hds _ hmem
  simp only [Trie.getDet]
  rw [if_pos (by
    rw [Bool.and_eq_true]
    exact ⟨hl, decide_eq_true (by omega)⟩)]
  rcases hlook hl with ⟨_, hicorr⟩ | ⟨hdata, _⟩
  · have hrb := readBack_spec hwf hicorr (ds.getD k []) 0
      (t.dets.getD k 0) [] hpos (hW1 k hk) hdb
    rw [List.append_nil] at hrb
    rw [← hdl]
    rw [hrb]
  · cases hd : ds.getD k [] with
    | nil =>
      have hn0 : t.nSites = 0 := by rw [← hdl, hd]; rfl
      rw [hn0]
      rfl
    | cons j0 djs =>
      exfalso
      have hwk := hW1 k hk
      rw [hd] at hwk
      rw [walk_cons] at hwk
      rw [hdata] at hwk
      exact hwk.1 (root_no_edge 0 j0)

/-- C7: for the determinant TRIE built by successive `push_back` calls on a
strictly increasing list of determinants (each of length `n_sites` with
entries below `L = 4` in the source, here a parameter), `find` returns the
index of every stored determinant, `find` returns `-1` for any well-formed
determinant that was never stored, and with `enable_look_up` on, walking the
`invs` parent pointers (`operator[]`) reconstructs every stored
determinant. -/
theorem C7_trie_roundtrip (nSites L : Nat) (lookup : Bool)
    (ds : List (List Nat)) (t : Trie)
    (h : buildTrie nSites L lookup ds = some t) :
    (∀ k, k < ds.length → t.find (ds.getD k []) = some (Int.ofNat k)) ∧
    (lookup = true → ∀ k, k < ds.length →
      t.getDet k = some (ds.getD k [])) ∧
    (∀ det : List Nat, det.length = nSites → (∀ j ∈ det, j < L) →
      det ∉ ds → t.find det = some (-1)) := by
  have h2 : List.foldlM (fun t d => t.pushBack d)
      (mkTrie nSites L lookup) ds = some t := h
  have hinv0 := build_inv ds (mkTrie nSites L lookup) [] t
    (trieInv_mk nSites L lookup) h2
  rw [List.nil_append] at hinv0
  obtain ⟨hLf, hnf, hef⟩ := build_fields ds (mkTrie nSites L lookup) t h2
  refine ⟨?_, ?_, ?_⟩
  · intro k hk
    exact inv_find hinv0 hk
  · intro hl k hk
    exact inv_getDet hinv0 (by rw [hef]; exact hl) hk
  · intro det hlen hb hmem
    exact inv_find_absent hinv0 (by rw [hnf]; exact hlen)
      (by rw [hLf]; exact hb) hmem

/-- C7 (witness): the two-site trie over determinants `[0,1]` and `[1,0]`. -/
theorem C7_trie_roundtrip_witness :
    buildTrie 2 4 true [[0, 1], [1, 0]] =
      some ((buildTrie 2 4 true [[0, 1], [1, 0]]).getD (mkTrie 2 4 true)) ∧
    ((buildTrie 2 4 true [[0, 1], [1, 0]]).getD (mkTrie 2 4 true)).find
        [0, 1] = some (Int.ofNat 0) ∧
    ((buildTrie 2 4 true [[0, 1], [1, 0]]).getD (mkTrie 2 4 true)).getDet 1
      = some [1, 0] ∧
    ((buildTrie 2 4 true [[0, 1], [1, 0]]).getD (mkTrie 2 4 true)).find
        [1, 1] = some (-1) := by
  have hb : buildTrie 2 4 true [[0, 1], [1, 0]] =
      some ((buildTrie 2 4 true [[0, 1], [1, 0]]).getD (mkTrie 2 4 true)) :=
    by rfl
  have h := C7_trie_roundtrip 2 4 true [[0, 1], [1, 0]] _ hb
  refine ⟨hb, h.1 0 (by decide), ?_, ?_⟩
  · have h2 := h.2.1 rfl 1 (by decide)
    simpa using h2
  · exact h.2.2 [1, 1] (by decide) (by decide) (by decide)

/-! ## Claim C2 -/

theorem wisMem_iff (s : WISet) (x : WickIndex) :
    wisMem s x = true ↔ x ∈ s := by
  induction s with
  | nil => simp [wisMem]
  | cons y ys ih =>
    simp only [wisMem, List.contains_cons] at *
    rw [Bool.or_eq_true, beq_iff_eq]
    rw [List.mem_cons]
    constructor
    · rintro (h | h)
      · exact Or.inl h
      · exact Or.inr (ih.mp h)
    · rintro (h | h)
      · exact Or.inl h
      · exact Or.inr (ih.mpr h)

theorem mem_wisInsert {s : WISet} {x y : WickIndex} :
    y ∈ wisInsert s x ↔ y = x ∨ y ∈ s := by
  induction s with
  | nil => simp [wisInsert]
  | cons z zs ih =>
    simp only [wisInsert]
    by_cases h1 : wiLtB x z = true
    · rw [if_pos h1]
      simp [List.mem_cons]
    · rw [if_neg h1]
      by_cases h2 : wiLtB z x = true
      · rw [if_pos h2]
        simp only [List.mem_cons, ih]
        tauto
      · rw [if_neg h2]
        have hxz : x = z := wiLtB_total_eq (Bool.eq_false_iff.mpr h1)
          (Bool.eq_false_iff.mpr h2)
        subst hxz
        simp only [List.mem_cons]
        tauto

theorem mem_wisInsertMany {l : List WickIndex} :
    ∀ {s : WISet} {y : WickIndex},
    y ∈ wisInsertMany s l ↔ y ∈ s ∨ y ∈ l := by
  induction l with
  | nil => intro s y; simp [wisInsertMany]
  | cons x xs ih =>
    intro s y
    show y ∈ wisInsertMany (wisInsert s x) xs ↔ _
    rw [ih, mem_wisInsert]
    simp only [List.mem_cons]
    tauto

theorem mem_mulUsed {a b : WickString} {y : WickIndex} :
    y ∈ mulUsed a b ↔ y ∈ a.usedIndices ∨ y ∈ b.usedIndices := by
  unfold mulUsed wisUnion
  exact mem_wisInsertMany

theorem mem_wisInter {u v : WISet} {y : WickIndex} :
    y ∈ wisInter u v ↔ y ∈ u ∧ wisMem v y = true := by
  unfold wisInter
  rw [List.mem_filter]

theorem findFresh_fresh {used : WISet} {idx g : WickIndex}
    (h : findFresh used idx = some g) : wisMem used g = false := by
  unfold findFresh at h
  have aux : ∀ (l : List Nat) (acc : Option WickIndex),
      (∀ g0, acc = some g0 → wisMem used g0 = false) →
      ∀ g0, l.foldl (fun acc i =>
        match acc with
        | some _ => acc
        | none =>
          let g : WickIndex := ⟨charAdd idx.name (i + 1), idx.types⟩
          if wisMem used g then none else some g) acc = some g0 →
      wisMem used g0 = false := by
    intro l
    induction l with
    | nil => intro acc hacc g0 h0; exact hacc g0 h0
    | cons i is ih =>
      intro acc hacc g0 h0
      refine ih _ ?_ g0 h0
      intro g1 hg1
      cases acc with
      | some g2 => exact hacc g1 hg1
      | none =>
        simp only at hg1
        by_cases hm : wisMem used ⟨charAdd idx.name (i + 1), idx.types⟩ = true
        · rw [if_pos hm] at hg1
          cases hg1
        · rw [if_neg hm] at hg1
          rw [← Option.some_inj.mp hg1]
          exact Bool.eq_false_iff.mpr hm
  exact aux (List.range 99) none (by intro g0 h0; cases h0) g h

theorem renameMap_ok (aRep bRep U : WISet) :
    ∀ (l : List WickIndex) (s : WISet) (m : List (WickIndex × WickIndex)),
    (∀ x ∈ U, x ∈ s) → (∀ p ∈ m, p.2 ∉ U) → (∀ p ∈ m, p.2 ∈ s) →
    m.Pairwise (fun p q => p.2 ≠ q.2) →
    (∀ p ∈ (l.foldl (fun (ac : WISet × List (WickIndex × WickIndex)) idx =>
      if wisMem aRep idx || wisMem bRep idx then
        match findFresh ac.1 idx with
        | some g => (wisInsert ac.1 g, ac.2 ++ [(idx, g)])
        | none => ac
      else ac) (s, m)).2, p.2 ∉ U) ∧
    ((l.foldl (fun (ac : WISet × List (WickIndex × WickIndex)) idx =>
      if wisMem aRep idx || wisMem bRep idx then
        match findFresh ac.1 idx with
        | some g => (wisInsert ac.1 g, ac.2 ++ [(idx, g)])
        | none => ac
      else ac) (s, m)).2.Pairwise (fun p q => p.2 ≠ q.2)) := by
  intro l
  induction l with
  | nil => intro s m h1 h2 h3 h4; exact ⟨h2, h4⟩
  | cons idx is ih =>
    intro s m h1 h2 h3 h4
    simp only [List.foldl_cons]
    by_cases hc : (wisMem aRep idx || wisMem bRep idx) = true
    · rw [if_pos hc]
      cases hff : findFresh s idx with
      | none => exact ih s m h1 h2 h3 h4
      | some g =>
        have hgf : wisMem s g = false := findFresh_fresh hff
        have hgns : g ∉ s := by
          intro hg
          rw [(wisMem_iff s g).mpr hg] at hgf
          cases hgf
        refine ih (wisInsert s g) (m ++ [(idx, g)]) ?_ ?_ ?_ ?_
        · intro x hx
          exact mem_wisInsert.mpr (Or.inr (h1 x hx))
        · intro p hp
          rcases List.mem_append.mp hp with hp | hp
          · exact h2 p hp
          · rw [List.mem_singleton] at hp
            rw [hp]
            intro hgU
            exact hgns (h1 _ hgU)
        · intro p hp
          rcases List.mem_append.mp hp with hp | hp
          · exact mem_wisInsert.mpr (Or.inr (h3 p hp))
          · rw [List.mem_singleton] at hp
            rw [hp]
            exact mem_wisInsert.mpr (Or.inl rfl)
        · rw [List.pairwise_append]
          refine ⟨h4, List.pairwise_singleton _ _, ?_⟩
          intro p hp q hq
          rw [List.mem_singleton] at hq
          rw [hq]
          intro he
          have hg2 : (idx, g).2 ∈ s := he ▸ h3 p hp
          exact hgns hg2
    · rw [if_neg hc]
      exact ih s m h1 h2 h3 h4

theorem mulMp_props (a b : WickString) :
    (∀ p ∈ mulMp a b, p.2 ∉ mulUsed a b) ∧
    (mulMp a b).Pairwise (fun p q => p.2 ≠ q.2) := by
  have h := renameMap_ok (mulARep a b) (mulBRep a b) (mulUsed a b)
    (mulUsed a b) (mulUsed a b) [] (fun x hx => hx)
    (by intro p hp; cases hp) (by intro p hp; cases hp) List.Pairwise.nil
  exact h

theorem mpLookup_mem {m : List (WickIndex × WickIndex)} {x g : WickIndex}
    (h : mpLookup m x = some g) : (x, g) ∈ m := by
  unfold mpLookup at h
  cases hf : m.find? (fun p => decide (p.1 = x)) with
  | none => rw [hf] at h; cases h
  | some q =>
    rw [hf] at h
    have hq1 : q.1 = x := by
      have := List.find?_some hf
      exact of_decide_eq_true this
    have hq2 : q.2 = g := Option.some_inj.mp h
    have hqm : q ∈ m := List.mem_of_find?_eq_some hf
    have : q = (x, g) := by
      cases q
      simp only [Prod.mk.injEq]
      exact ⟨hq1, hq2⟩
    rw [← this]
    exact hqm

theorem lookup_fresh {a b : WickString} {x g : WickIndex}
    (h : mpLookup (mulMp a b) x = some g) : g ∉ mulUsed a b :=
  (mulMp_props a b).1 _ (mpLookup_mem h)

theorem pairwise_forall_ne {m : List (WickIndex × WickIndex)}
    (hpw : m.Pairwise (fun p q => p.2 ≠ q.2)) :
    ∀ {p q : WickIndex × WickIndex}, p ∈ m → q ∈ m → p ≠ q →
    p.2 ≠ q.2 := by
  induction m with
  | nil => intro p q hp; cases hp
  | cons r rs ih =>
    rw [List.pairwise_cons] at hpw
    intro p q hp hq hne
    rcases List.mem_cons.mp hp with hp | hp <;>
      rcases List.mem_cons.mp hq with hq | hq
    · exact absurd (hp.trans hq.symm) hne
    · rw [hp]; exact hpw.1 q hq
    · rw [hq]; exact fun he => (hpw.1 p hp) he.symm
    · exact ih hpw.2 hp hq hne

theorem lookup_inj {a b : WickString} {x y gx gy : WickIndex}
    (hxy : x ≠ y) (hx : mpLookup (mulMp a b) x = some gx)
    (hy : mpLookup (mulMp a b) y = some gy) : gx ≠ gy := by
  have hpx := mpLookup_mem hx
  have hpy := mpLookup_mem hy
  have hne : ((x, gx) : WickIndex × WickIndex) ≠ (y, gy) := by
    intro he
    rw [Prod.mk.injEq] at he
    exact hxy he.1
  exact pairwise_forall_ne (mulMp_props a b).2 hpx hpy hne

/-- Membership facts feeding the main case analysis. -/
theorem ctrA_in_used {a b : WickString} {wi : WickIndex}
    (hA : ∀ x ∈ a.ctrIndices, wisMem a.usedIndices x = true)
    (hwi : wi ∈ a.ctrIndices) : wi ∈ mulUsed a b :=
  mem_mulUsed.mpr (Or.inl ((wisMem_iff _ _).mp (hA wi hwi)))

theorem ctrB_in_used {a b : WickString} {wi : WickIndex}
    (hB : ∀ x ∈ b.ctrIndices, wisMem b.usedIndices x = true)
    (hwi : wi ∈ b.ctrIndices) : wi ∈ mulUsed a b :=
  mem_mulUsed.mpr (Or.inr ((wisMem_iff _ _).mp (hB wi hwi)))

theorem usedA_in_used {a b : WickString} {y : WickIndex}
    (hy : wisMem a.usedIndices y = true) : y ∈ mulUsed a b :=
  mem_mulUsed.mpr (Or.inl ((wisMem_iff _ _).mp hy))

theorem usedB_in_used {a b : WickString} {y : WickIndex}
    (hy : wisMem b.usedIndices y = true) : y ∈ mulUsed a b :=
  mem_mulUsed.mpr (Or.inr ((wisMem_iff _ _).mp hy))

theorem renameA_some {a b : WickString} {wi g : WickIndex}
    (h : mpLookup (mulMp a b) wi = some g) :
    mulRenameA a b wi =
      if (wisMem (mulARep a b) wi && !wisMem (mulCRep a b) wi) = true
      then g else wi := by
  unfold mulRenameA
  rw [h]

theorem renameA_none {a b : WickString} {wi : WickIndex}
    (h : mpLookup (mulMp a b) wi = none) : mulRenameA a b wi = wi := by
  unfold mulRenameA
  rw [h]

theorem renameB_some {a b : WickString} {wi g : WickIndex}
    (h : mpLookup (mulMp a b) wi = some g) :
    mulRenameB a b wi =
      if wisMem (mulBRep a b) wi = true then g else wi := by
  unfold mulRenameB
  rw [h]

theorem renameB_none {a b : WickString} {wi : WickIndex}
    (h : mpLookup (mulMp a b) wi = none) : mulRenameB a b wi = wi := by
  unfold mulRenameB
  rw [h]

/-- C2: with every contraction index present among its operand's tensor
indices and the fresh-name search succeeding for every colliding index,
the product has factor `a.factor * b.factor`, the tensor list of `a`
(renamed) followed by that of `b` (renamed), and the renamings never
identify a contraction index of one operand with any index used by the
other. -/
theorem C2_mul_product (a b : WickString)
    (hA : ∀ wi ∈ a.ctrIndices, wisMem a.usedIndices wi = true)
    (hB : ∀ wi ∈ b.ctrIndices, wisMem b.usedIndices wi = true)
    (hF : ∀ wi ∈ mulUsed a b,
      (wisMem (mulARep a b) wi || wisMem (mulBRep a b) wi) = true →
      (mpLookup (mulMp a b) wi).isSome = true) :
    (a.mulW b).factor = a.factor * b.factor ∧
    (a.mulW b).tensors =
      a.tensors.map (fun t =>
        {t with indices := t.indices.map (mulRenameA a b)}) ++
      b.tensors.map (fun t =>
        {t with indices := t.indices.map (mulRenameB a b)}) ∧
    (∀ wi ∈ a.ctrIndices, ∀ y, wisMem b.usedIndices y = true →
      mulRenameA a b wi ≠ mulRenameB a b y) ∧
    (∀ wi ∈ b.ctrIndices, ∀ y, wisMem a.usedIndices y = true →
      mulRenameB a b wi ≠ mulRenameA a b y) := by
  refine ⟨rfl, rfl, ?_, ?_⟩
  · intro wi hwi y hy
    have hwiU : wi ∈ mulUsed a b := ctrA_in_used hA hwi
    have hyU : y ∈ mulUsed a b := usedB_in_used hy
    cases hlx : mpLookup (mulMp a b) wi with
    | some g =>
      rw [renameA_some hlx]
      by_cases hca : (wisMem (mulARep a b) wi &&
          !wisMem (mulCRep a b) wi) = true
      · rw [if_pos hca]
        cases hly : mpLookup (mulMp a b) y with
        | some g2 =>
          rw [renameB_some hly]
          by_cases hcb : wisMem (mulBRep a b) y = true
          · rw [if_pos hcb]
            refine lookup_inj ?_ hlx hly
            intro he
            rw [Bool.and_eq_true] at hca
            have hwc : wisMem (mulCRep a b) wi = false := by
              cases hx : wisMem (mulCRep a b) wi
              · rfl
              · rw [hx] at hca; cases hca.2
            have hybc : y ∈ b.ctrIndices :=
              (mem_wisInter.mp ((wisMem_iff _ _).mp hcb)).1
            rw [← he] at hybc
            have : wisMem (mulCRep a b) wi = true := by
              rw [wisMem_iff]
              exact mem_wisInter.mpr ⟨hwi, (wisMem_iff _ _).mpr hybc⟩
            rw [this] at hwc
            cases hwc
          · rw [if_neg hcb]
            intro he
            exact lookup_fresh hlx (he.symm ▸ hyU)
        | none =>
          rw [renameB_none hly]
          intro he
          exact lookup_fresh hlx (he.symm ▸ hyU)
      · rw [if_neg hca]
        cases hly : mpLookup (mulMp a b) y with
        | some g2 =>
          rw [renameB_some hly]
          by_cases hcb : wisMem (mulBRep a b) y = true
          · rw [if_pos hcb]
            intro he
            exact lookup_fresh hly (he ▸ hwiU)
          · rw [if_neg hcb]
            intro he
            -- wi = y, both kept; derive contradiction via hF
            subst he
            by_cases hwa : wisMem (mulARep a b) wi = true
            · by_cases hwcr : wisMem (mulCRep a b) wi = true
              · -- wi shared ctr index: then wi ∈ bRep, contradicting hcb
                apply hcb
                rw [wisMem_iff]
                have hcc := mem_wisInter.mp ((wisMem_iff _ _).mp hwcr)
                exact mem_wisInter.mpr
                  ⟨(wisMem_iff _ _).mp hcc.2, hA wi hwi⟩
              · -- wi ∈ aRep \ cRep: condition hca should have held
                apply hca
                rw [Bool.and_eq_true]
                refine ⟨hwa, ?_⟩
                cases hx : wisMem (mulCRep a b) wi
                · rfl
                · exact absurd hx hwcr
            · -- wi ∉ aRep although wi ∈ a.ctr and wi ∈ b.used
              apply hwa
              rw [wisMem_iff]
              exact mem_wisInter.mpr ⟨hwi, hy⟩
        | none =>
          rw [renameB_none hly]
          intro he
          subst he
          rw [hlx] at hly
          cases hly
    | none =>
      -- lookup of wi failed: wi must not collide at all
      rw [renameA_none hlx]
      cases hly : mpLookup (mulMp a b) y with
      | some g2 =>
        rw [renameB_some hly]
        by_cases hcb : wisMem (mulBRep a b) y = true
        · rw [if_pos hcb]
          intro he
          exact lookup_fresh hly (he ▸ hwiU)
        · rw [if_neg hcb]
          intro he
          subst he
          by_cases hwa : wisMem (mulARep a b) wi = true
          · have := hF wi hwiU (by rw [hwa, Bool.true_or])
            rw [hlx] at this
            cases this
          · apply hwa
            rw [wisMem_iff]
            exact mem_wisInter.mpr ⟨hwi, hy⟩
      | none =>
        rw [renameB_none hly]
        intro he
        subst he
        by_cases hwa : wisMem (mulARep a b) wi = true
        · have := hF wi hwiU (by rw [hwa, Bool.true_or])
          rw [hlx] at this
          cases this
        · apply hwa
          rw [wisMem_iff]
          exact mem_wisInter.mpr ⟨hwi, hy⟩
  · intro wi hwi y hy
    have hwiU : wi ∈ mulUsed a b := ctrB_in_used hB hwi
    have hyU : y ∈ mulUsed a b := usedA_in_used hy
    cases hlx : mpLookup (mulMp a b) wi with
    | some g =>
      rw [renameB_some hlx]
      by_cases hcb : wisMem (mulBRep a b) wi = true
      · rw [if_pos hcb]
        cases hly : mpLookup (mulMp a b) y with
        | some g2 =>
          rw [renameA_some hly]
          by_cases hca : (wisMem (mulARep a b) y &&
              !wisMem (mulCRep a b) y) = true
          · rw [if_pos hca]
            refine lookup_inj ?_ hlx hly
            intro he
            rw [Bool.and_eq_true] at hca
            have hyc : wisMem (mulCRep a b) y = false := by
              cases hx : wisMem (mulCRep a b) y
              · rfl
              · rw [hx] at hca; cases hca.2
            have hya : y ∈ a.ctrIndices :=
              (mem_wisInter.mp ((wisMem_iff _ _).mp hca.1)).1
            have : wisMem (mulCRep a b) y = true := by
              rw [wisMem_iff]
              refine mem_wisInter.mpr ⟨hya, ?_⟩
              rw [wisMem_iff]
              exact he ▸ hwi
            rw [this] at hyc
            cases hyc
          · rw [if_neg hca]
            intro he
            exact lookup_fresh hlx (he.symm ▸ hyU)
        | none =>
          rw [renameA_none hly]
          intro he
          exact lookup_fresh hlx (he.symm ▸ hyU)
      · rw [if_neg hcb]
        cases hly : mpLookup (mulMp a b) y with
        | some g2 =>
          rw [renameA_some hly]
          by_cases hca : (wisMem (mulARep a b) y &&
              !wisMem (mulCRep a b) y) = true
          · rw [if_pos hca]
            intro he
            exact lookup_fresh hly (he ▸ hwiU)
          · rw [if_neg hca]
            intro he
            subst he
            apply hcb
            rw [wisMem_iff]
            exact mem_wisInter.mpr ⟨hwi, hy⟩
        | none =>
          rw [renameA_none hly]
          intro he
          subst he
          apply hcb
          rw [wisMem_iff]
          exact mem_wisInter.mpr ⟨hwi, hy⟩
    | none =>
      rw [renameB_none hlx]
      cases hly : mpLookup (mulMp a b) y with
      | some g2 =>
        rw [renameA_some hly]
        by_cases hca : (wisMem (mulARep a b) y &&
            !wisMem (mulCRep a b) y) = true
        · rw [if_pos hca]
          intro he
          exact lookup_fresh hly (he ▸ hwiU)
        · rw [if_neg hca]
          intro he
          subst he
          have hbr : wisMem (mulBRep a b) wi = true := by
            rw [wisMem_iff]
            exact mem_wisInter.mpr ⟨hwi, hy⟩
          have := hF wi hwiU (by rw [hbr, Bool.or_true])
          rw [hlx] at this
          cases this
      | none =>
        rw [renameA_none hly]
        intro he
        subst he
        have hbr : wisMem (mulBRep a b) wi = true := by
          rw [wisMem_iff]
          exact mem_wisInter.mpr ⟨hwi, hy⟩
        have := hF wi hwiU (by rw [hbr, Bool.or_true])
        rw [hlx] at this
        cases this

def c2wA : WickString := ⟨[creOp ⟨"i", 0⟩], [⟨"i", 0⟩], 1⟩
def c2wB : WickString := ⟨[desOp ⟨"i", 0⟩], [⟨"i", 0⟩], 1⟩

/-- C2 (witness): two one-operator terms each summing over `i`. -/
theorem C2_mul_product_witness :
    ((∀ wi ∈ c2wA.ctrIndices, wisMem c2wA.usedIndices wi = true) ∧
     (∀ wi ∈ c2wB.ctrIndices, wisMem c2wB.usedIndices wi = true) ∧
     (∀ wi ∈ mulUsed c2wA c2wB,
       (wisMem (mulARep c2wA c2wB) wi ||
        wisMem (mulBRep c2wA c2wB) wi) = true →
       (mpLookup (mulMp c2wA c2wB) wi).isSome = true)) ∧
    ((c2wA.mulW c2wB).factor = c2wA.factor * c2wB.factor ∧
     (c2wA.mulW c2wB).tensors =
       c2wA.tensors.map (fun t =>
         {t with indices := t.indices.map (mulRenameA c2wA c2wB)}) ++
       c2wB.tensors.map (fun t =>
         {t with indices := t.indices.map (mulRenameB c2wA c2wB)}) ∧
     (∀ wi ∈ c2wA.ctrIndices, ∀ y, wisMem c2wB.usedIndices y = true →
       mulRenameA c2wA c2wB wi ≠ mulRenameB c2wA c2wB y) ∧
     (∀ wi ∈ c2wB.ctrIndices, ∀ y, wisMem c2wA.usedIndices y = true →
       mulRenameB c2wA c2wB wi ≠ mulRenameA c2wA c2wB y)) :=
  ⟨⟨by decide, by decide, by decide⟩,
   C2_mul_product c2wA c2wB (by decide) (by decide) (by decide)⟩

/-- C2 (counterexample): `b`'s summation index `a` collides with `a`'s
free index `a` and is renamed to `b` — which is exactly `a`'s own
summation index (a contraction index that occurs in no tensor escapes
`used_indices`), so the two independent summations are conflated. -/
theorem C2_counterexample :
    mulRenameB
      ⟨[mkWickTensor "T" [⟨"a", 0⟩] [] WTT.tensorTy], [⟨"b", 0⟩], 1⟩
      ⟨[mkWickTensor "U" [⟨"a", 0⟩] [] WTT.tensorTy], [⟨"a", 0⟩], 1⟩
      ⟨"a", 0⟩ = ⟨"b", 0⟩ ∧
    (⟨"b", 0⟩ : WickIndex) ∈
      (⟨[mkWickTensor "T" [⟨"a", 0⟩] [] WTT.tensorTy], [⟨"b", 0⟩], 1⟩ :
        WickString).ctrIndices ∧
    (WickString.mulW
      ⟨[mkWickTensor "T" [⟨"a", 0⟩] [] WTT.tensorTy], [⟨"b", 0⟩], 1⟩
      ⟨[mkWickTensor "U" [⟨"a", 0⟩] [] WTT.tensorTy], [⟨"a", 0⟩], 1⟩).ctrIndices
      = [⟨"b", 0⟩] := by
  refine ⟨?_, ?_, ?_⟩ <;> decide

/-! ## Claim C9 -/

/-- A matrix reference: `some id` is a matrix stored in an operand map,
`none` is the function-local temporary of the `SumProd` branch. -/
abbrev MatId := Option Nat

/-- The operand maps `lop`/`rop` (`map<OpExpr, SparseMatrix>`): operator
label to (matrix id, is-delayed flag on the stored `SparseMatrix`). -/
abbrev OpMap := List (Nat × (Nat × Bool))

/-- `lop.at(x)` preceded by the `count` assert: `none` models the failed
assertion. -/
def opLook (m : OpMap) (k : Nat) : Option (Nat × Bool) :=
  (m.find? (fun p => p.1 == k)).map (·.2)

/-- The primitive side effects performed by the delayed dispatch layer:
`build` of a delayed operand, `deallocate`, the three `opf` kernels and
`opf->iadd`.  Every mutation of matrix storage happens through one of
these events. -/
inductive TPEvent where
  | alloc (m : MatId)
  | build (m : MatId)
  | dealloc (m : MatId)
  | primMultiply (conj : Nat) (l r : MatId) (factor : ℚ)
  | primDiagonal (conj : Nat) (l r : MatId) (factor : ℚ)
  | primProduct (conj : Nat) (l r : MatId) (factor : ℚ)
  | primIadd (dst src : MatId) (factor : ℚ) (conj : Bool)
deriving DecidableEq, Repr

mutual
/-- `OpExpr` nodes as dispatched on by `get_type()`: `Zero`, `Prod`
(`OpString` with operands `a`, `b`, a conjugacy tag and a factor),
`SumProd` (one-sided partial sum with an `ops`/`conjs` list; `bNull`
tells which operand pointer is null), and `Sum` over strings. -/
inductive OpExpr where
  | zero : OpExpr
  | prod (a b : Nat) (conj : Nat) (factor : ℚ) : OpExpr
  | sumProd (ab : Nat) (ops : List (Nat × ℚ × Bool)) (conj : Nat)
      (factor : ℚ) (bNull : Bool) : OpExpr
  | sum (strings : OpExprList) : OpExpr
/-- `vector<shared_ptr<OpString>>` inside `OpSum`. -/
inductive OpExprList where
  | nil : OpExprList
  | cons (x : OpExpr) (xs : OpExprList) : OpExprList
end

/-- The common `Prod` body: build delayed operands, call the kernel,
deallocate in reverse order. -/
def prodEvents (prim : Nat → MatId → MatId → ℚ → TPEvent)
    (lm rm : Nat × Bool) (conj : Nat) (factor : ℚ) : List TPEvent :=
  (if lm.2 then [TPEvent.build (some lm.1)] else []) ++
  (if rm.2 then [TPEvent.build (some rm.1)] else []) ++
  [prim conj (some lm.1) (some rm.1) factor] ++
  (if rm.2 then [TPEvent.dealloc (some rm.1)] else []) ++
  (if lm.2 then [TPEvent.dealloc (some lm.1)] else [])

/-- One `ops[i]` iteration of the `SumProd` accumulation loop: look up
the operand, build it if delayed, `iadd` it into the temporary with
factor `op->factor * op->ops[i]->factor`, deallocate if built. -/
def sumProdStep (side : OpMap) (factor : ℚ) (o : Nat × ℚ × Bool) :
    Option (List TPEvent) :=
  match opLook side o.1 with
  | some m =>
    some ((if m.2 then [TPEvent.build (some m.1)] else []) ++
      [TPEvent.primIadd none (some m.1) (factor * o.2.1) o.2.2] ++
      (if m.2 then [TPEvent.dealloc (some m.1)] else []))
  | none => none

/-- The `SumProd` accumulation loop over `op->ops`. -/
def sumProdLoop (side : OpMap) (factor : ℚ) :
    List (Nat × ℚ × Bool) → Option (List TPEvent)
  | [] => some []
  | o :: os => do
    let e ← sumProdStep side factor o
    let es ← sumProdLoop side factor os
    some (e ++ es)

mutual
/-- `DelayedTensorFunctions::tensor_product` (`mat = eval(expr)`) as the
trace of primitive effects it performs; `none` models a failed assert
(`count == 0`, empty `ops`, or the `default: assert(false)` arm). -/
def tensorProduct (lop rop : OpMap) : OpExpr → Option (List TPEvent)
  | .zero => some []
  | .prod a b conj factor =>
    match opLook lop a, opLook rop b with
    | some lm, some rm =>
      some (prodEvents TPEvent.primProduct lm rm conj factor)
    | _, _ => none
  | .sumProd ab ops conj factor bNull =>
    match ops with
    | [] => none
    | o0 :: _ =>
      if bNull then
        match opLook lop ab, opLook rop o0.1 with
        | some lm, some _ => do
          let evs ← sumProdLoop rop factor ops
          some ([TPEvent.alloc none] ++ evs ++
            (if lm.2 then [TPEvent.build (some lm.1)] else []) ++
            [TPEvent.primProduct conj (some lm.1) none 1] ++
            (if lm.2 then [TPEvent.dealloc (some lm.1)] else []) ++
            [TPEvent.dealloc none])
        | _, _ => none
      else
        match opLook lop o0.1, opLook rop ab with
        | some _, some rm => do
          let evs ← sumProdLoop lop factor ops
          some ([TPEvent.alloc none] ++ evs ++
            (if rm.2 then [TPEvent.build (some rm.1)] else []) ++
            [TPEvent.primProduct conj none (some rm.1) 1] ++
            (if rm.2 then [TPEvent.dealloc (some rm.1)] else []) ++
            [TPEvent.dealloc none])
        | _, _ => none
  | .sum strings => tensorProductList lop rop strings
/-- The `Sum` arm: recurse over the strings, concatenating effects. -/
def tensorProductList (lop rop : OpMap) : OpExprList → Option (List TPEvent)
  | .nil => some []
  | .cons x xs => do
    let e ← tensorProduct lop rop x
    let es ← tensorProductList lop rop xs
    some (e ++ es)
end

mutual
/-- `DelayedTensorFunctions::tensor_product_multiply`
(`vmat = expr x cmat`); has no `SumProd` arm (`default: assert`). -/
def tensorProductMultiply (lop rop : OpMap) : OpExpr → Option (List TPEvent)
  | .zero => some []
  | .prod a b conj factor =>
    match opLook lop a, opLook rop b with
    | some lm, some rm =>
      some (prodEvents TPEvent.primMultiply lm rm conj factor)
    | _, _ => none
  | .sumProd _ _ _ _ _ => none
  | .sum strings => tensorProductMultiplyList lop rop strings
def tensorProductMultiplyList (lop rop : OpMap) :
    OpExprList → Option (List TPEvent)
  | .nil => some []
  | .cons x xs => do
    let e ← tensorProductMultiply lop rop x
    let es ← tensorProductMultiplyList lop rop xs
    some (e ++ es)
end

mutual
/-- `DelayedTensorFunctions::tensor_product_diagonal`
(`mat = diag(expr)`); has no `SumProd` arm (`default: assert`). -/
def tensorProductDiagonal (lop rop : OpMap) : OpExpr → Option (List TPEvent)
  | .zero => some []
  | .prod a b conj factor =>
    match opLook lop a, opLook rop b with
    | some lm, some rm =>
      some (prodEvents TPEvent.primDiagonal lm rm conj factor)
    | _, _ => none
  | .sumProd _ _ _ _ _ => none
  | .sum strings => tensorProductDiagonalList lop rop strings
def tensorProductDiagonalList (lop rop : OpMap) :
    OpExprList → Option (List TPEvent)
  | .nil => some []
  | .cons x xs => do
    let e ← tensorProductDiagonal lop rop x
    let es ← tensorProductDiagonalList lop rop xs
    some (e ++ es)
end

/-- Running a trace of primitive effects against matrix storage of any
type `α`. -/
def applyTrace {α : Type} (step : α → TPEvent → α) (m : α)
    (t : List TPEvent) : α := t.foldl step m

/-- C9: the three delayed-dispatch evaluation functions applied to a
`Zero` expression node perform no operation: each succeeds with an empty
effect trace, so any matrix storage is left unchanged, and the (read-only)
operand maps are untouched since no event references them. -/
theorem C9_zero_no_op (lop rop : OpMap) (α : Type)
    (step : α → TPEvent → α) (mat : α) :
    tensorProduct lop rop OpExpr.zero = some [] ∧
    tensorProductMultiply lop rop OpExpr.zero = some [] ∧
    tensorProductDiagonal lop rop OpExpr.zero = some [] ∧
    (∀ t, tensorProduct lop rop OpExpr.zero = some t →
      applyTrace step mat t = mat) ∧
    (∀ t, tensorProductMultiply lop rop OpExpr.zero = some t →
      applyTrace step mat t = mat) ∧
    (∀ t, tensorProductDiagonal lop rop OpExpr.zero = some t →
      applyTrace step mat t = mat) := by
  refine ⟨rfl, rfl, rfl, ?_, ?_, ?_⟩ <;>
    · intro t ht
      have h0 : some ([] : List TPEvent) = some t := ht
      cases h0
      rfl

/-- C9 (witness): the empty maps and a concrete step function. -/
theorem C9_zero_no_op_witness :
    tensorProduct [] [] OpExpr.zero = some [] ∧
    tensorProductMultiply [] [] OpExpr.zero = some [] ∧
    tensorProductDiagonal [] [] OpExpr.zero = some [] ∧
    (∀ t, tensorProduct [] [] OpExpr.zero = some t →
      applyTrace (fun (m : Nat) _ => m + 1) 7 t = 7) ∧
    (∀ t, tensorProductMultiply [] [] OpExpr.zero = some t →
      applyTrace (fun (m : Nat) _ => m + 1) 7 t = 7) ∧
    (∀ t, tensorProductDiagonal [] [] OpExpr.zero = some t →
      applyTrace (fun (m : Nat) _ => m + 1) 7 t = 7) :=
  C9_zero_no_op [] [] Nat (fun m _ => m + 1) 7

end Block2
